import Mathlib

/-!
# Reference-counted ownership: `SharedPtr`, `WeakPtr`, control blocks

A shallow embedding of `src/smart_pointers.h`.

* Pointers are `Option Nat`; `none` is `nullptr`.  Control blocks and payload
  objects live in two address spaces, each a list indexed by address.
  Addresses are never reused.
* `size_t` counters are naturals reduced modulo `2 ^ 64` on every `++` / `--`.
* Undefined behaviour (null dereference, access to a deallocated control
  block, access to a destroyed payload) is an explicit `Fault`.
* Every destruction and (de)allocation the code performs is appended to a log
  of `Event`s, so that "runs exactly once" is a statement about the log.
* `if constexpr (std::is_base_of_v<EnableSharedFromThis<T>, T>)` is the
  boolean parameter `esft` of the constructors.  The member the constructors
  assign, `ptr_->weakPtr`, is field `weakPtr` of `Object`: a member of that name
  which the payload type declares itself (`EnableSharedFromThis<T>` has none of
  that name, so the constructors compile only for such a payload type).
* The member `weakPtr_` of `EnableSharedFromThis<T>` is `Heap.weakPtr_`: no
  statement of the source assigns it.  The member function `shared_from_this()`
  has no definition here: its body does not compile when instantiated
  (`return nullptr` needs an implicit conversion to `SharedPtr<T>`, and the
  constructor `SharedPtr(T*)` is explicit).
* The call `del(ptr)` of a stored deleter is recorded as an event; what the
  caller's deleter does with the payload is not represented.
-/

namespace SmartPointers

/-! ## Machine integers -/

/-- Number of values of `size_t`. -/
def SIZE_MOD : Nat := 18446744073709551616

/-- The value of a `size_t` after `++`. -/
def incr (n : Nat) : Nat := (n + 1) % SIZE_MOD

/-- The value of a `size_t` after `--`. -/
def decr (n : Nat) : Nat := (n + SIZE_MOD - 1) % SIZE_MOD

/-! ## Data model -/

/-- A raw pointer: `none` is `nullptr`. -/
abbrev Ptr := Option Nat

/-- Undefined behaviour reached by an operation. -/
inductive Fault
  | nullDeref
  | wildPointer
  | useAfterFree
  | deadObject
  | noHandle
deriving DecidableEq, Repr

/-- Which allocator instance performed an allocation or deallocation: a
default-constructed one, or (a rebind of) the instance `a` given by the caller. -/
inductive Alloc
  | defaulted
  | given (a : Nat)
deriving DecidableEq, Repr

/-- The three control-block classes. -/
inductive Strategy
  | base
  | makeShared
  | regular
deriving DecidableEq, Repr

/-- Fields `ptr_`, `block_` of `WeakPtr<T>`. -/
structure WeakPtr where
  ptr_ : Ptr
  block_ : Ptr
deriving DecidableEq, Repr

/-- Fields `ptr_`, `block_` of `SharedPtr<T>`. -/
structure SharedPtr where
  ptr_ : Ptr
  block_ : Ptr
deriving DecidableEq, Repr

/-- A control block: the two counters of `BaseControlBlock`, its dynamic class,
the address of the embedded `value` (`ControlBlockMakeShared`), the stored
allocator `alloc`, and whether its memory has been given back. -/
structure ControlBlock where
  shared_count : Nat
  weak_count : Nat
  strategy : Strategy
  value : Ptr
  alloc : Alloc
  freed : Bool
deriving DecidableEq, Repr

/-- A payload object: whether its destructor has not yet run, and its member
`weakPtr`, the `WeakPtr<T>` that the constructors of `SharedPtr` assign
(`ptr_->weakPtr = *this`).  The payload type declares this member itself; it is
`none` for a payload type without the `EnableSharedFromThis` base, for which the
constructors assign nothing. -/
structure Object where
  alive : Bool
  weakPtr : Option WeakPtr
deriving DecidableEq, Repr

/-- Effects on payloads and on block memory. -/
inductive Event
  | newBlock (b : Nat)
  | allocate (a : Alloc) (b : Nat)
  | deletePayload (p : Nat)
  | deleter (b : Nat) (p : Ptr)
  | destroyValue (b : Nat) (p : Nat)
  | deleteBlock (b : Nat)
  | deallocate (a : Alloc) (b : Nat)
deriving DecidableEq, Repr

/-- The memory: control blocks, payload objects, and the log of effects. -/
structure Heap where
  blocks : List ControlBlock
  objects : List Object
  log : List Event
deriving DecidableEq, Repr

/-- The heap before anything was allocated. -/
def Heap.empty : Heap := ⟨[], [], []⟩

deriving instance DecidableEq for Except

/-! ## Access to control blocks -/

/-- Read the block at address `b`. -/
def Heap.load (h : Heap) (b : Nat) : Except Fault ControlBlock :=
  match h.blocks[b]? with
  | none => .error .wildPointer
  | some cb => if cb.freed then .error .useAfterFree else .ok cb

/-- Read through a block pointer (`block_->...`). -/
def Heap.loadPtr (h : Heap) (bp : Ptr) : Except Fault (Nat × ControlBlock) :=
  match bp with
  | none => .error .nullDeref
  | some b =>
    match h.load b with
    | .error e => .error e
    | .ok cb => .ok (b, cb)

/-- Overwrite the block at address `b`. -/
def Heap.store (h : Heap) (b : Nat) (cb : ControlBlock) : Heap :=
  { h with blocks := h.blocks.set b cb }

/-- Append an event to the log. -/
def Heap.emit (h : Heap) (e : Event) : Heap :=
  { h with log := h.log ++ [e] }

/-- The statement `++bp->shared_count`. -/
def Heap.incShared (h : Heap) (bp : Ptr) : Except Fault Heap :=
  match h.loadPtr bp with
  | .error e => .error e
  | .ok (b, cb) => .ok (h.store b { cb with shared_count := incr cb.shared_count })

/-- The statement `++bp->weak_count`. -/
def Heap.incWeak (h : Heap) (bp : Ptr) : Except Fault Heap :=
  match h.loadPtr bp with
  | .error e => .error e
  | .ok (b, cb) => .ok (h.store b { cb with weak_count := incr cb.weak_count })

/-- Place a newly constructed block at a fresh address. -/
def Heap.place (h : Heap) (cb : ControlBlock) (e : Event) : Heap :=
  { h with blocks := h.blocks ++ [cb], log := h.log ++ [e] }

/-- The constructor `BaseControlBlock()`: `shared_count(1), weak_count(0)`. -/
def BaseControlBlock (s : Strategy) (value : Ptr) (a : Alloc) : ControlBlock :=
  { shared_count := 1, weak_count := 0, strategy := s, value := value, alloc := a,
    freed := false }

/-! ## The virtual hooks and block deallocation -/

/-- The virtual `deallocate()` of the block at `b`: `BaseControlBlock` returns
false; the two derived classes give the block back through a default-constructed
rebound allocator and return true. -/
def Heap.deallocate (h : Heap) (b : Nat) (cb : ControlBlock) : Heap × Bool :=
  match cb.strategy with
  | .base => (h, false)
  | .makeShared => ((h.store b { cb with freed := true }).emit (.deallocate .defaulted b), true)
  | .regular => ((h.store b { cb with freed := true }).emit (.deallocate .defaulted b), true)

/-- The statement `if (!block_->deallocate()) { delete block_; }`. -/
def Heap.freeBlock (h : Heap) (b : Nat) (cb : ControlBlock) : Heap :=
  match h.deallocate b cb with
  | (h1, true) => h1
  | (h1, false) => (h1.store b { cb with freed := true }).emit (.deleteBlock b)

/-! ## `WeakPtr` -/

/-- The constructor `WeakPtr()`. -/
def WeakPtr.empty : WeakPtr := ⟨none, none⟩

/-- The method `WeakPtr::reset()`.  The fields of the handle are not modified. -/
def WeakPtr.reset (h : Heap) (w : WeakPtr) : Except Fault (Heap × WeakPtr) :=
  match w.block_ with
  | none => .ok (h, w)
  | some b =>
    match h.load b with
    | .error e => .error e
    | .ok cb =>
      let cb1 := { cb with weak_count := decr cb.weak_count }
      let h1 := h.store b cb1
      if cb1.shared_count = 0 ∧ cb1.weak_count = 0 then
        .ok (h1.freeBlock b cb1, w)
      else
        .ok (h1, w)

/-- The destructor `~WeakPtr()`. -/
def WeakPtr.destroy (h : Heap) (w : WeakPtr) : Except Fault Heap :=
  match WeakPtr.reset h w with
  | .error e => .error e
  | .ok (h1, _) => .ok h1

/-- The constructor `WeakPtr(const WeakPtr&)` (and its converting form). -/
def WeakPtr.copy (h : Heap) (other : WeakPtr) : Except Fault (Heap × WeakPtr) :=
  match h.incWeak other.block_ with
  | .error e => .error e
  | .ok h1 => .ok (h1, ⟨other.ptr_, other.block_⟩)

/-- The constructor `WeakPtr(WeakPtr&&)`: the new handle and the source afterwards. -/
def WeakPtr.move (other : WeakPtr) : WeakPtr × WeakPtr :=
  (⟨other.ptr_, other.block_⟩, ⟨none, none⟩)

/-- The operator `WeakPtr::operator=(const WeakPtr&)`; `same` is `&other == this`. -/
def WeakPtr.assign (h : Heap) (this other : WeakPtr) (same : Bool) :
    Except Fault (Heap × WeakPtr) :=
  if same then .ok (h, this)
  else
    match WeakPtr.reset h this with
    | .error e => .error e
    | .ok (h1, _) =>
      match h1.incWeak other.block_ with
      | .error e => .error e
      | .ok h2 => .ok (h2, ⟨other.ptr_, other.block_⟩)

/-- The operator `WeakPtr::operator=(WeakPtr&&)`: the heap, `*this` and `other`
afterwards; `same` tells that both are one object. -/
def WeakPtr.moveAssign (h : Heap) (this other : WeakPtr) (same : Bool) :
    Except Fault (Heap × WeakPtr × WeakPtr) :=
  match WeakPtr.reset h this with
  | .error e => .error e
  | .ok (h1, this1) =>
    let src := if same then this1 else other
    .ok (h1, ⟨src.ptr_, src.block_⟩, ⟨none, none⟩)

/-- The constructor `WeakPtr(const SharedPtr&)` (and its converting form). -/
def WeakPtr.ofShared (h : Heap) (other : SharedPtr) : Except Fault (Heap × WeakPtr) :=
  match h.incWeak other.block_ with
  | .error e => .error e
  | .ok h1 => .ok (h1, ⟨other.ptr_, other.block_⟩)

/-- The operator `WeakPtr::operator=(const SharedPtr&)`. -/
def WeakPtr.assignShared (h : Heap) (this : WeakPtr) (other : SharedPtr) :
    Except Fault (Heap × WeakPtr) :=
  match WeakPtr.reset h this with
  | .error e => .error e
  | .ok (h1, _) =>
    match h1.incWeak other.block_ with
    | .error e => .error e
    | .ok h2 => .ok (h2, ⟨other.ptr_, other.block_⟩)

/-- The method `WeakPtr::use_count()`. -/
def WeakPtr.use_count (h : Heap) (w : WeakPtr) : Except Fault Nat :=
  match h.loadPtr w.block_ with
  | .error e => .error e
  | .ok (_, cb) => .ok cb.shared_count

/-- The method `WeakPtr::expired()`. -/
def WeakPtr.expired (h : Heap) (w : WeakPtr) : Except Fault Bool :=
  match h.loadPtr w.block_ with
  | .error e => .error e
  | .ok (_, cb) => .ok (cb.shared_count == 0)

/-! ## Payload destruction -/

/-- The destructor of the payload object at `p`: the object stops being alive
and its member `weakPtr`, when it has one, is destroyed.  (The inherited member
`weakPtr_` is destroyed too; it is default-constructed, and `WeakPtr::reset()`
returns at once on a null `block_`.) -/
def Heap.destructor (h : Heap) (p : Nat) : Except Fault Heap :=
  match h.objects[p]? with
  | none => .error .wildPointer
  | some o =>
    if o.alive then
      let h1 := { h with objects := h.objects.set p { o with alive := false } }
      match o.weakPtr with
      | none => .ok h1
      | some w => WeakPtr.destroy h1 w
    else .error .deadObject

/-- The virtual `delete_object(ptr)` of the block at `b`: `BaseControlBlock`
returns false; `ControlBlockMakeShared` destroys its embedded `value`;
`ControlBlockRegular` calls the stored deleter on `ptr`.  The call `del(ptr)` is
recorded as the event `deleter b ptr`; the deleter is the caller's code, and what
it does with the payload is not represented. -/
def Heap.delete_object (h : Heap) (b : Nat) (cb : ControlBlock) (ptr : Ptr) :
    Except Fault (Heap × Bool) :=
  match cb.strategy with
  | .base => .ok (h, false)
  | .makeShared =>
    match cb.value with
    | none => .error .wildPointer
    | some v =>
      match (h.emit (.destroyValue b v)).destructor v with
      | .error e => .error e
      | .ok h1 => .ok (h1, true)
  | .regular => .ok (h.emit (.deleter b ptr), true)

/-- The statement `delete ptr_` for a non-null `ptr_`. -/
def Heap.deletePayload (h : Heap) (p : Nat) : Except Fault Heap :=
  (h.emit (.deletePayload p)).destructor p

/-- The caller's `new T(...)`: a live payload object at a fresh address, whose
member `weakPtr` (when `T` has the `EnableSharedFromThis` base and declares the
member the constructors assign) is default-constructed. -/
def Heap.newObject (h : Heap) (esft : Bool) : Heap :=
  { h with objects := h.objects ++ [{ alive := true, weakPtr := if esft then some WeakPtr.empty else none }] }

/-! ## `SharedPtr` -/

/-- The constructor `SharedPtr()`. -/
def SharedPtr.empty : SharedPtr := ⟨none, none⟩

/-- The statement `ptr_->weakPtr = *this` of the constructors: the payload's
member `weakPtr` is assigned from the handle under construction. -/
def Heap.setWeakThis (h : Heap) (this : SharedPtr) : Except Fault Heap :=
  match this.ptr_ with
  | none => .error .nullDeref
  | some p =>
    match h.objects[p]? with
    | none => .error .wildPointer
    | some o =>
      if o.alive then
        match o.weakPtr with
        | none => .error .wildPointer
        | some wk =>
          match WeakPtr.assignShared h wk this with
          | .error e => .error e
          | .ok (h1, wk1) =>
            .ok { h1 with objects := h1.objects.set p { o with weakPtr := some wk1 } }
      else .error .deadObject

/-- The block `if constexpr (std::is_base_of_v<EnableSharedFromThis<T>, T>) { ptr_->weakPtr = *this; }`. -/
def Heap.wire (esft : Bool) (h : Heap) (this : SharedPtr) : Except Fault Heap :=
  if esft then h.setWeakThis this else .ok h

/-- The private constructor `SharedPtr(T* ptr, BaseControlBlock* block)`. -/
def SharedPtr.ofBlock (h : Heap) (ptr block : Ptr) : Except Fault (Heap × SharedPtr) :=
  match h.incShared block with
  | .error e => .error e
  | .ok h1 => .ok (h1, ⟨ptr, block⟩)

/-- The constructor `SharedPtr(T* ptr)`. -/
def SharedPtr.ofRaw (esft : Bool) (h : Heap) (ptr : Ptr) : Except Fault (Heap × SharedPtr) :=
  let b := h.blocks.length
  let h1 := h.place (BaseControlBlock .base none .defaulted) (.newBlock b)
  match h1.wire esft ⟨ptr, some b⟩ with
  | .error e => .error e
  | .ok h2 => .ok (h2, ⟨ptr, some b⟩)

/-- The constructor `SharedPtr(U* ptr, const Deleter& del)`. -/
def SharedPtr.ofDeleter (esft : Bool) (h : Heap) (ptr : Ptr) : Except Fault (Heap × SharedPtr) :=
  let b := h.blocks.length
  let h1 := h.place (BaseControlBlock .regular none .defaulted) (.allocate .defaulted b)
  match h1.wire esft ⟨ptr, some b⟩ with
  | .error e => .error e
  | .ok h2 => .ok (h2, ⟨ptr, some b⟩)

/-- The constructor `SharedPtr(U* ptr, const Deleter& del, const Allocator& alloc)`. -/
def SharedPtr.ofDeleterAlloc (esft : Bool) (h : Heap) (ptr : Ptr) (a : Nat) :
    Except Fault (Heap × SharedPtr) :=
  let b := h.blocks.length
  let h1 := h.place (BaseControlBlock .regular none (.given a)) (.allocate .defaulted b)
  match h1.wire esft ⟨ptr, some b⟩ with
  | .error e => .error e
  | .ok h2 => .ok (h2, ⟨ptr, some b⟩)

/-- The constructor `SharedPtr(ControlBlockMakeShared<U, Allocator>* block)` applied
to a block just allocated and constructed by one of the construction helpers:
`a` is the allocator stored in the block. -/
def SharedPtr.ofMakeShared (esft : Bool) (h : Heap) (a : Alloc) : Except Fault (Heap × SharedPtr) :=
  let b := h.blocks.length
  let v := h.objects.length
  let o : Object := { alive := true, weakPtr := if esft then some WeakPtr.empty else none }
  let h1 : Heap := { (h.place (BaseControlBlock .makeShared (some v) a) (.allocate .defaulted b)) with
                     objects := h.objects ++ [o] }
  match h1.wire esft ⟨some v, some b⟩ with
  | .error e => .error e
  | .ok h2 => .ok (h2, ⟨some v, some b⟩)

/-- The helpers `makeShared<T>()` and `makeShared<T>(args...)`. -/
def makeShared (esft : Bool) (h : Heap) : Except Fault (Heap × SharedPtr) :=
  SharedPtr.ofMakeShared esft h .defaulted

/-- The helpers `allocateShared<T>(alloc)` and `allocateShared<T>(alloc, args...)`. -/
def allocateShared (esft : Bool) (h : Heap) (a : Nat) : Except Fault (Heap × SharedPtr) :=
  SharedPtr.ofMakeShared esft h (.given a)

/-- The constructor `SharedPtr(const SharedPtr&)` (and its converting form). -/
def SharedPtr.copy (h : Heap) (other : SharedPtr) : Except Fault (Heap × SharedPtr) :=
  match other.ptr_ with
  | some _ =>
    match h.incShared other.block_ with
    | .error e => .error e
    | .ok h1 => .ok (h1, ⟨other.ptr_, other.block_⟩)
  | none => .ok (h, ⟨other.ptr_, other.block_⟩)

/-- The constructor `SharedPtr(SharedPtr&&)` (and its converting form): the new
handle and the source afterwards. -/
def SharedPtr.move (other : SharedPtr) : SharedPtr × SharedPtr :=
  (⟨other.ptr_, other.block_⟩, ⟨none, none⟩)

/-- The method `SharedPtr::reset()`. -/
def SharedPtr.reset (h : Heap) (s : SharedPtr) : Except Fault (Heap × SharedPtr) :=
  match s.ptr_, s.block_ with
  | some p, some b =>
    match h.load b with
    | .error e => .error e
    | .ok cb =>
      let cb1 := { cb with shared_count := decr cb.shared_count }
      let h1 := h.store b cb1
      if cb1.shared_count = 0 then
        match h1.delete_object b cb1 (some p) with
        | .error e => .error e
        | .ok (h2, handled) =>
          match (if handled then .ok h2 else h2.deletePayload p) with
          | .error e => .error e
          | .ok h3 =>
            match h3.load b with
            | .error e => .error e
            | .ok cb3 =>
              if cb3.weak_count = 0 then .ok (h3.freeBlock b cb3, ⟨none, none⟩)
              else .ok (h3, ⟨none, none⟩)
      else .ok (h1, ⟨none, none⟩)
  | _, _ => .ok (h, s)

/-- The destructor `~SharedPtr()`. -/
def SharedPtr.destroy (h : Heap) (s : SharedPtr) : Except Fault Heap :=
  match SharedPtr.reset h s with
  | .error e => .error e
  | .ok (h1, _) => .ok h1

/-- The operator `SharedPtr::operator=(const SharedPtr&)`; `same` is `&other == this`. -/
def SharedPtr.assign (h : Heap) (this other : SharedPtr) (same : Bool) :
    Except Fault (Heap × SharedPtr) :=
  if same then .ok (h, this)
  else
    match SharedPtr.reset h this with
    | .error e => .error e
    | .ok (h1, _) =>
      match h1.incShared other.block_ with
      | .error e => .error e
      | .ok h2 => .ok (h2, ⟨other.ptr_, other.block_⟩)

/-- The operator `SharedPtr::operator=(SharedPtr&&)`: the heap, `*this` and `other`
afterwards; `same` tells that both are one object. -/
def SharedPtr.moveAssign (h : Heap) (this other : SharedPtr) (same : Bool) :
    Except Fault (Heap × SharedPtr × SharedPtr) :=
  match SharedPtr.reset h this with
  | .error e => .error e
  | .ok (h1, this1) =>
    let src := if same then this1 else other
    .ok (h1, ⟨src.ptr_, src.block_⟩, ⟨none, none⟩)

/-- The constructor `SharedPtr(const SharedPtr<U>& other, T* ptr)`. -/
def SharedPtr.alias (esft : Bool) (h : Heap) (other : SharedPtr) (ptr : Ptr) :
    Except Fault (Heap × SharedPtr) :=
  match h.wire esft ⟨ptr, other.block_⟩ with
  | .error e => .error e
  | .ok h1 =>
    match other.ptr_ with
    | some _ =>
      match h1.incShared other.block_ with
      | .error e => .error e
      | .ok h2 => .ok (h2, ⟨ptr, other.block_⟩)
    | none => .ok (h1, ⟨ptr, other.block_⟩)

/-- The constructor `SharedPtr(SharedPtr<U>&& other, T* ptr)`: the heap, the new
handle and the source afterwards. -/
def SharedPtr.aliasMove (esft : Bool) (h : Heap) (other : SharedPtr) (ptr : Ptr) :
    Except Fault (Heap × SharedPtr × SharedPtr) :=
  match h.wire esft ⟨ptr, other.block_⟩ with
  | .error e => .error e
  | .ok h1 => .ok (h1, ⟨ptr, other.block_⟩, ⟨none, none⟩)

/-- The method `SharedPtr::get()`. -/
def SharedPtr.get (s : SharedPtr) : Ptr := s.ptr_

/-- The method `SharedPtr::swap`: `*this` and `other` afterwards. -/
def SharedPtr.swap (this other : SharedPtr) : SharedPtr × SharedPtr :=
  (⟨other.ptr_, other.block_⟩, ⟨this.ptr_, this.block_⟩)

/-- The method `SharedPtr::use_count()`. -/
def SharedPtr.use_count (h : Heap) (s : SharedPtr) : Except Fault Nat :=
  match h.loadPtr s.block_ with
  | .error e => .error e
  | .ok (_, cb) => .ok cb.shared_count

/-- The method `SharedPtr::reset(T* new_ptr)`. -/
def SharedPtr.resetTo (h : Heap) (s : SharedPtr) (new_ptr : Ptr) :
    Except Fault (Heap × SharedPtr) :=
  match SharedPtr.reset h s with
  | .error e => .error e
  | .ok (h1, _) =>
    let b := h1.blocks.length
    .ok (h1.place (BaseControlBlock .base none .defaulted) (.newBlock b), ⟨new_ptr, some b⟩)

/-- The method `WeakPtr::lock()`. -/
def WeakPtr.lock (h : Heap) (w : WeakPtr) : Except Fault (Heap × SharedPtr) :=
  SharedPtr.ofBlock h w.ptr_ w.block_

/-! ## Programs over handle variables -/

/-- A program state: the heap, the owning-handle variables and the observing-handle
variables declared so far.  A variable whose destructor has run is `none`. -/
structure World where
  heap : Heap
  owners : List (Option SharedPtr)
  observers : List (Option WeakPtr)
deriving DecidableEq, Repr

/-- The state of a program that has not declared anything. -/
def World.empty : World := ⟨Heap.empty, [], []⟩

/-- The owning handle held by variable `i`. -/
def World.owner (w : World) (i : Nat) : Except Fault SharedPtr :=
  match w.owners[i]? with
  | some (some s) => .ok s
  | _ => .error .noHandle

/-- The observing handle held by variable `i`. -/
def World.observer (w : World) (i : Nat) : Except Fault WeakPtr :=
  match w.observers[i]? with
  | some (some s) => .ok s
  | _ => .error .noHandle

/-- Declare a new owning-handle variable. -/
def World.newOwner (w : World) (h : Heap) (s : SharedPtr) : World :=
  { w with heap := h, owners := w.owners ++ [some s] }

/-- Declare a new observing-handle variable. -/
def World.newObserver (w : World) (h : Heap) (s : WeakPtr) : World :=
  { w with heap := h, observers := w.observers ++ [some s] }

/-- Overwrite owning-handle variable `i`. -/
def World.setOwner (w : World) (i : Nat) (s : Option SharedPtr) : World :=
  { w with owners := w.owners.set i s }

/-- Overwrite observing-handle variable `i`. -/
def World.setObserver (w : World) (i : Nat) (s : Option WeakPtr) : World :=
  { w with observers := w.observers.set i s }

/-- Replace the heap. -/
def World.withHeap (w : World) (h : Heap) : World :=
  { w with heap := h }

/-- The public operations of the two handle classes and the construction helpers,
applied to handle variables.  Constructors declare a new variable. -/
inductive Op
  | newPayload (esft : Bool)
  | spDefault
  | spRaw (esft : Bool) (p : Ptr)
  | spDeleter (esft : Bool) (p : Ptr)
  | spDeleterAlloc (esft : Bool) (p : Ptr) (a : Nat)
  | spMakeShared (esft : Bool)
  | spAllocateShared (esft : Bool) (a : Nat)
  | spCopy (i : Nat)
  | spMove (i : Nat)
  | spAlias (esft : Bool) (i : Nat) (p : Ptr)
  | spAliasMove (esft : Bool) (i : Nat) (p : Ptr)
  | spAssign (t s : Nat)
  | spMoveAssign (t s : Nat)
  | spSwap (i j : Nat)
  | spReset (i : Nat)
  | spResetTo (i : Nat) (p : Ptr)
  | spDestroy (i : Nat)
  | wpDefault
  | wpCopy (i : Nat)
  | wpMove (i : Nat)
  | wpAssign (t s : Nat)
  | wpMoveAssign (t s : Nat)
  | wpOfShared (i : Nat)
  | wpAssignShared (t s : Nat)
  | wpReset (i : Nat)
  | wpDestroy (i : Nat)
  | wpLock (i : Nat)
deriving DecidableEq, Repr

/-- Lift a constructor result to a new owning-handle variable. -/
def World.declOwner (w : World) (r : Except Fault (Heap × SharedPtr)) : Except Fault World :=
  match r with
  | .error e => .error e
  | .ok (h, s) => .ok (w.newOwner h s)

/-- Lift a constructor result to a new observing-handle variable. -/
def World.declObserver (w : World) (r : Except Fault (Heap × WeakPtr)) : Except Fault World :=
  match r with
  | .error e => .error e
  | .ok (h, s) => .ok (w.newObserver h s)

/-- Lift the result of a method of owning-handle variable `i`. -/
def World.updOwner (w : World) (i : Nat) (r : Except Fault (Heap × SharedPtr)) :
    Except Fault World :=
  match r with
  | .error e => .error e
  | .ok (h, s) => .ok ((w.withHeap h).setOwner i (some s))

/-- Lift the result of a method of observing-handle variable `i`. -/
def World.updObserver (w : World) (i : Nat) (r : Except Fault (Heap × WeakPtr)) :
    Except Fault World :=
  match r with
  | .error e => .error e
  | .ok (h, s) => .ok ((w.withHeap h).setObserver i (some s))

/-- One operation of a program. -/
def step (w : World) : Op → Except Fault World
  | .newPayload esft => .ok (w.withHeap (w.heap.newObject esft))
  | .spDefault => .ok (w.newOwner w.heap SharedPtr.empty)
  | .spRaw esft p => w.declOwner (SharedPtr.ofRaw esft w.heap p)
  | .spDeleter esft p => w.declOwner (SharedPtr.ofDeleter esft w.heap p)
  | .spDeleterAlloc esft p a => w.declOwner (SharedPtr.ofDeleterAlloc esft w.heap p a)
  | .spMakeShared esft => w.declOwner (makeShared esft w.heap)
  | .spAllocateShared esft a => w.declOwner (allocateShared esft w.heap a)
  | .spCopy i =>
    match w.owner i with
    | .error e => .error e
    | .ok o => w.declOwner (SharedPtr.copy w.heap o)
  | .spMove i =>
    match w.owner i with
    | .error e => .error e
    | .ok o => .ok ((w.setOwner i (some (SharedPtr.move o).2)).newOwner w.heap (SharedPtr.move o).1)
  | .spAlias esft i p =>
    match w.owner i with
    | .error e => .error e
    | .ok o => w.declOwner (SharedPtr.alias esft w.heap o p)
  | .spAliasMove esft i p =>
    match w.owner i with
    | .error e => .error e
    | .ok o =>
      match SharedPtr.aliasMove esft w.heap o p with
      | .error e => .error e
      | .ok (h, s, o1) => .ok ((w.setOwner i (some o1)).newOwner h s)
  | .spAssign t s =>
    match w.owner t, w.owner s with
    | .ok this, .ok other => w.updOwner t (SharedPtr.assign w.heap this other (t == s))
    | .error e, _ => .error e
    | _, .error e => .error e
  | .spMoveAssign t s =>
    match w.owner t, w.owner s with
    | .ok this, .ok other =>
      match SharedPtr.moveAssign w.heap this other (t == s) with
      | .error e => .error e
      | .ok (h, this1, other1) =>
        .ok (((w.withHeap h).setOwner t (some this1)).setOwner s (some other1))
    | .error e, _ => .error e
    | _, .error e => .error e
  | .spSwap i j =>
    match w.owner i, w.owner j with
    | .ok a, .ok b =>
      .ok ((w.setOwner i (some (SharedPtr.swap a b).1)).setOwner j
            (some (if i == j then a else (SharedPtr.swap a b).2)))
    | .error e, _ => .error e
    | _, .error e => .error e
  | .spReset i =>
    match w.owner i with
    | .error e => .error e
    | .ok o => w.updOwner i (SharedPtr.reset w.heap o)
  | .spResetTo i p =>
    match w.owner i with
    | .error e => .error e
    | .ok o => w.updOwner i (SharedPtr.resetTo w.heap o p)
  | .spDestroy i =>
    match w.owner i with
    | .error e => .error e
    | .ok o =>
      match SharedPtr.destroy w.heap o with
      | .error e => .error e
      | .ok h => .ok ((w.withHeap h).setOwner i none)
  | .wpDefault => .ok (w.newObserver w.heap WeakPtr.empty)
  | .wpCopy i =>
    match w.observer i with
    | .error e => .error e
    | .ok o => w.declObserver (WeakPtr.copy w.heap o)
  | .wpMove i =>
    match w.observer i with
    | .error e => .error e
    | .ok o =>
      .ok ((w.setObserver i (some (WeakPtr.move o).2)).newObserver w.heap (WeakPtr.move o).1)
  | .wpAssign t s =>
    match w.observer t, w.observer s with
    | .ok this, .ok other => w.updObserver t (WeakPtr.assign w.heap this other (t == s))
    | .error e, _ => .error e
    | _, .error e => .error e
  | .wpMoveAssign t s =>
    match w.observer t, w.observer s with
    | .ok this, .ok other =>
      match WeakPtr.moveAssign w.heap this other (t == s) with
      | .error e => .error e
      | .ok (h, this1, other1) =>
        .ok (((w.withHeap h).setObserver t (some this1)).setObserver s (some other1))
    | .error e, _ => .error e
    | _, .error e => .error e
  | .wpOfShared i =>
    match w.owner i with
    | .error e => .error e
    | .ok o => w.declObserver (WeakPtr.ofShared w.heap o)
  | .wpAssignShared t s =>
    match w.observer t, w.owner s with
    | .ok this, .ok other => w.updObserver t (WeakPtr.assignShared w.heap this other)
    | .error e, _ => .error e
    | _, .error e => .error e
  | .wpReset i =>
    match w.observer i with
    | .error e => .error e
    | .ok o => w.updObserver i (WeakPtr.reset w.heap o)
  | .wpDestroy i =>
    match w.observer i with
    | .error e => .error e
    | .ok o =>
      match WeakPtr.destroy w.heap o with
      | .error e => .error e
      | .ok h => .ok ((w.withHeap h).setObserver i none)
  | .wpLock i =>
    match w.observer i with
    | .error e => .error e
    | .ok o => w.declOwner (WeakPtr.lock w.heap o)

/-- Run a program from a state. -/
def run (w : World) : List Op → Except Fault World
  | [] => .ok w
  | op :: ops =>
    match step w op with
    | .error e => .error e
    | .ok w1 => run w1 ops

/-- The states a program can reach from the empty state when every operation it
performs is admitted by `adm` in the state where it is performed. -/
inductive Reachable (adm : World → Op → Prop) : World → Prop
  | init : Reachable adm World.empty
  | next (w w1 : World) (op : Op) :
      Reachable adm w → adm w op → step w op = .ok w1 → Reachable adm w1

/-! ## Observations used by the statements -/

/-- Number of times block `b` was given back (by `delete block_` or by an allocator). -/
def freeCount (log : List Event) (b : Nat) : Nat :=
  log.countP (fun e => match e with
    | .deleteBlock c => c == b
    | .deallocate _ c => c == b
    | _ => false)

/-- Number of times a destruction path ran on the payload at `p`: `delete ptr_`,
the stored deleter, or the in-place destructor of an embedded value. -/
def destroyCount (log : List Event) (p : Nat) : Nat :=
  log.countP (fun e => match e with
    | .deletePayload q => q == p
    | .deleter _ q => q == some p
    | .destroyValue _ q => q == p
    | _ => false)

/-- Number of owning-handle variables whose `block_` is the block at `b`. -/
def ownerRefs (owners : List (Option SharedPtr)) (b : Nat) : Nat :=
  owners.countP (fun o => match o with
    | some s => s.block_ == some b
    | none => false)

/-- Number of observing-handle variables whose `block_` is the block at `b`. -/
def observerRefs (observers : List (Option WeakPtr)) (b : Nat) : Nat :=
  observers.countP (fun o => match o with
    | some s => s.block_ == some b
    | none => false)

/-- The scenario `p1 = SharedPtr(new T); w = WeakPtr(p1); p1.reset();`: variable
`w` is an observing handle whose object has been destroyed and whose block is
still allocated. -/
def expiredScenario : List Op :=
  [.newPayload false, .spRaw false (some 0), .wpOfShared 0, .spReset 0]

/-- Destroy the handles of one control block in the order given by `l`: `true`
destroys an owning handle `s`, `false` destroys an observing handle `w`. -/
def releaseAll (h : Heap) (s : SharedPtr) (w : WeakPtr) : List Bool → Except Fault Heap
  | [] => .ok h
  | true :: l =>
    match SharedPtr.destroy h s with
    | .error e => .error e
    | .ok h1 => releaseAll h1 s w l
  | false :: l =>
    match WeakPtr.destroy h w with
    | .error e => .error e
    | .ok h1 => releaseAll h1 s w l

/-- The payload at `p` can be destroyed by the block `cb`: it is a live object
without the `EnableSharedFromThis` base and, for an embedded value, it is the
block's `value`. -/
def PayloadReady (h : Heap) (cb : ControlBlock) (p : Nat) : Prop :=
  h.objects[p]? = some ⟨true, none⟩ ∧ (cb.strategy = .makeShared → cb.value = some p)

/-- Number of times the destruction path of strategy `st` ran on the payload `p`
of block `b`: `delete ptr_` for `BaseControlBlock`, the stored deleter for
`ControlBlockRegular`, the in-place destructor for `ControlBlockMakeShared`. -/
def pathCount (st : Strategy) (log : List Event) (b p : Nat) : Nat :=
  log.countP (fun e => match st, e with
    | .base, .deletePayload q => q == p
    | .regular, .deleter c q => c == b && q == some p
    | .makeShared, .destroyValue c q => c == b && q == p
    | _, _ => false)

/-- The block at `b` has class `st`, counters `m` and `k`, and is freed exactly
when both are zero; it has been given back `f` times before that and once more
when both are zero; a destruction path has run on its payload `p` `d` times (the
path of `st`: `e` times) while `m` was positive and once more when `m` is zero;
while `m` is positive the payload can still be destroyed. -/
def Tracks (h : Heap) (b p : Nat) (st : Strategy) (m k f d e : Nat) : Prop :=
  ∃ cb, h.blocks[b]? = some cb ∧ cb.shared_count = m ∧ cb.weak_count = k ∧
    cb.strategy = st ∧
    (cb.freed = true ↔ (m = 0 ∧ k = 0)) ∧
    freeCount h.log b = f + (if m = 0 ∧ k = 0 then 1 else 0) ∧
    destroyCount h.log p = d + (if m = 0 then 1 else 0) ∧
    pathCount st h.log b p = e + (if m = 0 then 1 else 0) ∧
    (0 < m → PayloadReady h cb p)

/-- The constructor call that wraps the raw pointer `p`: `SharedPtr(p)`, or
`SharedPtr(p, del)` when `reg` is set. -/
def wrapOp (reg : Bool) (p : Nat) : Op :=
  if reg then .spDeleter false (some p) else .spRaw false (some p)

/-- The program `T* p = new T; SharedPtr<T> s0(p); SharedPtr<T> s1(s0); ...`
declaring `N` owning handles of one payload, run after the state `w0`. -/
def copiesProgram (reg : Bool) (w0 : World) (N : Nat) : List Op :=
  [.newPayload false, wrapOp reg w0.heap.objects.length] ++
    List.replicate (N - 1) (.spCopy w0.owners.length)

/-- The state in which `copiesProgram` ends. -/
def afterCopies (reg : Bool) (w0 : World) (N : Nat) : World :=
  { heap :=
      { blocks := w0.heap.blocks ++
          [⟨N, 0, if reg then .regular else .base, none, .defaulted, false⟩],
        objects := w0.heap.objects ++ [⟨true, none⟩],
        log := w0.heap.log ++
          [if reg then .allocate .defaulted w0.heap.blocks.length
           else .newBlock w0.heap.blocks.length] },
    owners := w0.owners ++
      List.replicate N (some ⟨some w0.heap.objects.length, some w0.heap.blocks.length⟩),
    observers := w0.observers }

/-- Whether the handle variable `o` refers to the block at `c` (1) or not (0). -/
def hit (o : Option SharedPtr) (c : Nat) : Nat :=
  match o with
  | some s => if s.block_ = some c then 1 else 0
  | none => 0

/-- Every allocated block's `shared_count` is `r c` reduced to `size_t`, and `r`
is zero at the addresses not yet used. -/
def Counted (h : Heap) (r : Nat → Nat) : Prop :=
  (∀ (c : Nat) (cb : ControlBlock), h.blocks[c]? = some cb → cb.freed = false →
    cb.shared_count = r c % SIZE_MOD) ∧
  ∀ c : Nat, h.blocks.length ≤ c → r c = 0

/-- From `h` to `h1` no block was added and every block still allocated in `h1`
was allocated in `h` with the same `shared_count`. -/
def Stable (h h1 : Heap) : Prop :=
  h1.blocks.length = h.blocks.length ∧
  ∀ (c : Nat) (cb1 : ControlBlock), h1.blocks[c]? = some cb1 → cb1.freed = false →
    ∃ cb : ControlBlock, h.blocks[c]? = some cb ∧ cb.freed = false ∧
      cb.shared_count = cb1.shared_count

/-- The pairs of payload pointer and block that the operation `op`, performed in
the state `w`, can give to a handle without taking them from an existing handle:
a wrapped or re-seated raw pointer with a new block, an embedded value with its
new block, or an alias pointer with the block of the source handle. -/
def freshPair (w : World) : Op → SharedPtr → Prop
  | .spRaw _ p, s => s.ptr_ = p ∧ ∃ b : Nat, s.block_ = some b
  | .spDeleter _ p, s => s.ptr_ = p ∧ ∃ b : Nat, s.block_ = some b
  | .spDeleterAlloc _ p _, s => s.ptr_ = p ∧ ∃ b : Nat, s.block_ = some b
  | .spResetTo _ p, s => s.ptr_ = p ∧ ∃ b : Nat, s.block_ = some b
  | .spMakeShared _, s => ∃ a b : Nat, s = ⟨some a, some b⟩
  | .spAllocateShared _ _, s => ∃ a b : Nat, s = ⟨some a, some b⟩
  | .spAlias _ i p, s => ∃ o, w.owner i = .ok o ∧ s = ⟨p, o.block_⟩
  | .spAliasMove _ i p, s => ∃ o, w.owner i = .ok o ∧ s = ⟨p, o.block_⟩
  | _, _ => False

/-- Where the fields of an owning handle after an operation come from. -/
def OwnerOrigin (w : World) (op : Op) (s : SharedPtr) : Prop :=
  some s ∈ w.owners ∨ s = ⟨none, none⟩ ∨
    (∃ x : WeakPtr, some x ∈ w.observers ∧ s = ⟨x.ptr_, x.block_⟩) ∨ freshPair w op s

/-- Where the fields of an observing handle after an operation come from. -/
def ObserverOrigin (w : World) (x : WeakPtr) : Prop :=
  some x ∈ w.observers ∨ x = ⟨none, none⟩ ∨
    ∃ s : SharedPtr, some s ∈ w.owners ∧ x = ⟨s.ptr_, s.block_⟩

/-- No owning handle has a null payload pointer together with a block. -/
def NoBareBlock (w : World) : Prop :=
  ∀ s : SharedPtr, some s ∈ w.owners → s.ptr_ = none → s.block_ = none

/-- What one operation does to the handles and to the counters: every handle
field comes from an existing handle or from the operation, and counting is kept. -/
def StepSummary (w w1 : World) (op : Op) : Prop :=
  (∀ s : SharedPtr, some s ∈ w1.owners → OwnerOrigin w op s) ∧
  (∀ x : WeakPtr, some x ∈ w1.observers → ObserverOrigin w x) ∧
  (Counted w.heap (ownerRefs w.owners) → NoBareBlock w →
    Counted w1.heap (ownerRefs w1.owners))

/-- Every raw pointer and alias pointer given to the operation is non-null. -/
def nonNullArgs : Op → Prop
  | .spRaw _ p => p ≠ none
  | .spDeleter _ p => p ≠ none
  | .spDeleterAlloc _ p _ => p ≠ none
  | .spResetTo _ p => p ≠ none
  | .spAlias _ _ p => p ≠ none
  | .spAliasMove _ _ p => p ≠ none
  | _ => True

/-- Every raw pointer wrapped or re-seated by the operation is non-null, and an
alias pointer is null exactly when the source handle has no block. -/
def keepsPairing (w : World) : Op → Prop
  | .spRaw _ p => p ≠ none
  | .spDeleter _ p => p ≠ none
  | .spDeleterAlloc _ p _ => p ≠ none
  | .spResetTo _ p => p ≠ none
  | .spAlias _ i p => ∀ o, w.owner i = .ok o → (p = none ↔ o.block_ = none)
  | .spAliasMove _ i p => ∀ o, w.owner i = .ok o → (p = none ↔ o.block_ = none)
  | _ => True

/-- Every operation of the program `ops`, run from `w`, is admitted by `adm` in
the state where it is performed. -/
def admitted (adm : World → Op → Prop) (w : World) : List Op → Prop
  | [] => True
  | op :: ops =>
    adm w op ∧
      match step w op with
      | .ok w1 => admitted adm w1 ops
      | .error _ => True

/-- The member `weakPtr_` (line 620) that the payload at `p` inherits from
`EnableSharedFromThis<T>`, the handle `shared_from_this()` is written to read:
`none` when there is no object at `p` or its type lacks the base.
`EnableSharedFromThis() = default` initialises it by `WeakPtr()`, and no statement
of the source assigns it (the constructors of `SharedPtr` assign `ptr_->weakPtr`),
so in every heap it is the default-constructed handle. -/
def Heap.weakPtr_ (h : Heap) (p : Nat) : Option WeakPtr :=
  match h.objects[p]? with
  | none => none
  | some o =>
    match o.weakPtr with
    | none => none
    | some _ => some WeakPtr.empty

/-- The helpers `makeShared<T>(args...)` when the payload's constructor throws:
`allocate` has given the storage of the block at a fresh address, `construct`
throws, and the exception leaves the helper, so that no statement after
`construct` runs.  The result is the heap in which the exception reaches the
caller; the storage is recorded as a block that is not freed. -/
def makeSharedThrows (h : Heap) : Heap :=
  h.place (BaseControlBlock .makeShared none .defaulted) (.allocate .defaulted h.blocks.length)

/-- The helpers `allocateShared<T>(alloc, args...)` when the payload's constructor
throws; see `makeSharedThrows`. -/
def allocateSharedThrows (h : Heap) (a : Nat) : Heap :=
  h.place (BaseControlBlock .makeShared none (.given a)) (.allocate .defaulted h.blocks.length)

/-- Destroy the owning handles `hs` one after the other. -/
def releaseEach (h : Heap) : List SharedPtr → Except Fault Heap
  | [] => .ok h
  | s :: hs =>
    match SharedPtr.destroy h s with
    | .error e => .error e
    | .ok h1 => releaseEach h1 hs

/-- Number of memory allocations of control blocks (`new BaseControlBlock()` or an
allocator's `allocate`). -/
def allocCount (log : List Event) : Nat :=
  log.countP (fun e => match e with
    | .newBlock _ => true
    | .allocate _ _ => true
    | _ => false)

/-- Number of times the memory of any control block was given back. -/
def totalFrees (log : List Event) : Nat :=
  log.countP (fun e => match e with
    | .deleteBlock _ => true
    | .deallocate _ _ => true
    | _ => false)

/-- The scenario of an aliasing handle released last: `a = SharedPtr(p0)`,
`s = SharedPtr(a, p1)` with `p1` another object, `a.reset()`, `s.reset()`;
`reg` chooses the deleter constructor for `a`. -/
def aliasLastScenario (reg : Bool) : List Op :=
  [.newPayload false, .newPayload false, wrapOp reg 0, .spAlias false 0 (some 1),
   .spReset 0, .spReset 1]

/-- The example trace `p1 = SharedPtr(new Widget); p2 = p1; w = WeakPtr(p1);
p2.reset(); p1.reset();` cut after its first `n` statements (the allocation of the
Widget being the first). -/
def widgetTrace (n : Nat) : List Op :=
  ([.newPayload false, .spRaw false (some 0), .spCopy 0, .wpOfShared 0, .spReset 1,
    .spReset 0] : List Op).take n

/-- The destruction path a block of class `st` at `b` takes on the payload `p` in
the release that brings `shared_count` to zero: ordinary destruction
(`delete ptr_`) for `BaseControlBlock`, whose hook returns false; the in-place
destructor for `ControlBlockMakeShared`; the stored deleter for
`ControlBlockRegular`. -/
def destructionPath (st : Strategy) (b p : Nat) : Event :=
  match st with
  | .base => .deletePayload p
  | .makeShared => .destroyValue b p
  | .regular => .deleter b (some p)

/-- The deallocation path of a block of class `st` at `b`: ordinary deallocation
(`delete block_`) for `BaseControlBlock`, whose hook returns false; the hook's own
`deallocate` for the two derived classes. -/
def deallocationPath (st : Strategy) (b : Nat) : Event :=
  match st with
  | .base => .deleteBlock b
  | .makeShared => .deallocate .defaulted b
  | .regular => .deallocate .defaulted b

/-! ## Theorems -/

/-- C1 (code defect): `WeakPtr::lock()` on an expired observing handle whose block
is still allocated does not return an empty handle: it returns a handle holding the
observing handle's payload pointer and block, and `shared_count` goes from 0 to 1. -/
theorem lock_expired_resurrects :
    (∃ w, run World.empty expiredScenario = .ok w ∧
      WeakPtr.expired w.heap ⟨some 0, some 0⟩ = .ok true ∧
      w.observers = [some ⟨some 0, some 0⟩] ∧
      WeakPtr.use_count w.heap ⟨some 0, some 0⟩ = .ok 0 ∧
      ∃ h1, WeakPtr.lock w.heap ⟨some 0, some 0⟩ = .ok (h1, ⟨some 0, some 0⟩) ∧
        SharedPtr.use_count h1 ⟨some 0, some 0⟩ = .ok 1) := by
  refine ⟨_, rfl, by decide, by decide, by decide, _, rfl, by decide⟩

/-- C2 (code defect): after `p1 = SharedPtr(new T); w = WeakPtr(p1); p1.reset();
l = w.lock();` the block has `shared_count = 1` and the owning handle `l` refers to
it, while the payload has already been destroyed; releasing `l` then runs
`delete ptr_` on the destroyed payload a second time. -/
theorem alive_iff_shared_count_violated :
    (∃ w, run World.empty (expiredScenario ++ [.wpLock 0]) = .ok w ∧
      w.owners[1]? = some (some ⟨some 0, some 0⟩) ∧
      SharedPtr.use_count w.heap ⟨some 0, some 0⟩ = .ok 1 ∧
      w.heap.objects[0]? = some ⟨false, none⟩ ∧
      destroyCount w.heap.log 0 = 1 ∧
      step w (.spReset 1) = .error .deadObject) := by
  refine ⟨_, rfl, by decide, by decide, by decide, by decide, by decide⟩

theorem load_ok {h : Heap} {b : Nat} {cb : ControlBlock}
    (hb : h.blocks[b]? = some cb) (hl : cb.freed = false) : h.load b = .ok cb := by
  simp [Heap.load, hb, hl]

theorem load_ok_iff {h : Heap} {b : Nat} {cb : ControlBlock} :
    h.load b = .ok cb ↔ h.blocks[b]? = some cb ∧ cb.freed = false := by
  unfold Heap.load
  cases hb : h.blocks[b]? with
  | none => simp
  | some c =>
    by_cases hf : c.freed = true
    · simp [hf]
      intro hc
      rw [hc] at hf
      simp [hf]
    · simp [hf]
      intro hc
      rw [← hc]
      simpa using hf

theorem incr_lt {n : Nat} (hn : n + 1 < SIZE_MOD) : incr n = n + 1 := by
  unfold incr
  exact Nat.mod_eq_of_lt hn

theorem decr_pos {n : Nat} (hn : 0 < n) (hm : n < SIZE_MOD) : decr n = n - 1 := by
  unfold decr SIZE_MOD at *
  omega

theorem store_blocks_self {h : Heap} {b : Nat} {cb : ControlBlock} (cb1 : ControlBlock)
    (hb : h.blocks[b]? = some cb) : (h.store b cb1).blocks[b]? = some cb1 := by
  have hlt : b < h.blocks.length := (List.getElem?_eq_some.mp hb).1
  simp [Heap.store, List.getElem?_set, hlt]

theorem store_blocks_ne {h : Heap} {b c : Nat} {cb1 : ControlBlock}
    (hne : b ≠ c) : (h.store b cb1).blocks[c]? = h.blocks[c]? := by
  simp [Heap.store, List.getElem?_set, hne]

/-- C10: `lock()` on an observing handle whose block is allocated and has
`shared_count = c > 0` (with `c + 1` representable in `size_t`) returns an
owning handle with the same payload pointer and the same, non-null, block;
afterwards `use_count()` is `c + 1`, `weak_count` is unchanged, and nothing else
in the heap changed. -/
theorem lock_not_expired (h : Heap) (w : WeakPtr) (b : Nat) (cb : ControlBlock)
    (hw : w.block_ = some b) (hb : h.blocks[b]? = some cb) (hl : cb.freed = false)
    (hc : 0 < cb.shared_count) (hmax : cb.shared_count + 1 < SIZE_MOD) :
    WeakPtr.expired h w = .ok false ∧
    ∃ h1 s, WeakPtr.lock h w = .ok (h1, s) ∧
      s.ptr_ = w.ptr_ ∧ s.block_ = w.block_ ∧ s.block_ = some b ∧
      SharedPtr.use_count h1 s = .ok (cb.shared_count + 1) ∧
      WeakPtr.use_count h1 w = .ok (cb.shared_count + 1) ∧
      h1 = h.store b { cb with shared_count := cb.shared_count + 1 } ∧
      (∃ cb1, h1.blocks[b]? = some cb1 ∧ cb1.weak_count = cb.weak_count ∧
        cb1.freed = false) := by
  have hld : h.load b = .ok cb := load_ok hb hl
  have hne : cb.shared_count ≠ 0 := by omega
  have hb1 := store_blocks_self { cb with shared_count := cb.shared_count + 1 } hb
  refine ⟨by simp [WeakPtr.expired, Heap.loadPtr, hw, hld, hne],
    h.store b { cb with shared_count := cb.shared_count + 1 }, ⟨w.ptr_, w.block_⟩,
    ?_, rfl, rfl, hw, ?_, ?_, rfl, ⟨_, hb1, rfl, hl⟩⟩
  · simp [WeakPtr.lock, SharedPtr.ofBlock, Heap.incShared, Heap.loadPtr, hw, hld, incr_lt hmax]
  · simp only [SharedPtr.use_count, Heap.loadPtr, hw, load_ok hb1 hl]
  · simp only [WeakPtr.use_count, Heap.loadPtr, hw, load_ok hb1 hl]

/-- Witness for `lock_not_expired`: a block with two owners and one observer. -/
theorem lock_not_expired_witness :
    WeakPtr.expired ⟨[⟨2, 1, .base, none, .defaulted, false⟩], [⟨true, none⟩], []⟩
        ⟨some 0, some 0⟩ = .ok false ∧
    ∃ h1 s, WeakPtr.lock ⟨[⟨2, 1, .base, none, .defaulted, false⟩], [⟨true, none⟩], []⟩
        ⟨some 0, some 0⟩ = .ok (h1, s) ∧
      s.ptr_ = some 0 ∧ s.block_ = some 0 ∧ s.block_ = some 0 ∧
      SharedPtr.use_count h1 s = .ok (2 + 1) ∧
      WeakPtr.use_count h1 ⟨some 0, some 0⟩ = .ok (2 + 1) ∧
      h1 = Heap.store ⟨[⟨2, 1, .base, none, .defaulted, false⟩], [⟨true, none⟩], []⟩ 0
        { (⟨2, 1, .base, none, .defaulted, false⟩ : ControlBlock) with shared_count := 2 + 1 } ∧
      (∃ cb1, h1.blocks[0]? = some cb1 ∧ cb1.weak_count = 1 ∧ cb1.freed = false) :=
  lock_not_expired ⟨[⟨2, 1, .base, none, .defaulted, false⟩], [⟨true, none⟩], []⟩
    ⟨some 0, some 0⟩ 0 ⟨2, 1, .base, none, .defaulted, false⟩ rfl rfl rfl (by decide) (by decide)

/-- C4 (code defect): for a payload with the `EnableSharedFromThis` base wrapped by
`SharedPtr(T*)` (block counters 1 and 1, no other observer), releasing the only
owning handle destroys the payload; the payload's destructor releases the embedded
observing handle, which frees the block; `SharedPtr::reset` then reads
`block_->weak_count` from the freed block.  The same happens for `makeShared`. -/
theorem self_aware_last_release_uses_freed_block :
    (∃ w, run World.empty [.newPayload true, .spRaw true (some 0)] = .ok w ∧
      w.owners = [some ⟨some 0, some 0⟩] ∧ w.observers = [] ∧
      w.heap.blocks = [⟨1, 1, .base, none, .defaulted, false⟩] ∧
      w.heap.objects = [⟨true, some ⟨some 0, some 0⟩⟩] ∧
      (∃ h1, (w.heap.store 0 ⟨0, 1, .base, none, .defaulted, false⟩).deletePayload 0 = .ok h1 ∧
        h1.blocks = [⟨0, 0, .base, none, .defaulted, true⟩] ∧
        destroyCount h1.log 0 = 1 ∧ freeCount h1.log 0 = 1 ∧
        h1.load 0 = .error .useAfterFree) ∧
      SharedPtr.reset w.heap ⟨some 0, some 0⟩ = .error .useAfterFree ∧
      step w (.spDestroy 0) = .error .useAfterFree) ∧
    run World.empty [.spMakeShared true, .spDestroy 0] = .error .useAfterFree := by
  refine ⟨⟨_, rfl, by decide, by decide, by decide, by decide,
    ⟨_, rfl, by decide, by decide, by decide, by decide⟩, by decide, by decide⟩, by decide⟩

/-- C8 (code defect): `WeakPtr::reset()` does not clear the handle, so after
`w.reset()` the handle still refers to a block whose `weak_count` no longer counts
it, and destroying `w` afterwards decrements `weak_count` a second time: from 0 it
wraps to `2 ^ 64 - 1`. -/
theorem weak_reset_then_destroy_decrements_twice :
    ∃ w, run World.empty [.newPayload false, .spRaw false (some 0), .wpOfShared 0] = .ok w ∧
      w.heap.blocks = [⟨1, 1, .base, none, .defaulted, false⟩] ∧
      observerRefs w.observers 0 = 1 ∧
      ∃ w1, step w (.wpReset 0) = .ok w1 ∧
        w1.heap.blocks = [⟨1, 0, .base, none, .defaulted, false⟩] ∧
        w1.observers = [some ⟨some 0, some 0⟩] ∧
        observerRefs w1.observers 0 = 1 ∧
        ∃ w2, step w1 (.wpDestroy 0) = .ok w2 ∧
          w2.heap.blocks = [⟨1, 18446744073709551615, .base, none, .defaulted, false⟩] ∧
          observerRefs w2.observers 0 = 0 := by
  refine ⟨_, rfl, by decide, by decide, _, rfl, by decide, by decide, by decide, _, rfl,
    by decide, by decide⟩

theorem count_true_add_count_false (l : List Bool) :
    l.count true + l.count false = l.length := by
  induction l with
  | nil => rfl
  | cons x l ih =>
    cases x <;> simp [List.count_cons] <;> omega

theorem owner_destroy_tracks (h : Heap) (b p : Nat) (st : Strategy) (m k f d e : Nat)
    (ht : Tracks h b p st m k f d e) (hm : 0 < m) (hM : m < SIZE_MOD) :
    ∃ h1, SharedPtr.destroy h ⟨some p, some b⟩ = .ok h1 ∧
      Tracks h1 b p st (m - 1) k f d e := by
  obtain ⟨cb, hb, hs, hw, hst, hfr, hfc, hdc, hpc, hpay⟩ := ht
  have hl : cb.freed = false := by
    cases hf : cb.freed with
    | false => rfl
    | true => have := hfr.mp hf; omega
  obtain ⟨hobj, hval⟩ := hpay hm
  have hdec : decr cb.shared_count = m - 1 := by rw [hs]; exact decr_pos hm hM
  have hlt : b < h.blocks.length := (List.getElem?_eq_some.mp hb).1
  have hset : ∀ X : ControlBlock, (h.blocks.set b X)[b]? = some X := by
    intro X
    simp [List.getElem?_set, hlt]
  have hfc1 : freeCount h.log b = f := by
    have hnot : ¬ (m = 0 ∧ k = 0) := by omega
    simpa [hnot] using hfc
  have hnot0 : ¬ (m = 0) := by omega
  have hdc1 : destroyCount h.log p = d := by simpa [hnot0] using hdc
  have hpc1 : pathCount st h.log b p = e := by simpa [hnot0] using hpc
  by_cases h1 : m = 1
  · subst h1
    have hdec0 : decr cb.shared_count = 0 := hdec
    cases hres : SharedPtr.destroy h ⟨some p, some b⟩ with
    | error e =>
      exfalso
      by_cases hk : cb.weak_count = 0 <;> cases hst1 : cb.strategy <;>
        simp [SharedPtr.destroy, SharedPtr.reset, Heap.load, hb, hl, hdec0, Heap.delete_object,
          hst1, Heap.deletePayload, Heap.destructor, Heap.emit, Heap.store, hobj,
          hset, hk, hval, Heap.freeBlock, Heap.deallocate] at hres
    | ok h1 =>
      refine ⟨h1, rfl, ?_⟩
      by_cases hk : cb.weak_count = 0 <;> cases hst1 : cb.strategy <;>
        simp [SharedPtr.destroy, SharedPtr.reset, Heap.load, hb, hl, hdec0, Heap.delete_object,
          hst1, Heap.deletePayload, Heap.destructor, Heap.emit, Heap.store, hobj,
          hset, hk, hval, Heap.freeBlock, Heap.deallocate] at hres
      all_goals subst hres
      all_goals rw [hst1] at hst
      all_goals subst hst
      all_goals
        refine ⟨_, hset _, rfl, ?_, rfl, ?_, ?_, ?_, ?_, ?_⟩
        · simp [← hw, hk]
        · simp [← hw, hk]
        · simp [freeCount, List.countP_append, List.countP_cons, ← hw, hk] at hfc1 ⊢
          omega
        · simp [destroyCount, List.countP_append, List.countP_cons] at hdc1 ⊢
          omega
        · simp [pathCount, List.countP_append, List.countP_cons] at hpc1 ⊢
          omega
        · intro hpos
          omega
  · have hne : m - 1 ≠ 0 := by omega
    have hnot : ¬ (m - 1 = 0 ∧ k = 0) := by omega
    refine ⟨h.store b { cb with shared_count := m - 1 }, ?_, ?_⟩
    · simp [SharedPtr.destroy, SharedPtr.reset, load_ok hb hl, hdec, hne]
    · refine ⟨_, store_blocks_self _ hb, rfl, hw, hst, ?_, ?_, ?_, ?_, ?_⟩
      · simp [hl, hne]
      · simpa [Heap.store, hnot] using hfc1
      · simpa [Heap.store, hne] using hdc1
      · simpa [Heap.store, hne] using hpc1
      · intro _
        exact ⟨hobj, hval⟩

theorem observer_destroy_tracks (h : Heap) (b p : Nat) (st : Strategy) (m k f d e : Nat)
    (q : Ptr) (ht : Tracks h b p st m k f d e) (hk : 0 < k) (hK : k < SIZE_MOD) :
    ∃ h1, WeakPtr.destroy h ⟨q, some b⟩ = .ok h1 ∧ Tracks h1 b p st m (k - 1) f d e := by
  obtain ⟨cb, hb, hs, hw, hst, hfr, hfc, hdc, hpc, hpay⟩ := ht
  have hl : cb.freed = false := by
    cases hf : cb.freed with
    | false => rfl
    | true => have := hfr.mp hf; omega
  have hdec : decr cb.weak_count = k - 1 := by rw [hw]; exact decr_pos hk hK
  have hlt : b < h.blocks.length := (List.getElem?_eq_some.mp hb).1
  have hset : ∀ X : ControlBlock, (h.blocks.set b X)[b]? = some X := by
    intro X
    simp [List.getElem?_set, hlt]
  have hfc1 : freeCount h.log b = f := by
    have hnot : ¬ (m = 0 ∧ k = 0) := by omega
    simpa [hnot] using hfc
  cases hres : WeakPtr.destroy h ⟨q, some b⟩ with
  | error e =>
    exfalso
    by_cases hz : cb.shared_count = 0 ∧ k - 1 = 0 <;>
      simp [WeakPtr.destroy, WeakPtr.reset, Heap.load, hb, hl, hdec, hz, Heap.store] at hres
  | ok h1 =>
    refine ⟨h1, rfl, ?_⟩
    by_cases hz : cb.shared_count = 0 ∧ k - 1 = 0
    · cases hst1 : cb.strategy <;>
        simp [WeakPtr.destroy, WeakPtr.reset, Heap.load, hb, hl, hdec, hz, Heap.store,
          Heap.freeBlock, Heap.deallocate, Heap.emit, hst1] at hres
      all_goals subst hres
      all_goals rw [hst1] at hst
      all_goals subst hst
      all_goals
        refine ⟨_, hset _, ?_, hz.2.symm, rfl, ?_, ?_, ?_, ?_, ?_⟩
        · rw [← hs]; exact hz.1.symm
        · simp [← hs, hz]
        · simp [freeCount, List.countP_append, List.countP_cons, ← hs, hz] at hfc1 ⊢
          omega
        · simpa [destroyCount, List.countP_append, List.countP_cons] using hdc
        · simpa [pathCount, List.countP_append, List.countP_cons] using hpc
        · intro hpos
          omega
    · simp [WeakPtr.destroy, WeakPtr.reset, Heap.load, hb, hl, hdec, hz, Heap.store] at hres
      subst hres
      have hz1 : ¬ (m = 0 ∧ k - 1 = 0) := by rw [← hs]; exact hz
      refine ⟨_, hset _, hs, rfl, hst, ?_, ?_, ?_, ?_, ?_⟩
      · simp [hl, hz1]
      · simpa [hz1] using hfc1
      · exact hdc
      · exact hpc
      · intro hpos
        exact hpay hpos

theorem releaseAll_tracks (b p : Nat) (st : Strategy) (q : Ptr) (f d e : Nat) (l : List Bool) :
    ∀ (h : Heap) (m k : Nat), Tracks h b p st m k f d e → m < SIZE_MOD → k < SIZE_MOD →
      l.count true ≤ m → l.count false ≤ k →
      ∃ h1, releaseAll h ⟨some p, some b⟩ ⟨q, some b⟩ l = .ok h1 ∧
        Tracks h1 b p st (m - l.count true) (k - l.count false) f d e := by
  induction l with
  | nil =>
    intro h m k ht _ _ _ _
    exact ⟨h, rfl, by simpa using ht⟩
  | cons x l ih =>
    intro h m k ht hM hK hm hk
    cases x with
    | true =>
      simp only [List.count_cons_self, List.count_cons_of_ne (by decide : true ≠ false)] at hm hk ⊢
      obtain ⟨h1, he, ht1⟩ := owner_destroy_tracks h b p st m k f d e ht (by omega) hM
      obtain ⟨h2, he2, ht2⟩ := ih h1 (m - 1) k ht1 (by omega) hK (by omega) hk
      refine ⟨h2, ?_, ?_⟩
      · simp only [releaseAll, he, he2]
      · have : m - (List.count true l + 1) = m - 1 - List.count true l := by omega
        rw [this]
        exact ht2
    | false =>
      simp only [List.count_cons_self, List.count_cons_of_ne (by decide : false ≠ true)] at hm hk ⊢
      obtain ⟨h1, he, ht1⟩ := observer_destroy_tracks h b p st m k f d e q ht (by omega) hK
      obtain ⟨h2, he2, ht2⟩ := ih h1 m (k - 1) ht1 hM (by omega) hm (by omega)
      refine ⟨h2, ?_, ?_⟩
      · simp only [releaseAll, he, he2]
      · have : k - (List.count false l + 1) = k - 1 - List.count false l := by omega
        rw [this]
        exact ht2

theorem tracks_start (h : Heap) (b p : Nat) (cb : ControlBlock)
    (hb : h.blocks[b]? = some cb) (hl : cb.freed = false) (hm : 1 ≤ cb.shared_count)
    (hp : PayloadReady h cb p) :
    Tracks h b p cb.strategy cb.shared_count cb.weak_count (freeCount h.log b)
      (destroyCount h.log p) (pathCount cb.strategy h.log b p) := by
  have hne : cb.shared_count ≠ 0 := by omega
  exact ⟨cb, hb, rfl, rfl, rfl, by simp [hl, hne], by simp [hne], by simp [hne], by simp [hne],
    fun _ => hp⟩

/-- C3: a block with `m ≥ 1` owning handles on a payload `p` and `k` observing
handles, destroyed one by one in any interleaving `l` (`true`: an owning handle,
`false`: an observing handle): after all of them the block has been given back
exactly once and both counters are zero; after any proper initial part of the
interleaving the block is still allocated, the counters are not both zero, and
nothing has been given back. -/
theorem block_freed_exactly_once (h : Heap) (p b : Nat) (q : Ptr) (cb : ControlBlock)
    (l : List Bool)
    (hb : h.blocks[b]? = some cb) (hl : cb.freed = false)
    (hm : 1 ≤ cb.shared_count) (hM : cb.shared_count < SIZE_MOD)
    (hK : cb.weak_count < SIZE_MOD) (hp : PayloadReady h cb p)
    (hlm : l.count true = cb.shared_count) (hlk : l.count false = cb.weak_count) :
    (∃ h1 cb1, releaseAll h ⟨some p, some b⟩ ⟨q, some b⟩ l = .ok h1 ∧
      h1.blocks[b]? = some cb1 ∧ cb1.freed = true ∧
      cb1.shared_count = 0 ∧ cb1.weak_count = 0 ∧
      freeCount h1.log b = freeCount h.log b + 1) ∧
    ∀ l1 l2, l = l1 ++ l2 → l2 ≠ [] →
      ∃ h1 cb1, releaseAll h ⟨some p, some b⟩ ⟨q, some b⟩ l1 = .ok h1 ∧
        h1.blocks[b]? = some cb1 ∧ cb1.freed = false ∧
        ¬ (cb1.shared_count = 0 ∧ cb1.weak_count = 0) ∧
        freeCount h1.log b = freeCount h.log b := by
  have ht := tracks_start h b p cb hb hl hm hp
  constructor
  · obtain ⟨h1, he, cb1, hb1, hs1, hw1, _, hfr1, hfc1, _, _, _⟩ :=
      releaseAll_tracks b p _ q _ _ _ l h _ _ ht hM hK (by omega) (by omega)
    have hz : cb.shared_count - List.count true l = 0 ∧ cb.weak_count - List.count false l = 0 := by
      omega
    refine ⟨h1, cb1, he, hb1, hfr1.mpr hz, by omega, by omega, ?_⟩
    simpa [hz] using hfc1
  · intro l1 l2 hl12 hne
    have hc1 : l.count true = l1.count true + l2.count true := by
      rw [hl12, List.count_append]
    have hc2 : l.count false = l1.count false + l2.count false := by
      rw [hl12, List.count_append]
    have hlen : 0 < l2.length := List.length_pos.mpr hne
    have hsum := count_true_add_count_false l2
    obtain ⟨h1, he, cb1, hb1, hs1, hw1, _, hfr1, hfc1, _, _, _⟩ :=
      releaseAll_tracks b p _ q _ _ _ l1 h _ _ ht hM hK (by omega) (by omega)
    have hz : ¬ (cb.shared_count - List.count true l1 = 0 ∧
        cb.weak_count - List.count false l1 = 0) := by
      omega
    refine ⟨h1, cb1, he, hb1, ?_, ?_, ?_⟩
    · cases hf : cb1.freed with
      | false => rfl
      | true => exact absurd (hfr1.mp hf) hz
    · rw [hs1, hw1]
      exact hz
    · simpa [hz] using hfc1

/-- Witness for `block_freed_exactly_once`: two owners and one observer, destroyed
in the order owner, observer, owner. -/
theorem block_freed_exactly_once_witness :
    (∃ h1 cb1, releaseAll ⟨[⟨2, 1, .base, none, .defaulted, false⟩], [⟨true, none⟩], []⟩
        ⟨some 0, some 0⟩ ⟨some 0, some 0⟩ [true, false, true] = .ok h1 ∧
      h1.blocks[0]? = some cb1 ∧ cb1.freed = true ∧
      cb1.shared_count = 0 ∧ cb1.weak_count = 0 ∧
      freeCount h1.log 0 = freeCount ([] : List Event) 0 + 1) ∧
    ∀ l1 l2, [true, false, true] = l1 ++ l2 → l2 ≠ [] →
      ∃ h1 cb1, releaseAll ⟨[⟨2, 1, .base, none, .defaulted, false⟩], [⟨true, none⟩], []⟩
          ⟨some 0, some 0⟩ ⟨some 0, some 0⟩ l1 = .ok h1 ∧
        h1.blocks[0]? = some cb1 ∧ cb1.freed = false ∧
        ¬ (cb1.shared_count = 0 ∧ cb1.weak_count = 0) ∧
        freeCount h1.log 0 = freeCount ([] : List Event) 0 :=
  block_freed_exactly_once ⟨[⟨2, 1, .base, none, .defaulted, false⟩], [⟨true, none⟩], []⟩
    0 0 (some 0) ⟨2, 1, .base, none, .defaulted, false⟩ [true, false, true]
    rfl rfl (by decide) (by decide) (by decide) ⟨rfl, by decide⟩ rfl rfl

theorem run_append (a b : List Op) :
    ∀ w : World, run w (a ++ b) =
      match run w a with
      | .error e => .error e
      | .ok w1 => run w1 b := by
  induction a with
  | nil => intro w; rfl
  | cons op a ih =>
    intro w
    simp only [List.cons_append, run]
    cases step w op with
    | error e => rfl
    | ok w1 => exact ih w1

theorem run_copiesProgram (reg : Bool) (w0 : World) (N : Nat) (hN : 1 ≤ N)
    (hM : N < SIZE_MOD) :
    run w0 (copiesProgram reg w0 N) = .ok (afterCopies reg w0 N) := by
  induction N, hN using Nat.le_induction with
  | base => cases reg <;> rfl
  | succ n hn ih =>
    have hprog : copiesProgram reg w0 (n + 1) =
        copiesProgram reg w0 n ++ [.spCopy w0.owners.length] := by
      obtain ⟨k, rfl⟩ : ∃ k, n = k + 1 := ⟨n - 1, by omega⟩
      simp [copiesProgram, List.replicate_succ']
    rw [hprog, run_append, ih (by omega)]
    have hget : (afterCopies reg w0 n).owners[w0.owners.length]? =
        some (some ⟨some w0.heap.objects.length, some w0.heap.blocks.length⟩) := by
      simp only [afterCopies]
      rw [List.getElem?_append_right (le_refl _)]
      simp [List.getElem?_replicate]
      omega
    have hown : (afterCopies reg w0 n).owner w0.owners.length =
        .ok ⟨some w0.heap.objects.length, some w0.heap.blocks.length⟩ := by
      simp only [World.owner, hget]
    have hinc : incr n = n + 1 := incr_lt hM
    simp only [run, step, hown, World.declOwner, SharedPtr.copy]
    simp [Heap.incShared, Heap.loadPtr,
      Heap.load, afterCopies, Heap.store, World.newOwner, hinc, List.replicate_succ']

theorem run_destroy_owners (s : SharedPtr) (wd : WeakPtr) (order : List Nat) :
    ∀ (w : World) (h1 : Heap), order.Nodup →
      (∀ i ∈ order, w.owners[i]? = some (some s)) →
      releaseAll w.heap s wd (List.replicate order.length true) = .ok h1 →
      ∃ w1, run w (order.map Op.spDestroy) = .ok w1 ∧ w1.heap = h1 ∧
        w1.observers = w.observers ∧
        (∀ i, i ∉ order → w1.owners[i]? = w.owners[i]?) ∧
        (∀ i ∈ order, w1.owners[i]? = some none) := by
  induction order with
  | nil =>
    intro w h1 _ _ hrel
    simp only [List.length_nil, List.replicate, releaseAll, Except.ok.injEq] at hrel
    exact ⟨w, rfl, hrel, rfl, fun _ _ => rfl, fun i hi => by simp at hi⟩
  | cons i rest ih =>
    intro w h1 hnd hown hrel
    have hi : i ∉ rest := (List.nodup_cons.mp hnd).1
    have hrest : rest.Nodup := (List.nodup_cons.mp hnd).2
    have howni := hown i (List.mem_cons_self i rest)
    have hilt : i < w.owners.length := (List.getElem?_eq_some.mp howni).1
    simp only [List.length_cons, List.replicate, releaseAll] at hrel
    cases hd : SharedPtr.destroy w.heap s with
    | error e => simp [hd] at hrel
    | ok h2 =>
      simp only [hd] at hrel
      have hstep : step w (.spDestroy i) = .ok ((w.withHeap h2).setOwner i none) := by
        simp only [step, World.owner, howni, hd]
      have hown2 : ∀ j ∈ rest, ((w.withHeap h2).setOwner i none).owners[j]? = some (some s) := by
        intro j hj
        have hne : i ≠ j := fun h => hi (h ▸ hj)
        simp only [World.setOwner, World.withHeap, List.getElem?_set_ne hne]
        exact hown j (List.mem_cons_of_mem i hj)
      obtain ⟨w1, hrun, hheap, hobs, hout, hin⟩ := ih _ h1 hrest hown2 hrel
      refine ⟨w1, ?_, hheap, ?_, ?_, ?_⟩
      · simp only [List.map_cons, run, hstep, hrun]
      · rw [hobs]; rfl
      · intro j hj
        have hji : i ≠ j := fun h => hj (h ▸ List.mem_cons_self i rest)
        have hjr : j ∉ rest := fun h => hj (List.mem_cons_of_mem i h)
        rw [hout j hjr]
        simp only [World.setOwner, World.withHeap, List.getElem?_set_ne hji]
      · intro j hj
        rcases List.mem_cons.mp hj with hji | hjr
        · subst hji
          rw [hout j hi]
          simp only [World.setOwner, World.withHeap, List.getElem?_set_self hilt]
        · exact hin j hjr

theorem afterCopies_owner (reg : Bool) (w0 : World) (N i : Nat) (hi : i < N) :
    (afterCopies reg w0 N).owners[w0.owners.length + i]? =
      some (some ⟨some w0.heap.objects.length, some w0.heap.blocks.length⟩) := by
  simp only [afterCopies]
  rw [List.getElem?_append_right (Nat.le_add_right _ _)]
  simp [List.getElem?_replicate, hi]

theorem afterCopies_tracks (reg : Bool) (w0 : World) (N : Nat) (hN : 1 ≤ N) :
    Tracks (afterCopies reg w0 N).heap w0.heap.blocks.length w0.heap.objects.length
      (if reg then .regular else .base) N 0
      (freeCount w0.heap.log w0.heap.blocks.length)
      (destroyCount w0.heap.log w0.heap.objects.length)
      (pathCount (if reg then .regular else .base) w0.heap.log w0.heap.blocks.length
        w0.heap.objects.length) := by
  have hne : N ≠ 0 := by omega
  refine ⟨⟨N, 0, if reg then .regular else .base, none, .defaulted, false⟩, ?_, rfl, rfl, rfl,
    by simp [hne], ?_, ?_, ?_, fun _ => ⟨?_, ?_⟩⟩
  · simp [afterCopies]
  · cases reg <;> simp [afterCopies, freeCount, List.countP_append, List.countP_cons, hne]
  · cases reg <;> simp [afterCopies, destroyCount, List.countP_append, List.countP_cons, hne]
  · cases reg <;> simp [afterCopies, pathCount, List.countP_append, List.countP_cons, hne]
  · simp [afterCopies]
  · cases reg <;> simp

theorem run_singleton (w : World) (op : Op) : run w [op] = step w op := by
  simp only [run]
  cases step w op <;> rfl

theorem use_count_of_tracks (h : Heap) (b p : Nat) (st : Strategy) (m k f d e : Nat) (q : Ptr)
    (ht : Tracks h b p st m k f d e) (hm : 0 < m) :
    SharedPtr.use_count h ⟨q, some b⟩ = .ok m := by
  obtain ⟨cb, hb, hs, _, _, hfr, _, _, _, _⟩ := ht
  have hl : cb.freed = false := by
    cases hf : cb.freed with
    | false => rfl
    | true => have := hfr.mp hf; omega
  simp only [SharedPtr.use_count, Heap.loadPtr, load_ok hb hl, hs]

/-- C5: after `N ≥ 1` owning handles of one payload have been made by wrapping a
raw pointer (`SharedPtr(p)`, or `SharedPtr(p, del)` when `reg` is set) and copying
the handle `N - 1` times, destroy them in any order `order` (a permutation of the
`N` handles).  After the first `j` destructions, for every `j ≤ N`, the number of
destruction paths that have run on the payload is 0 when `j < N` and 1 when
`j = N`, and the same holds for the path of the block's strategy (`delete ptr_`
for the default block, the stored deleter for the regular block). -/
theorem payload_destroyed_once (w0 : World) (reg : Bool) (N : Nat) (order : List Nat) (j : Nat)
    (hN : 1 ≤ N) (hM : N < SIZE_MOD) (hperm : order.Perm (List.range N)) (hj : j ≤ N) :
    ∃ w, run w0 (copiesProgram reg w0 N ++
        (order.take j).map (fun i => Op.spDestroy (w0.owners.length + i))) = .ok w ∧
      destroyCount w.heap.log w0.heap.objects.length =
        destroyCount w0.heap.log w0.heap.objects.length + (if j = N then 1 else 0) ∧
      pathCount (if reg then .regular else .base) w.heap.log w0.heap.blocks.length
          w0.heap.objects.length =
        pathCount (if reg then .regular else .base) w0.heap.log w0.heap.blocks.length
          w0.heap.objects.length + (if j = N then 1 else 0) := by
  have hlenN : order.length = N := by rw [hperm.length_eq, List.length_range]
  have hndo : order.Nodup := hperm.nodup_iff.mpr (List.nodup_range N)
  have hmap : (order.take j).map (fun i => Op.spDestroy (w0.owners.length + i)) =
      ((order.take j).map (fun i => w0.owners.length + i)).map Op.spDestroy := by
    rw [List.map_map]
    rfl
  have hnd : ((order.take j).map (fun i => w0.owners.length + i)).Nodup := by
    refine List.Nodup.map ?_ (hndo.sublist (List.take_sublist j order))
    intro a c hac
    simpa using hac
  have hlen : ((order.take j).map (fun i => w0.owners.length + i)).length = j := by
    simp [hlenN, hj]
  have hown : ∀ i ∈ (order.take j).map (fun i => w0.owners.length + i),
      (afterCopies reg w0 N).owners[i]? =
        some (some ⟨some w0.heap.objects.length, some w0.heap.blocks.length⟩) := by
    intro i hi
    obtain ⟨a, ha, rfl⟩ := List.mem_map.mp hi
    have haN : a < N := List.mem_range.mp ((hperm.mem_iff).mp (List.mem_of_mem_take ha))
    exact afterCopies_owner reg w0 N a haN
  obtain ⟨h1, hrel, ht⟩ := releaseAll_tracks w0.heap.blocks.length w0.heap.objects.length _ none
    _ _ _ (List.replicate j true) _ N 0 (afterCopies_tracks reg w0 N hN) hM (by decide)
    (by simp [List.count_replicate, hj]) (by simp [List.count_replicate])
  obtain ⟨w1, hrun, hheap, _, _, _⟩ := run_destroy_owners _ ⟨none, some w0.heap.blocks.length⟩ _
    (afterCopies reg w0 N) h1 hnd hown (by rw [hlen]; exact hrel)
  obtain ⟨_, _, _, _, _, _, _, hdc, hpc, _⟩ := ht
  have hcnt : List.count true (List.replicate j true) = j := by simp [List.count_replicate]
  rw [hcnt] at hdc hpc
  have hiff : (N - j = 0) ↔ (j = N) := by omega
  refine ⟨w1, ?_, ?_, ?_⟩
  · rw [run_append, run_copiesProgram reg w0 N hN hM, hmap]
    exact hrun
  · rw [hheap, hdc]
    simp only [hiff]
  · rw [hheap, hpc]
    simp only [hiff]

/-- Witness for `payload_destroyed_once`: three handles made in the empty state
and destroyed in the order 2, 0, 1; all three destructions done. -/
theorem payload_destroyed_once_witness :
    ∃ w, run World.empty (copiesProgram false World.empty 3 ++
        ([2, 0, 1].take 3).map (fun i => Op.spDestroy (World.empty.owners.length + i))) = .ok w ∧
      destroyCount w.heap.log World.empty.heap.objects.length =
        destroyCount World.empty.heap.log World.empty.heap.objects.length +
          (if 3 = 3 then 1 else 0) ∧
      pathCount (if false then .regular else .base) w.heap.log World.empty.heap.blocks.length
          World.empty.heap.objects.length =
        pathCount (if false then .regular else .base) World.empty.heap.log
          World.empty.heap.blocks.length World.empty.heap.objects.length +
          (if 3 = 3 then 1 else 0) :=
  payload_destroyed_once World.empty false 3 [2, 0, 1] 3 (by decide) (by decide) (by decide)
    (by decide)

/-- C6: after `N ≥ 1` owning handles of one payload have been made by wrapping a
raw pointer and copying the handle `N - 1` times, `use_count()` of each of them is
`N`; after destroying any one of them, `use_count()` of each remaining handle is
`N - 1` and, while `N - 1 > 0`, the payload is still alive and no destruction path
has run on it. -/
theorem use_count_of_copies (w0 : World) (reg : Bool) (N : Nat) (hN : 1 ≤ N)
    (hM : N < SIZE_MOD) :
    ∃ w, run w0 (copiesProgram reg w0 N) = .ok w ∧
      (∀ i, i < N → ∃ s, w.owner (w0.owners.length + i) = .ok s ∧
        s.ptr_ = some w0.heap.objects.length ∧ SharedPtr.use_count w.heap s = .ok N) ∧
      ∀ j, j < N → ∃ w1, step w (.spDestroy (w0.owners.length + j)) = .ok w1 ∧
        w1.owner (w0.owners.length + j) = .error .noHandle ∧
        (∀ i, i < N → i ≠ j → ∃ s, w1.owner (w0.owners.length + i) = .ok s ∧
          s.ptr_ = some w0.heap.objects.length ∧
          SharedPtr.use_count w1.heap s = .ok (N - 1)) ∧
        (0 < N - 1 → w1.heap.objects[w0.heap.objects.length]? = some ⟨true, none⟩ ∧
          destroyCount w1.heap.log w0.heap.objects.length =
            destroyCount w0.heap.log w0.heap.objects.length) := by
  have ht0 := afterCopies_tracks reg w0 N hN
  refine ⟨afterCopies reg w0 N, run_copiesProgram reg w0 N hN hM, ?_, ?_⟩
  · intro i hi
    refine ⟨⟨some w0.heap.objects.length, some w0.heap.blocks.length⟩, ?_, rfl,
      use_count_of_tracks _ _ _ _ _ _ _ _ _ _ ht0 (by omega)⟩
    simp only [World.owner, afterCopies_owner reg w0 N i hi]
  · intro j hjN
    obtain ⟨h1, hrel, ht⟩ := releaseAll_tracks w0.heap.blocks.length w0.heap.objects.length _
      none _ _ _ [true] _ N 0 ht0 hM (by decide) (by simpa using hN) (by simp)
    obtain ⟨w1, hrun, hheap, _, hout, hin⟩ := run_destroy_owners _
      ⟨none, some w0.heap.blocks.length⟩ [w0.owners.length + j]
      (afterCopies reg w0 N) h1 (by simp)
      (by
        intro i hi
        rw [List.mem_singleton.mp hi]
        exact afterCopies_owner reg w0 N j hjN)
      hrel
    have hcnt : List.count true [true] = 1 := by decide
    rw [hcnt] at ht
    simp only [List.map_cons, List.map_nil, run_singleton] at hrun
    refine ⟨w1, hrun, ?_, ?_, ?_⟩
    · simp only [World.owner, hin _ (List.mem_singleton.mpr rfl)]
    · intro i hi hij
      have hnotin : w0.owners.length + i ∉ [w0.owners.length + j] := by
        simp only [List.mem_singleton]
        omega
      refine ⟨⟨some w0.heap.objects.length, some w0.heap.blocks.length⟩, ?_, rfl, ?_⟩
      · simp only [World.owner, hout _ hnotin, afterCopies_owner reg w0 N i hi]
      · rw [hheap]
        exact use_count_of_tracks _ _ _ _ _ _ _ _ _ _ ht (by omega)
    · intro hpos
      obtain ⟨cb, _, _, _, _, _, _, hdc, _, hpay⟩ := ht
      have hne : ¬ (N - 1 = 0) := by omega
      rw [hheap]
      refine ⟨(hpay hpos).1, ?_⟩
      simpa [hne] using hdc

/-- Witness for `use_count_of_copies`: three handles made in the empty state. -/
theorem use_count_of_copies_witness :
    ∃ w, run World.empty (copiesProgram false World.empty 3) = .ok w ∧
      (∀ i, i < 3 → ∃ s, w.owner (World.empty.owners.length + i) = .ok s ∧
        s.ptr_ = some World.empty.heap.objects.length ∧
        SharedPtr.use_count w.heap s = .ok 3) ∧
      ∀ j, j < 3 → ∃ w1, step w (.spDestroy (World.empty.owners.length + j)) = .ok w1 ∧
        w1.owner (World.empty.owners.length + j) = .error .noHandle ∧
        (∀ i, i < 3 → i ≠ j → ∃ s, w1.owner (World.empty.owners.length + i) = .ok s ∧
          s.ptr_ = some World.empty.heap.objects.length ∧
          SharedPtr.use_count w1.heap s = .ok (3 - 1)) ∧
        (0 < 3 - 1 → w1.heap.objects[World.empty.heap.objects.length]? = some ⟨true, none⟩ ∧
          destroyCount w1.heap.log World.empty.heap.objects.length =
            destroyCount World.empty.heap.log World.empty.heap.objects.length) :=
  use_count_of_copies World.empty false 3 (by decide) (by decide)

/-! ### Heap operations that leave every `shared_count` alone -/

theorem Stable.refl (h : Heap) : Stable h h :=
  ⟨rfl, fun _ cb1 hb hl => ⟨cb1, hb, hl, rfl⟩⟩

theorem Stable.trans {h h1 h2 : Heap} (a : Stable h h1) (b : Stable h1 h2) : Stable h h2 := by
  refine ⟨b.1.trans a.1, ?_⟩
  intro c cb2 hb hl
  obtain ⟨cb1, hb1, hl1, hs1⟩ := b.2 c cb2 hb hl
  obtain ⟨cb, hb0, hl0, hs0⟩ := a.2 c cb1 hb1 hl1
  exact ⟨cb, hb0, hl0, hs0.trans hs1⟩

theorem stable_of_blocks_eq {h h1 : Heap} (hb : h1.blocks = h.blocks) : Stable h h1 := by
  refine ⟨by rw [hb], ?_⟩
  intro c cb1 hc hl
  rw [hb] at hc
  exact ⟨cb1, hc, hl, rfl⟩

theorem stable_of_set {h h1 : Heap} {b : Nat} {cb : ControlBlock} (x : ControlBlock)
    (hb : h.blocks[b]? = some cb) (hl : cb.freed = false)
    (hx : x.freed = false → x.shared_count = cb.shared_count)
    (h1b : h1.blocks = h.blocks.set b x) : Stable h h1 := by
  refine ⟨by rw [h1b, List.length_set], ?_⟩
  intro c cb1 hc hl1
  rw [h1b, List.getElem?_set] at hc
  by_cases hbc : b = c
  · subst hbc
    have hlt : b < h.blocks.length := (List.getElem?_eq_some.mp hb).1
    simp only [if_true, hlt, Option.some.injEq] at hc
    subst hc
    exact ⟨cb, hb, hl, (hx hl1).symm⟩
  · simp only [hbc, if_false] at hc
    exact ⟨cb1, hc, hl1, rfl⟩

theorem freeBlock_blocks (h : Heap) (b : Nat) (cb : ControlBlock) :
    (h.freeBlock b cb).blocks = h.blocks.set b { cb with freed := true } := by
  cases hst : cb.strategy <;>
    simp [Heap.freeBlock, Heap.deallocate, hst, Heap.store, Heap.emit]

theorem stable_incWeak {h h1 : Heap} {bp : Ptr} (he : h.incWeak bp = .ok h1) : Stable h h1 := by
  unfold Heap.incWeak Heap.loadPtr at he
  cases bp with
  | none => simp at he
  | some b =>
    cases hld : h.load b with
    | error e => simp [hld] at he
    | ok cb =>
      simp only [hld, Except.ok.injEq] at he
      obtain ⟨hb, hl⟩ := load_ok_iff.mp hld
      exact stable_of_set { cb with weak_count := incr cb.weak_count } hb hl (fun _ => rfl)
        (by rw [← he]; rfl)

theorem weak_reset_spec {h h1 : Heap} {w w1 : WeakPtr}
    (he : WeakPtr.reset h w = .ok (h1, w1)) :
    w1 = w ∧ Stable h h1 ∧ h1.objects = h.objects := by
  unfold WeakPtr.reset at he
  cases hb : w.block_ with
  | none =>
    simp only [hb, Except.ok.injEq, Prod.mk.injEq] at he
    exact ⟨he.2.symm, he.1 ▸ Stable.refl h, he.1 ▸ rfl⟩
  | some b =>
    simp only [hb] at he
    cases hld : h.load b with
    | error e => simp [hld] at he
    | ok cb =>
      simp only [hld] at he
      obtain ⟨hcb, hl⟩ := load_ok_iff.mp hld
      have hst1 : Stable h (h.store b { cb with weak_count := decr cb.weak_count }) :=
        stable_of_set { cb with weak_count := decr cb.weak_count } hcb hl (fun _ => rfl) rfl
      split at he
      · simp only [Except.ok.injEq, Prod.mk.injEq] at he
        refine ⟨he.2.symm, ?_, ?_⟩
        · rw [← he.1]
          refine hst1.trans (stable_of_set
            { cb with weak_count := decr cb.weak_count, freed := true }
            (store_blocks_self _ hcb) hl ?_ (freeBlock_blocks _ _ _))
          intro hf
          simp at hf
        · rw [← he.1]
          cases hst : cb.strategy <;>
            simp [Heap.freeBlock, Heap.deallocate, hst, Heap.store, Heap.emit]
      · simp only [Except.ok.injEq, Prod.mk.injEq] at he
        exact ⟨he.2.symm, he.1 ▸ hst1, he.1 ▸ rfl⟩

theorem weak_destroy_stable {h h1 : Heap} {w : WeakPtr}
    (he : WeakPtr.destroy h w = .ok h1) : Stable h h1 := by
  unfold WeakPtr.destroy at he
  cases hr : WeakPtr.reset h w with
  | error e => simp [hr] at he
  | ok r =>
    obtain ⟨h2, w2⟩ := r
    simp only [hr, Except.ok.injEq] at he
    exact he ▸ (weak_reset_spec hr).2.1

theorem destructor_stable {h h1 : Heap} {p : Nat} (he : h.destructor p = .ok h1) :
    Stable h h1 := by
  unfold Heap.destructor at he
  cases ho : h.objects[p]? with
  | none => simp [ho] at he
  | some o =>
    simp only [ho] at he
    split at he
    · cases hw : o.weakPtr with
      | none =>
        simp only [hw, Except.ok.injEq] at he
        exact stable_of_blocks_eq (by rw [← he])
      | some w =>
        simp only [hw] at he
        refine Stable.trans ?_ (weak_destroy_stable he)
        exact stable_of_blocks_eq rfl
    · simp at he

theorem deletePayload_stable {h h1 : Heap} {p : Nat} (he : h.deletePayload p = .ok h1) :
    Stable h h1 := by
  unfold Heap.deletePayload at he
  refine Stable.trans ?_ (destructor_stable he)
  exact stable_of_blocks_eq rfl

theorem delete_object_stable {h h1 : Heap} {b : Nat} {cb : ControlBlock} {ptr : Ptr}
    {handled : Bool} (he : h.delete_object b cb ptr = .ok (h1, handled)) : Stable h h1 := by
  unfold Heap.delete_object at he
  cases hst : cb.strategy with
  | base =>
    simp only [hst, Except.ok.injEq, Prod.mk.injEq] at he
    exact he.1 ▸ Stable.refl h
  | makeShared =>
    simp only [hst] at he
    cases hv : cb.value with
    | none => simp [hv] at he
    | some v =>
      simp only [hv] at he
      cases hd : (h.emit (.destroyValue b v)).destructor v with
      | error e => simp [hd] at he
      | ok h2 =>
        simp only [hd, Except.ok.injEq, Prod.mk.injEq] at he
        rw [← he.1]
        refine Stable.trans ?_ (destructor_stable hd)
        exact stable_of_blocks_eq rfl
  | regular =>
    simp only [hst, Except.ok.injEq, Prod.mk.injEq] at he
    exact he.1 ▸ stable_of_blocks_eq rfl

theorem weak_assignShared_spec {h h1 : Heap} {w w1 : WeakPtr} {o : SharedPtr}
    (he : WeakPtr.assignShared h w o = .ok (h1, w1)) :
    w1 = ⟨o.ptr_, o.block_⟩ ∧ Stable h h1 := by
  unfold WeakPtr.assignShared at he
  cases hr : WeakPtr.reset h w with
  | error e => simp [hr] at he
  | ok r =>
    obtain ⟨h2, w2⟩ := r
    simp only [hr] at he
    cases hi : h2.incWeak o.block_ with
    | error e => simp [hi] at he
    | ok h3 =>
      simp only [hi, Except.ok.injEq, Prod.mk.injEq] at he
      exact ⟨he.2.symm, he.1 ▸ (weak_reset_spec hr).2.1.trans (stable_incWeak hi)⟩

theorem wire_stable {esft : Bool} {h h1 : Heap} {this : SharedPtr}
    (he : h.wire esft this = .ok h1) : Stable h h1 := by
  unfold Heap.wire at he
  cases esft with
  | false =>
    simp only [Bool.false_eq_true, if_false, Except.ok.injEq] at he
    exact he ▸ Stable.refl h
  | true =>
    simp only [if_true] at he
    unfold Heap.setWeakThis at he
    cases hp : this.ptr_ with
    | none => simp [hp] at he
    | some p =>
      simp only [hp] at he
      cases ho : h.objects[p]? with
      | none => simp [ho] at he
      | some o =>
        simp only [ho] at he
        split at he
        · cases hw : o.weakPtr with
          | none => simp [hw] at he
          | some wk =>
            simp only [hw] at he
            cases ha : WeakPtr.assignShared h wk this with
            | error e => simp [ha] at he
            | ok r =>
              obtain ⟨h2, w2⟩ := r
              simp only [ha, Except.ok.injEq] at he
              exact he ▸ (weak_assignShared_spec ha).2.trans (stable_of_blocks_eq rfl)
        · simp at he

theorem counted_stable {h h1 : Heap} {r : Nat → Nat} (hs : Stable h h1) (hc : Counted h r) :
    Counted h1 r := by
  refine ⟨?_, ?_⟩
  · intro c cb1 hb hl
    obtain ⟨cb, hb0, hl0, hsc⟩ := hs.2 c cb1 hb hl
    rw [← hsc]
    exact hc.1 c cb hb0 hl0
  · intro c hlen
    rw [hs.1] at hlen
    exact hc.2 c hlen

theorem counted_congr {h : Heap} {r r1 : Nat → Nat} (hc : Counted h r)
    (heq : ∀ c, r1 c = r c) : Counted h r1 := by
  have : r1 = r := funext heq
  rw [this]
  exact hc

theorem incShared_spec {h h1 : Heap} {bp : Ptr} (he : h.incShared bp = .ok h1) :
    ∃ b, bp = some b ∧ b < h.blocks.length ∧ h1.objects = h.objects ∧
      ∀ r, Counted h r → Counted h1 (fun c => r c + if c = b then 1 else 0) := by
  unfold Heap.incShared Heap.loadPtr at he
  cases bp with
  | none => simp at he
  | some b =>
    cases hld : h.load b with
    | error e => simp [hld] at he
    | ok cb =>
      simp only [hld, Except.ok.injEq] at he
      obtain ⟨hb, hl⟩ := load_ok_iff.mp hld
      have hlt : b < h.blocks.length := (List.getElem?_eq_some.mp hb).1
      refine ⟨b, rfl, hlt, by rw [← he]; rfl, ?_⟩
      intro r hc
      subst he
      refine ⟨?_, ?_⟩
      · intro c cb1 hcb1 hl1
        simp only [Heap.store, List.getElem?_set] at hcb1
        by_cases hbc : b = c
        · subst hbc
          simp only [if_true, hlt, Option.some.injEq] at hcb1
          subst hcb1
          have := hc.1 b cb hb hl
          simp only [if_true, this, incr, SIZE_MOD]
          omega
        · simp only [hbc, if_false] at hcb1
          have hcb : c ≠ b := fun h => hbc h.symm
          simp only [hcb, if_false, Nat.add_zero]
          exact hc.1 c cb1 hcb1 hl1
      · intro c hlen
        simp only [Heap.store, List.length_set] at hlen
        have hcb : c ≠ b := by omega
        simp only [hcb, if_false, Nat.add_zero]
        exact hc.2 c hlen

theorem counted_place {h : Heap} {r : Nat → Nat} (cb0 : ControlBlock) (e : Event)
    (hc : Counted h r) (h1 : cb0.shared_count = 1) :
    Counted (h.place cb0 e) (fun c => r c + if c = h.blocks.length then 1 else 0) := by
  refine ⟨?_, ?_⟩
  · intro c cb1 hcb1 hl1
    simp only [Heap.place] at hcb1
    by_cases hlt : c < h.blocks.length
    · rw [List.getElem?_append_left hlt] at hcb1
      have hne : c ≠ h.blocks.length := by omega
      simp only [hne, if_false, Nat.add_zero]
      exact hc.1 c cb1 hcb1 hl1
    · by_cases heq : c = h.blocks.length
      · subst heq
        simp only [List.getElem?_concat_length, Option.some.injEq] at hcb1
        subst hcb1
        simp only [if_true, hc.2 _ (le_refl _), h1, SIZE_MOD]
      · have : (h.blocks ++ [cb0]).length ≤ c := by
          simp only [List.length_append, List.length_singleton]
          omega
        rw [List.getElem?_eq_none this] at hcb1
        simp at hcb1
  · intro c hlen
    simp only [Heap.place, List.length_append, List.length_singleton] at hlen
    have hne : c ≠ h.blocks.length := by omega
    simp only [hne, if_false, Nat.add_zero]
    exact hc.2 c (by omega)

theorem counted_dec {h : Heap} {r : Nat → Nat} {b : Nat} {cb : ControlBlock}
    (hb : h.blocks[b]? = some cb) (hl : cb.freed = false) (hc : Counted h r) (hpos : 0 < r b) :
    Counted (h.store b { cb with shared_count := decr cb.shared_count })
      (fun c => r c - if c = b then 1 else 0) := by
  have hlt : b < h.blocks.length := (List.getElem?_eq_some.mp hb).1
  refine ⟨?_, ?_⟩
  · intro c cb1 hcb1 hl1
    simp only [Heap.store, List.getElem?_set] at hcb1
    by_cases hbc : b = c
    · subst hbc
      simp only [if_true, hlt, Option.some.injEq] at hcb1
      subst hcb1
      have := hc.1 b cb hb hl
      simp only [if_true, this, decr, SIZE_MOD]
      omega
    · simp only [hbc, if_false] at hcb1
      have hcb : c ≠ b := fun h => hbc h.symm
      simp only [hcb, if_false, Nat.sub_zero]
      exact hc.1 c cb1 hcb1 hl1
  · intro c hlen
    simp only [Heap.store, List.length_set] at hlen
    show r c - (if c = b then 1 else 0) = 0
    rw [hc.2 c hlen]
    simp

theorem shared_reset_full {h h1 : Heap} {p b : Nat} {s1 : SharedPtr}
    (he : SharedPtr.reset h ⟨some p, some b⟩ = .ok (h1, s1)) :
    s1 = ⟨none, none⟩ ∧
    ∃ cb, h.blocks[b]? = some cb ∧ cb.freed = false ∧
      Stable (h.store b { cb with shared_count := decr cb.shared_count }) h1 := by
  unfold SharedPtr.reset at he
  simp only at he
  cases hld : h.load b with
  | error e => simp [hld] at he
  | ok cb =>
    obtain ⟨hb, hl⟩ := load_ok_iff.mp hld
    simp only [hld] at he
    split at he
    · cases hdo : (h.store b { cb with shared_count := decr cb.shared_count }).delete_object b
          { cb with shared_count := decr cb.shared_count } (some p) with
      | error e => simp [hdo] at he
      | ok r2 =>
        obtain ⟨h2, handled⟩ := r2
        have hs2 := delete_object_stable hdo
        simp only [hdo] at he
        cases hdp : (if handled = true then Except.ok h2 else h2.deletePayload p) with
        | error e => simp [hdp] at he
        | ok h3 =>
          have hs3 : Stable h2 h3 := by
            cases handled with
            | true =>
              simp only [if_true, Except.ok.injEq] at hdp
              exact hdp ▸ Stable.refl h2
            | false =>
              simp only [Bool.false_eq_true, if_false] at hdp
              exact deletePayload_stable hdp
          simp only [hdp] at he
          cases hl3 : h3.load b with
          | error e => simp [hl3] at he
          | ok cb3 =>
            obtain ⟨hb3, hlv3⟩ := load_ok_iff.mp hl3
            simp only [hl3] at he
            split at he
            · simp only [Except.ok.injEq, Prod.mk.injEq] at he
              refine ⟨he.2.symm, cb, hb, hl, ?_⟩
              rw [← he.1]
              refine (hs2.trans hs3).trans
                (stable_of_set { cb3 with freed := true } hb3 hlv3 ?_ (freeBlock_blocks _ _ _))
              intro hf
              simp at hf
            · simp only [Except.ok.injEq, Prod.mk.injEq] at he
              exact ⟨he.2.symm, cb, hb, hl, he.1 ▸ hs2.trans hs3⟩
    · simp only [Except.ok.injEq, Prod.mk.injEq] at he
      exact ⟨he.2.symm, cb, hb, hl, he.1 ▸ Stable.refl _⟩

theorem shared_reset_spec {h h1 : Heap} {s s1 : SharedPtr}
    (he : SharedPtr.reset h s = .ok (h1, s1)) :
    (s1 = ⟨none, none⟩ ∨ (s1 = s ∧ (s.ptr_ = none ∨ s.block_ = none))) ∧
    h1.blocks.length = h.blocks.length ∧
    ∀ r, Counted h r → (s.ptr_ = none → s.block_ = none) →
      (∀ b, s.block_ = some b → 0 < r b) → Counted h1 (fun c => r c - hit (some s) c) := by
  obtain ⟨sp, sb⟩ := s
  cases sp with
  | none =>
    simp only [SharedPtr.reset, Except.ok.injEq, Prod.mk.injEq] at he
    refine ⟨Or.inr ⟨he.2.symm, Or.inl rfl⟩, by rw [he.1], ?_⟩
    intro r hc hn _
    have hsb : sb = none := hn rfl
    subst hsb
    rw [← he.1]
    exact counted_congr hc (fun c => by simp [hit])
  | some p =>
    cases sb with
    | none =>
      simp only [SharedPtr.reset, Except.ok.injEq, Prod.mk.injEq] at he
      refine ⟨Or.inr ⟨he.2.symm, Or.inr rfl⟩, by rw [he.1], ?_⟩
      intro r hc _ _
      rw [← he.1]
      exact counted_congr hc (fun c => by simp [hit])
    | some b =>
      obtain ⟨hs1, cb, hb, hl, hst⟩ := shared_reset_full he
      refine ⟨Or.inl hs1, ?_, ?_⟩
      · rw [hst.1]
        simp [Heap.store]
      · intro r hc _ hpos
        refine counted_congr (counted_stable hst (counted_dec hb hl hc (hpos b rfl))) ?_
        intro c
        by_cases hcb : c = b
        · simp [hit, hcb]
        · have hbc : ¬ (b = c) := fun h => hcb h.symm
          simp [hit, hcb, hbc]

/-! ### Counting the owning handles of a block -/

theorem ownerRefs_pred (o : Option SharedPtr) (c : Nat) :
    (if (match o with
          | some s => s.block_ == some c
          | none => false) = true then 1 else 0) = hit o c := by
  cases o with
  | none => rfl
  | some s =>
    by_cases hb : s.block_ = some c <;> simp [hit, hb]

theorem ownerRefs_append (l : List (Option SharedPtr)) (o : Option SharedPtr) (c : Nat) :
    ownerRefs (l ++ [o]) c = ownerRefs l c + hit o c := by
  simp only [ownerRefs, List.countP_append, List.countP_cons, List.countP_nil, Nat.zero_add]
  rw [ownerRefs_pred]

theorem ownerRefs_set (l : List (Option SharedPtr)) (i : Nat) (x y : Option SharedPtr) (c : Nat)
    (hx : l[i]? = some x) :
    ownerRefs (l.set i y) c + hit x c = ownerRefs l c + hit y c ∧ hit x c ≤ ownerRefs l c := by
  induction l generalizing i with
  | nil => simp at hx
  | cons a l ih =>
    cases i with
    | zero =>
      simp only [List.getElem?_cons_zero, Option.some.injEq] at hx
      subst hx
      simp only [List.set_cons_zero, ownerRefs, List.countP_cons]
      rw [ownerRefs_pred, ownerRefs_pred]
      omega
    | succ i =>
      simp only [List.getElem?_cons_succ] at hx
      have := ih i hx
      simp only [List.set_cons_succ, ownerRefs, List.countP_cons] at this ⊢
      omega

theorem mem_set_cases {α : Type} (l : List α) (i : Nat) (x a : α) (ha : a ∈ l.set i x) :
    a ∈ l ∨ a = x := by
  induction l generalizing i with
  | nil => simp at ha
  | cons b l ih =>
    cases i with
    | zero =>
      simp only [List.set_cons_zero, List.mem_cons] at ha
      rcases ha with h | h
      · exact Or.inr h
      · exact Or.inl (List.mem_cons_of_mem b h)
    | succ i =>
      simp only [List.set_cons_succ, List.mem_cons] at ha
      rcases ha with h | h
      · exact Or.inl (h ▸ List.mem_cons_self _ _)
      · rcases ih i h with h1 | h1
        · exact Or.inl (List.mem_cons_of_mem b h1)
        · exact Or.inr h1

theorem owner_ok_iff (w : World) (i : Nat) (s : SharedPtr) :
    w.owner i = .ok s ↔ w.owners[i]? = some (some s) := by
  unfold World.owner
  cases h : w.owners[i]? with
  | none => simp
  | some o =>
    cases o with
    | none => simp
    | some t => simp

theorem observer_ok_iff (w : World) (i : Nat) (s : WeakPtr) :
    w.observer i = .ok s ↔ w.observers[i]? = some (some s) := by
  unfold World.observer
  cases h : w.observers[i]? with
  | none => simp
  | some o =>
    cases o with
    | none => simp
    | some t => simp

theorem owner_mem {w : World} {i : Nat} {s : SharedPtr} (h : w.owner i = .ok s) :
    some s ∈ w.owners :=
  List.mem_iff_getElem?.mpr ⟨i, (owner_ok_iff w i s).mp h⟩

theorem observer_mem {w : World} {i : Nat} {s : WeakPtr} (h : w.observer i = .ok s) :
    some s ∈ w.observers :=
  List.mem_iff_getElem?.mpr ⟨i, (observer_ok_iff w i s).mp h⟩

/-! ### One operation at a time -/

theorem summary_newOwner (w : World) (op : Op) (h1 : Heap) (s : SharedPtr)
    (hs : OwnerOrigin w op s)
    (hK : Counted w.heap (ownerRefs w.owners) → NoBareBlock w →
      Counted h1 (fun c => ownerRefs w.owners c + hit (some s) c)) :
    StepSummary w (w.newOwner h1 s) op := by
  refine ⟨?_, ?_, ?_⟩
  · intro t ht
    simp only [World.newOwner, List.mem_append, List.mem_singleton, Option.some.injEq] at ht
    rcases ht with ht | ht
    · exact Or.inl ht
    · exact ht ▸ hs
  · intro x hx
    exact Or.inl hx
  · intro hc hn
    exact counted_congr (hK hc hn) (fun c => ownerRefs_append _ _ c)

theorem summary_setOwner (w : World) (op : Op) (h1 : Heap) (i : Nat)
    (old new : Option SharedPtr) (hold : w.owners[i]? = some old)
    (hs : ∀ s, new = some s → OwnerOrigin w op s)
    (hK : Counted w.heap (ownerRefs w.owners) → NoBareBlock w →
      Counted h1 (fun c => ownerRefs w.owners c - hit old c + hit new c)) :
    StepSummary w ((w.withHeap h1).setOwner i new) op := by
  refine ⟨?_, ?_, ?_⟩
  · intro t ht
    rcases mem_set_cases _ _ _ _ ht with ht1 | ht1
    · exact Or.inl ht1
    · exact hs t ht1.symm
  · intro x hx
    exact Or.inl hx
  · intro hc hn
    refine counted_congr (hK hc hn) (fun c => ?_)
    have := ownerRefs_set w.owners i old new c hold
    simp only [World.setOwner, World.withHeap]
    omega

theorem summary_observers (w : World) (op : Op) (h1 : Heap) (obs : List (Option WeakPtr))
    (hst : Stable w.heap h1) (ho : ∀ x, some x ∈ obs → ObserverOrigin w x) :
    StepSummary w ⟨h1, w.owners, obs⟩ op :=
  ⟨fun _ ht => Or.inl ht, ho, fun hc _ => counted_stable hst hc⟩

theorem declOwner_ok {w w1 : World} {r : Except Fault (Heap × SharedPtr)}
    (he : w.declOwner r = .ok w1) : ∃ h s, r = .ok (h, s) ∧ w1 = w.newOwner h s := by
  unfold World.declOwner at he
  cases r with
  | error e => simp at he
  | ok v =>
    obtain ⟨h, s⟩ := v
    simp only [Except.ok.injEq] at he
    exact ⟨h, s, rfl, he.symm⟩

theorem updOwner_ok {w w1 : World} {i : Nat} {r : Except Fault (Heap × SharedPtr)}
    (he : w.updOwner i r = .ok w1) :
    ∃ h s, r = .ok (h, s) ∧ w1 = (w.withHeap h).setOwner i (some s) := by
  unfold World.updOwner at he
  cases r with
  | error e => simp at he
  | ok v =>
    obtain ⟨h, s⟩ := v
    simp only [Except.ok.injEq] at he
    exact ⟨h, s, rfl, he.symm⟩

theorem declObserver_ok {w w1 : World} {r : Except Fault (Heap × WeakPtr)}
    (he : w.declObserver r = .ok w1) : ∃ h s, r = .ok (h, s) ∧ w1 = w.newObserver h s := by
  unfold World.declObserver at he
  cases r with
  | error e => simp at he
  | ok v =>
    obtain ⟨h, s⟩ := v
    simp only [Except.ok.injEq] at he
    exact ⟨h, s, rfl, he.symm⟩

theorem updObserver_ok {w w1 : World} {i : Nat} {r : Except Fault (Heap × WeakPtr)}
    (he : w.updObserver i r = .ok w1) :
    ∃ h s, r = .ok (h, s) ∧ w1 = (w.withHeap h).setObserver i (some s) := by
  unfold World.updObserver at he
  cases r with
  | error e => simp at he
  | ok v =>
    obtain ⟨h, s⟩ := v
    simp only [Except.ok.injEq] at he
    exact ⟨h, s, rfl, he.symm⟩

theorem wrap_counted {esft : Bool} {h h2 : Heap} {this : SharedPtr} (p : Ptr)
    (cb0 : ControlBlock) (e : Event) (h0 : cb0.shared_count = 1)
    (hw : (h.place cb0 e).wire esft this = .ok h2) (r : Nat → Nat) (hc : Counted h r) :
    Counted h2 (fun c => r c + hit (some ⟨p, some h.blocks.length⟩) c) := by
  refine counted_congr (counted_stable (wire_stable hw) (counted_place cb0 e hc h0)) ?_
  intro c
  by_cases hcb : c = h.blocks.length
  · simp [hit, hcb]
  · have hbc : ¬ (h.blocks.length = c) := fun h => hcb h.symm
    simp [hit, hcb, hbc]

theorem ofRaw_spec {esft : Bool} {h h1 : Heap} {p : Ptr} {s : SharedPtr}
    (he : SharedPtr.ofRaw esft h p = .ok (h1, s)) :
    s = ⟨p, some h.blocks.length⟩ ∧
      ∀ r, Counted h r → Counted h1 (fun c => r c + hit (some s) c) := by
  unfold SharedPtr.ofRaw at he
  simp only at he
  split at he
  · simp at he
  · rename_i h2 hw
    simp only [Except.ok.injEq, Prod.mk.injEq] at he
    refine ⟨he.2.symm, fun r hc => ?_⟩
    rw [← he.1, ← he.2]
    exact wrap_counted p _ _ rfl hw r hc

theorem ofDeleter_spec {esft : Bool} {h h1 : Heap} {p : Ptr} {s : SharedPtr}
    (he : SharedPtr.ofDeleter esft h p = .ok (h1, s)) :
    s = ⟨p, some h.blocks.length⟩ ∧
      ∀ r, Counted h r → Counted h1 (fun c => r c + hit (some s) c) := by
  unfold SharedPtr.ofDeleter at he
  simp only at he
  split at he
  · simp at he
  · rename_i h2 hw
    simp only [Except.ok.injEq, Prod.mk.injEq] at he
    refine ⟨he.2.symm, fun r hc => ?_⟩
    rw [← he.1, ← he.2]
    exact wrap_counted p _ _ rfl hw r hc

theorem ofDeleterAlloc_spec {esft : Bool} {h h1 : Heap} {p : Ptr} {a : Nat} {s : SharedPtr}
    (he : SharedPtr.ofDeleterAlloc esft h p a = .ok (h1, s)) :
    s = ⟨p, some h.blocks.length⟩ ∧
      ∀ r, Counted h r → Counted h1 (fun c => r c + hit (some s) c) := by
  unfold SharedPtr.ofDeleterAlloc at he
  simp only at he
  split at he
  · simp at he
  · rename_i h2 hw
    simp only [Except.ok.injEq, Prod.mk.injEq] at he
    refine ⟨he.2.symm, fun r hc => ?_⟩
    rw [← he.1, ← he.2]
    exact wrap_counted p _ _ rfl hw r hc

theorem ofMakeShared_spec {esft : Bool} {h h1 : Heap} {a : Alloc} {s : SharedPtr}
    (he : SharedPtr.ofMakeShared esft h a = .ok (h1, s)) :
    s = ⟨some h.objects.length, some h.blocks.length⟩ ∧
      ∀ r, Counted h r → Counted h1 (fun c => r c + hit (some s) c) := by
  unfold SharedPtr.ofMakeShared at he
  simp only at he
  split at he
  · simp at he
  · rename_i h2 hw
    simp only [Except.ok.injEq, Prod.mk.injEq] at he
    refine ⟨he.2.symm, fun r hc => ?_⟩
    rw [← he.1, ← he.2]
    have hc1 := counted_place (BaseControlBlock .makeShared (some h.objects.length) a)
      (.allocate .defaulted h.blocks.length) hc rfl
    have hst : Stable (h.place (BaseControlBlock .makeShared (some h.objects.length) a)
        (.allocate .defaulted h.blocks.length)) h2 := by
      refine Stable.trans ?_ (wire_stable hw)
      exact stable_of_blocks_eq rfl
    refine counted_congr (counted_stable hst hc1) ?_
    intro c
    by_cases hcb : c = h.blocks.length
    · simp [hit, hcb]
    · have hbc : ¬ (h.blocks.length = c) := fun h => hcb h.symm
      simp [hit, hcb, hbc]

theorem summary_spRaw (w w1 : World) (esft : Bool) (p : Ptr)
    (he : step w (.spRaw esft p) = .ok w1) : StepSummary w w1 (.spRaw esft p) := by
  obtain ⟨h1, s, hr, rfl⟩ := declOwner_ok he
  obtain ⟨hs, hK⟩ := ofRaw_spec hr
  exact summary_newOwner w _ h1 s (Or.inr (Or.inr (Or.inr ⟨by rw [hs], _, by rw [hs]⟩)))
    (fun hc _ => hK _ hc)

theorem summary_spDeleter (w w1 : World) (esft : Bool) (p : Ptr)
    (he : step w (.spDeleter esft p) = .ok w1) : StepSummary w w1 (.spDeleter esft p) := by
  obtain ⟨h1, s, hr, rfl⟩ := declOwner_ok he
  obtain ⟨hs, hK⟩ := ofDeleter_spec hr
  exact summary_newOwner w _ h1 s (Or.inr (Or.inr (Or.inr ⟨by rw [hs], _, by rw [hs]⟩)))
    (fun hc _ => hK _ hc)

theorem summary_spDeleterAlloc (w w1 : World) (esft : Bool) (p : Ptr) (a : Nat)
    (he : step w (.spDeleterAlloc esft p a) = .ok w1) :
    StepSummary w w1 (.spDeleterAlloc esft p a) := by
  obtain ⟨h1, s, hr, rfl⟩ := declOwner_ok he
  obtain ⟨hs, hK⟩ := ofDeleterAlloc_spec hr
  exact summary_newOwner w _ h1 s (Or.inr (Or.inr (Or.inr ⟨by rw [hs], _, by rw [hs]⟩)))
    (fun hc _ => hK _ hc)

theorem summary_spMakeShared (w w1 : World) (esft : Bool)
    (he : step w (.spMakeShared esft) = .ok w1) : StepSummary w w1 (.spMakeShared esft) := by
  obtain ⟨h1, s, hr, rfl⟩ := declOwner_ok he
  obtain ⟨hs, hK⟩ := ofMakeShared_spec hr
  exact summary_newOwner w _ h1 s (Or.inr (Or.inr (Or.inr ⟨_, _, hs⟩))) (fun hc _ => hK _ hc)

theorem summary_spAllocateShared (w w1 : World) (esft : Bool) (a : Nat)
    (he : step w (.spAllocateShared esft a) = .ok w1) :
    StepSummary w w1 (.spAllocateShared esft a) := by
  obtain ⟨h1, s, hr, rfl⟩ := declOwner_ok he
  obtain ⟨hs, hK⟩ := ofMakeShared_spec hr
  exact summary_newOwner w _ h1 s (Or.inr (Or.inr (Or.inr ⟨_, _, hs⟩))) (fun hc _ => hK _ hc)

theorem bump_eq_hit (r : Nat → Nat) (p : Ptr) (b : Nat) (c : Nat) :
    r c + hit (some ⟨p, some b⟩) c = r c + if c = b then 1 else 0 := by
  by_cases hcb : c = b
  · simp [hit, hcb]
  · have hbc : ¬ (b = c) := fun h => hcb h.symm
    simp [hit, hcb, hbc]

theorem copy_spec {h h1 : Heap} {o s : SharedPtr} (he : SharedPtr.copy h o = .ok (h1, s)) :
    s = o ∧ ∀ r, Counted h r → (o.ptr_ = none → o.block_ = none) →
      Counted h1 (fun c => r c + hit (some s) c) := by
  obtain ⟨op, ob⟩ := o
  unfold SharedPtr.copy at he
  cases op with
  | none =>
    simp only [Except.ok.injEq, Prod.mk.injEq] at he
    refine ⟨he.2.symm, fun r hc hn => ?_⟩
    have hob : ob = none := hn rfl
    subst hob
    rw [← he.1, ← he.2]
    exact counted_congr hc (fun c => by simp [hit])
  | some p =>
    simp only at he
    cases hi : h.incShared ob with
    | error e => simp [hi] at he
    | ok h2 =>
      simp only [hi, Except.ok.injEq, Prod.mk.injEq] at he
      obtain ⟨b, hb, _, _, hK⟩ := incShared_spec hi
      subst hb
      refine ⟨he.2.symm, fun r hc _ => ?_⟩
      rw [← he.1, ← he.2]
      exact counted_congr (hK r hc) (fun c => bump_eq_hit r _ b c)

theorem alias_spec {esft : Bool} {h h1 : Heap} {o s : SharedPtr} {p : Ptr}
    (he : SharedPtr.alias esft h o p = .ok (h1, s)) :
    s = ⟨p, o.block_⟩ ∧ ∀ r, Counted h r → (o.ptr_ = none → o.block_ = none) →
      Counted h1 (fun c => r c + hit (some s) c) := by
  obtain ⟨op, ob⟩ := o
  unfold SharedPtr.alias at he
  cases hw : h.wire esft ⟨p, ob⟩ with
  | error e => simp [hw] at he
  | ok h2 =>
    simp only [hw] at he
    have hst := wire_stable hw
    cases op with
    | none =>
      simp only [Except.ok.injEq, Prod.mk.injEq] at he
      refine ⟨he.2.symm, fun r hc hn => ?_⟩
      have hob : ob = none := hn rfl
      subst hob
      rw [← he.1, ← he.2]
      exact counted_congr (counted_stable hst hc) (fun c => by simp [hit])
    | some q =>
      simp only at he
      cases hi : h2.incShared ob with
      | error e => simp [hi] at he
      | ok h3 =>
        simp only [hi, Except.ok.injEq, Prod.mk.injEq] at he
        obtain ⟨b, hb, _, _, hK⟩ := incShared_spec hi
        subst hb
        refine ⟨he.2.symm, fun r hc _ => ?_⟩
        rw [← he.1, ← he.2]
        exact counted_congr (hK r (counted_stable hst hc)) (fun c => bump_eq_hit r _ b c)

theorem lock_spec {h h1 : Heap} {x : WeakPtr} {s : SharedPtr}
    (he : WeakPtr.lock h x = .ok (h1, s)) :
    s = ⟨x.ptr_, x.block_⟩ ∧ ∀ r, Counted h r → Counted h1 (fun c => r c + hit (some s) c) := by
  unfold WeakPtr.lock SharedPtr.ofBlock at he
  cases hi : h.incShared x.block_ with
  | error e => simp [hi] at he
  | ok h2 =>
    simp only [hi, Except.ok.injEq, Prod.mk.injEq] at he
    obtain ⟨b, hb, _, _, hK⟩ := incShared_spec hi
    refine ⟨he.2.symm, fun r hc => ?_⟩
    rw [← he.1, ← he.2, hb]
    exact counted_congr (hK r hc) (fun c => bump_eq_hit r _ b c)

theorem summary_spDefault (w w1 : World) (he : step w .spDefault = .ok w1) :
    StepSummary w w1 .spDefault := by
  simp only [step, Except.ok.injEq] at he
  subst he
  exact summary_newOwner w _ w.heap SharedPtr.empty (Or.inr (Or.inl rfl))
    (fun hc _ => counted_congr hc (fun c => by simp [hit, SharedPtr.empty]))

theorem summary_newPayload (w w1 : World) (esft : Bool)
    (he : step w (.newPayload esft) = .ok w1) : StepSummary w w1 (.newPayload esft) := by
  simp only [step, Except.ok.injEq] at he
  subst he
  exact summary_observers w _ _ w.observers (stable_of_blocks_eq rfl) (fun _ hx => Or.inl hx)

theorem summary_spCopy (w w1 : World) (i : Nat) (he : step w (.spCopy i) = .ok w1) :
    StepSummary w w1 (.spCopy i) := by
  simp only [step] at he
  cases ho : w.owner i with
  | error e => simp [ho] at he
  | ok o =>
    simp only [ho] at he
    obtain ⟨h1, s, hr, rfl⟩ := declOwner_ok he
    obtain ⟨hs, hK⟩ := copy_spec hr
    exact summary_newOwner w _ h1 s (Or.inl (hs ▸ owner_mem ho))
      (fun hc hn => hK _ hc (hn o (owner_mem ho)))

theorem summary_spAlias (w w1 : World) (esft : Bool) (i : Nat) (p : Ptr)
    (he : step w (.spAlias esft i p) = .ok w1) : StepSummary w w1 (.spAlias esft i p) := by
  simp only [step] at he
  cases ho : w.owner i with
  | error e => simp [ho] at he
  | ok o =>
    simp only [ho] at he
    obtain ⟨h1, s, hr, rfl⟩ := declOwner_ok he
    obtain ⟨hs, hK⟩ := alias_spec hr
    exact summary_newOwner w _ h1 s (Or.inr (Or.inr (Or.inr ⟨o, ho, hs⟩)))
      (fun hc hn => hK _ hc (hn o (owner_mem ho)))

theorem summary_wpLock (w w1 : World) (i : Nat) (he : step w (.wpLock i) = .ok w1) :
    StepSummary w w1 (.wpLock i) := by
  simp only [step] at he
  cases ho : w.observer i with
  | error e => simp [ho] at he
  | ok x =>
    simp only [ho] at he
    obtain ⟨h1, s, hr, rfl⟩ := declOwner_ok he
    obtain ⟨hs, hK⟩ := lock_spec hr
    exact summary_newOwner w _ h1 s (Or.inr (Or.inr (Or.inl ⟨x, observer_mem ho, hs⟩)))
      (fun hc _ => hK _ hc)

theorem summary_spReset (w w1 : World) (i : Nat) (he : step w (.spReset i) = .ok w1) :
    StepSummary w w1 (.spReset i) := by
  simp only [step] at he
  cases ho : w.owner i with
  | error e => simp [ho] at he
  | ok o =>
    simp only [ho] at he
    obtain ⟨h1, s, hr, rfl⟩ := updOwner_ok he
    obtain ⟨hs, _, hK⟩ := shared_reset_spec hr
    have hget := (owner_ok_iff w i o).mp ho
    refine summary_setOwner w _ h1 i (some o) (some s) hget ?_ ?_
    · intro t ht
      simp only [Option.some.injEq] at ht
      subst ht
      rcases hs with hs | hs
      · exact Or.inr (Or.inl hs)
      · exact Or.inl (hs.1 ▸ owner_mem ho)
    · intro hc hn
      have hno := hn o (owner_mem ho)
      have hpos : ∀ b, o.block_ = some b → 0 < ownerRefs w.owners b := by
        intro b hb
        have := (ownerRefs_set w.owners i (some o) none b hget).2
        simp only [hit, hb, if_true] at this
        exact this
      refine counted_congr (hK _ hc hno hpos) (fun c => ?_)
      have hz : hit (some s) c = 0 := by
        rcases hs with hs | hs
        · simp [hs, hit]
        · have hb : o.block_ = none := by
            rcases hs.2 with h | h
            · exact hno h
            · exact h
          simp [hs.1, hit, hb]
      show ownerRefs w.owners c - hit (some o) c + hit (some s) c =
        ownerRefs w.owners c - hit (some o) c
      omega

theorem reset_owner_counted {w : World} {i : Nat} {o s : SharedPtr} {h1 : Heap}
    (ho : w.owner i = .ok o) (hr : SharedPtr.reset w.heap o = .ok (h1, s))
    (hc : Counted w.heap (ownerRefs w.owners)) (hn : NoBareBlock w) :
    Counted h1 (fun c => ownerRefs w.owners c - hit (some o) c) ∧
      (∀ c, hit (some s) c = 0) := by
  obtain ⟨hs, _, hK⟩ := shared_reset_spec hr
  have hget := (owner_ok_iff w i o).mp ho
  have hno := hn o (owner_mem ho)
  have hpos : ∀ b, o.block_ = some b → 0 < ownerRefs w.owners b := by
    intro b hb
    have := (ownerRefs_set w.owners i (some o) none b hget).2
    simp only [hit, hb, if_true] at this
    exact this
  refine ⟨hK _ hc hno hpos, fun c => ?_⟩
  rcases hs with hs | hs
  · simp [hs, hit]
  · have hb : o.block_ = none := by
      rcases hs.2 with h | h
      · exact hno h
      · exact h
    simp [hs.1, hit, hb]

theorem reset_owner_origin {w : World} {i : Nat} {o s : SharedPtr} {h1 : Heap} (op : Op)
    (ho : w.owner i = .ok o) (hr : SharedPtr.reset w.heap o = .ok (h1, s)) :
    OwnerOrigin w op s := by
  rcases (shared_reset_spec hr).1 with hs | hs
  · exact Or.inr (Or.inl hs)
  · exact Or.inl (hs.1 ▸ owner_mem ho)

theorem summary_spDestroy (w w1 : World) (i : Nat) (he : step w (.spDestroy i) = .ok w1) :
    StepSummary w w1 (.spDestroy i) := by
  simp only [step] at he
  cases ho : w.owner i with
  | error e => simp [ho] at he
  | ok o =>
    simp only [ho, SharedPtr.destroy] at he
    cases hr : SharedPtr.reset w.heap o with
    | error e => simp [hr] at he
    | ok v =>
      obtain ⟨h1, s⟩ := v
      simp only [hr, Except.ok.injEq] at he
      subst he
      refine summary_setOwner w _ h1 i (some o) none ((owner_ok_iff w i o).mp ho) ?_ ?_
      · intro t ht
        simp at ht
      · intro hc hn
        exact counted_congr (reset_owner_counted ho hr hc hn).1 (fun c => by simp [hit])

theorem summary_spResetTo (w w1 : World) (i : Nat) (p : Ptr)
    (he : step w (.spResetTo i p) = .ok w1) : StepSummary w w1 (.spResetTo i p) := by
  simp only [step] at he
  cases ho : w.owner i with
  | error e => simp [ho] at he
  | ok o =>
    simp only [ho] at he
    obtain ⟨h2, s, hrt, rfl⟩ := updOwner_ok he
    unfold SharedPtr.resetTo at hrt
    cases hr : SharedPtr.reset w.heap o with
    | error e => simp [hr] at hrt
    | ok v =>
      obtain ⟨h1, s1⟩ := v
      simp only [hr, Except.ok.injEq, Prod.mk.injEq] at hrt
      obtain ⟨hh, hs⟩ := hrt
      subst hh
      subst hs
      refine summary_setOwner w _ _ i (some o) _ ((owner_ok_iff w i o).mp ho) ?_ ?_
      · intro t ht
        simp only [Option.some.injEq] at ht
        subst ht
        exact Or.inr (Or.inr (Or.inr ⟨rfl, _, rfl⟩))
      · intro hc hn
        refine counted_congr (counted_place _ _ (reset_owner_counted ho hr hc hn).1 rfl)
          (fun c => ?_)
        exact bump_eq_hit (fun c => ownerRefs w.owners c - hit (some o) c) p h1.blocks.length c

theorem summary_spAssign (w w1 : World) (t s : Nat) (he : step w (.spAssign t s) = .ok w1) :
    StepSummary w w1 (.spAssign t s) := by
  simp only [step] at he
  cases hot : w.owner t with
  | error e => simp [hot] at he
  | ok this =>
    cases hos : w.owner s with
    | error e => simp [hot, hos] at he
    | ok other =>
      simp only [hot, hos] at he
      obtain ⟨h2, s2, ha, rfl⟩ := updOwner_ok he
      have hget := (owner_ok_iff w t this).mp hot
      unfold SharedPtr.assign at ha
      split at ha
      · simp only [Except.ok.injEq, Prod.mk.injEq] at ha
        obtain ⟨hh, hs⟩ := ha
        subst hh
        subst hs
        refine summary_setOwner w _ _ t (some this) _ hget ?_ ?_
        · intro x hx
          simp only [Option.some.injEq] at hx
          exact Or.inl (hx ▸ owner_mem hot)
        · intro hc _
          refine counted_congr hc (fun c => ?_)
          have := (ownerRefs_set w.owners t (some this) none c hget).2
          omega
      · cases hr : SharedPtr.reset w.heap this with
        | error e => simp [hr] at ha
        | ok v =>
          obtain ⟨h1, s1⟩ := v
          simp only [hr] at ha
          cases hi : h1.incShared other.block_ with
          | error e => simp [hi] at ha
          | ok h3 =>
            simp only [hi, Except.ok.injEq, Prod.mk.injEq] at ha
            obtain ⟨hh, hs⟩ := ha
            subst hh
            subst hs
            obtain ⟨b, hb, _, _, hK⟩ := incShared_spec hi
            refine summary_setOwner w _ _ t (some this) _ hget ?_ ?_
            · intro x hx
              simp only [Option.some.injEq] at hx
              exact Or.inl (hx ▸ owner_mem hos)
            · intro hc hn
              refine counted_congr (hK _ (reset_owner_counted hot hr hc hn).1) (fun c => ?_)
              rw [hb]
              exact bump_eq_hit (fun c => ownerRefs w.owners c - hit (some this) c)
                other.ptr_ b c

theorem summary_spMove (w w1 : World) (i : Nat) (he : step w (.spMove i) = .ok w1) :
    StepSummary w w1 (.spMove i) := by
  simp only [step] at he
  cases ho : w.owner i with
  | error e => simp [ho] at he
  | ok o =>
    simp only [ho, Except.ok.injEq] at he
    subst he
    have hget := (owner_ok_iff w i o).mp ho
    refine ⟨?_, fun x hx => Or.inl hx, ?_⟩
    · intro t ht
      simp only [World.newOwner, World.setOwner, List.mem_append, List.mem_singleton,
        Option.some.injEq] at ht
      rcases ht with ht | ht
      · rcases mem_set_cases _ _ _ _ ht with h1 | h1
        · exact Or.inl h1
        · simp only [Option.some.injEq] at h1
          exact Or.inr (Or.inl h1)
      · exact Or.inl (ht ▸ owner_mem ho)
    · intro hc _
      refine counted_congr hc (fun c => ?_)
      have h1 := ownerRefs_set w.owners i (some o) (some (SharedPtr.move o).2) c hget
      simp only [World.newOwner, World.setOwner, ownerRefs_append]
      have h2 : hit (some (SharedPtr.move o).2) c = 0 := by simp [hit, SharedPtr.move]
      have h3 : hit (some (SharedPtr.move o).1) c = hit (some o) c := rfl
      omega

theorem summary_spAliasMove (w w1 : World) (esft : Bool) (i : Nat) (p : Ptr)
    (he : step w (.spAliasMove esft i p) = .ok w1) :
    StepSummary w w1 (.spAliasMove esft i p) := by
  simp only [step] at he
  cases ho : w.owner i with
  | error e => simp [ho] at he
  | ok o =>
    simp only [ho, SharedPtr.aliasMove] at he
    cases hw : w.heap.wire esft ⟨p, o.block_⟩ with
    | error e => simp [hw] at he
    | ok h1 =>
      simp only [hw, Except.ok.injEq] at he
      subst he
      have hget := (owner_ok_iff w i o).mp ho
      refine ⟨?_, fun x hx => Or.inl hx, ?_⟩
      · intro t ht
        simp only [World.newOwner, World.setOwner, List.mem_append, List.mem_singleton,
          Option.some.injEq] at ht
        rcases ht with ht | ht
        · rcases mem_set_cases _ _ _ _ ht with h1 | h1
          · exact Or.inl h1
          · simp only [Option.some.injEq] at h1
            exact Or.inr (Or.inl h1)
        · exact Or.inr (Or.inr (Or.inr ⟨o, ho, ht⟩))
      · intro hc _
        refine counted_congr (counted_stable (wire_stable hw) hc) (fun c => ?_)
        have h1 := ownerRefs_set w.owners i (some o) (some ⟨none, none⟩) c hget
        simp only [World.newOwner, World.setOwner, ownerRefs_append]
        have h2 : hit (some (⟨none, none⟩ : SharedPtr)) c = 0 := by simp [hit]
        have h3 : hit (some (⟨p, o.block_⟩ : SharedPtr)) c = hit (some o) c := rfl
        omega

theorem summary_spMoveAssign (w w1 : World) (t s : Nat)
    (he : step w (.spMoveAssign t s) = .ok w1) : StepSummary w w1 (.spMoveAssign t s) := by
  simp only [step] at he
  cases hot : w.owner t with
  | error e => simp [hot] at he
  | ok this =>
    cases hos : w.owner s with
    | error e => simp [hot, hos] at he
    | ok other =>
      simp only [hot, hos, SharedPtr.moveAssign] at he
      cases hr : SharedPtr.reset w.heap this with
      | error e => simp [hr] at he
      | ok v =>
        obtain ⟨h1, r1⟩ := v
        simp only [hr, Except.ok.injEq] at he
        subst he
        have hgt := (owner_ok_iff w t this).mp hot
        have hgs := (owner_ok_iff w s other).mp hos
        have htlt : t < w.owners.length := (List.getElem?_eq_some.mp hgt).1
        have hsrc : (if (t == s) = true then r1 else other) = r1 ∧ t = s ∨
            (if (t == s) = true then r1 else other) = other ∧ t ≠ s := by
          by_cases hts : t = s
          · exact Or.inl ⟨by simp [hts], hts⟩
          · exact Or.inr ⟨by simp [hts], hts⟩
        generalize (if (t == s) = true then r1 else other) = src at hsrc
        have hL1 : (w.owners.set t (some ⟨src.ptr_, src.block_⟩))[s]? =
            some (some ⟨src.ptr_, src.block_⟩) := by
          rcases hsrc with ⟨_, hts⟩ | ⟨hso, hts⟩
          · rw [← hts, List.getElem?_set_self htlt]
          · rw [List.getElem?_set_ne hts, hgs, hso]
        refine ⟨?_, fun x hx => Or.inl hx, ?_⟩
        · intro x hx
          rcases mem_set_cases _ _ _ _ hx with h2 | h2
          · rcases mem_set_cases _ _ _ _ h2 with h3 | h3
            · exact Or.inl h3
            · simp only [Option.some.injEq] at h3
              have h4 : x = src := h3
              rcases hsrc with ⟨hsr, _⟩ | ⟨hso, _⟩
              · exact h4 ▸ hsr ▸ reset_owner_origin _ hot hr
              · exact Or.inl (h4 ▸ hso ▸ owner_mem hos)
          · simp only [Option.some.injEq] at h2
            exact Or.inr (Or.inl h2)
        · intro hc hn
          refine counted_congr (reset_owner_counted hot hr hc hn).1 (fun c => ?_)
          have e1 := ownerRefs_set w.owners t (some this) (some ⟨src.ptr_, src.block_⟩) c hgt
          have e2 := ownerRefs_set (w.owners.set t (some ⟨src.ptr_, src.block_⟩)) s
            (some ⟨src.ptr_, src.block_⟩) (some ⟨none, none⟩) c hL1
          have e3 : hit (some (⟨none, none⟩ : SharedPtr)) c = 0 := by simp [hit]
          simp only [World.setOwner, World.withHeap]
          omega

theorem summary_spSwap (w w1 : World) (i j : Nat) (he : step w (.spSwap i j) = .ok w1) :
    StepSummary w w1 (.spSwap i j) := by
  simp only [step] at he
  cases hoi : w.owner i with
  | error e => simp [hoi] at he
  | ok a =>
    cases hoj : w.owner j with
    | error e => simp [hoi, hoj] at he
    | ok b =>
      simp only [hoi, hoj, Except.ok.injEq] at he
      subst he
      have hgi := (owner_ok_iff w i a).mp hoi
      have hgj := (owner_ok_iff w j b).mp hoj
      have hilt : i < w.owners.length := (List.getElem?_eq_some.mp hgi).1
      have hX : (if (i == j) = true then a else (SharedPtr.swap a b).2) = a := by
        by_cases hij : i = j <;> simp [hij, SharedPtr.swap]
      have hB : (SharedPtr.swap a b).1 = b := rfl
      rw [hX, hB]
      have hL1 : (w.owners.set i (some b))[j]? = some (some b) := by
        by_cases hij : i = j
        · rw [← hij, List.getElem?_set_self hilt]
        · rw [List.getElem?_set_ne hij, hgj]
      refine ⟨?_, fun x hx => Or.inl hx, ?_⟩
      · intro x hx
        rcases mem_set_cases _ _ _ _ hx with h2 | h2
        · rcases mem_set_cases _ _ _ _ h2 with h3 | h3
          · exact Or.inl h3
          · exact Or.inl (h3 ▸ owner_mem hoj)
        · exact Or.inl (h2 ▸ owner_mem hoi)
      · intro hc _
        refine counted_congr hc (fun c => ?_)
        have e1 := ownerRefs_set w.owners i (some a) (some b) c hgi
        have e2 := ownerRefs_set (w.owners.set i (some b)) j (some b) (some a) c hL1
        simp only [World.setOwner]
        omega

theorem weak_copy_spec {h h1 : Heap} {o x : WeakPtr} (he : WeakPtr.copy h o = .ok (h1, x)) :
    x = o ∧ Stable h h1 := by
  unfold WeakPtr.copy at he
  cases hi : h.incWeak o.block_ with
  | error e => simp [hi] at he
  | ok h2 =>
    simp only [hi, Except.ok.injEq, Prod.mk.injEq] at he
    exact ⟨he.2.symm, he.1 ▸ stable_incWeak hi⟩

theorem weak_ofShared_spec {h h1 : Heap} {o : SharedPtr} {x : WeakPtr}
    (he : WeakPtr.ofShared h o = .ok (h1, x)) : x = ⟨o.ptr_, o.block_⟩ ∧ Stable h h1 := by
  unfold WeakPtr.ofShared at he
  cases hi : h.incWeak o.block_ with
  | error e => simp [hi] at he
  | ok h2 =>
    simp only [hi, Except.ok.injEq, Prod.mk.injEq] at he
    exact ⟨he.2.symm, he.1 ▸ stable_incWeak hi⟩

theorem weak_assign_spec {h h1 : Heap} {this other x : WeakPtr} {same : Bool}
    (he : WeakPtr.assign h this other same = .ok (h1, x)) :
    (x = this ∨ x = other) ∧ Stable h h1 := by
  unfold WeakPtr.assign at he
  split at he
  · simp only [Except.ok.injEq, Prod.mk.injEq] at he
    exact ⟨Or.inl he.2.symm, he.1 ▸ Stable.refl h⟩
  · cases hr : WeakPtr.reset h this with
    | error e => simp [hr] at he
    | ok v =>
      obtain ⟨h2, w2⟩ := v
      simp only [hr] at he
      cases hi : h2.incWeak other.block_ with
      | error e => simp [hi] at he
      | ok h3 =>
        simp only [hi, Except.ok.injEq, Prod.mk.injEq] at he
        exact ⟨Or.inr he.2.symm, he.1 ▸ (weak_reset_spec hr).2.1.trans (stable_incWeak hi)⟩

theorem weak_moveAssign_spec {h h1 : Heap} {this other x y : WeakPtr} {same : Bool}
    (he : WeakPtr.moveAssign h this other same = .ok (h1, x, y)) :
    (x = this ∨ x = other) ∧ y = ⟨none, none⟩ ∧ Stable h h1 := by
  unfold WeakPtr.moveAssign at he
  cases hr : WeakPtr.reset h this with
  | error e => simp [hr] at he
  | ok v =>
    obtain ⟨h2, w2⟩ := v
    simp only [hr, Except.ok.injEq, Prod.mk.injEq] at he
    obtain ⟨hw2, hst, _⟩ := weak_reset_spec hr
    refine ⟨?_, he.2.2.symm, he.1 ▸ hst⟩
    rw [← he.2.1]
    cases same with
    | true => exact Or.inl (by simp [hw2])
    | false => exact Or.inr (by simp)

theorem origin_append (w : World) (x : WeakPtr) (hx : ObserverOrigin w x) :
    ∀ y, some y ∈ w.observers ++ [some x] → ObserverOrigin w y := by
  intro y hy
  simp only [List.mem_append, List.mem_singleton, Option.some.injEq] at hy
  rcases hy with hy | hy
  · exact Or.inl hy
  · exact hy ▸ hx

theorem origin_set (w : World) (i : Nat) (x : Option WeakPtr)
    (hx : ∀ y, x = some y → ObserverOrigin w y) :
    ∀ y, some y ∈ w.observers.set i x → ObserverOrigin w y := by
  intro y hy
  rcases mem_set_cases _ _ _ _ hy with h1 | h1
  · exact Or.inl h1
  · exact hx y h1.symm

theorem summary_wpDefault (w w1 : World) (he : step w .wpDefault = .ok w1) :
    StepSummary w w1 .wpDefault := by
  simp only [step, Except.ok.injEq] at he
  subst he
  exact summary_observers w _ w.heap _ (Stable.refl _) (origin_append w _ (Or.inr (Or.inl rfl)))

theorem summary_wpCopy (w w1 : World) (i : Nat) (he : step w (.wpCopy i) = .ok w1) :
    StepSummary w w1 (.wpCopy i) := by
  simp only [step] at he
  cases ho : w.observer i with
  | error e => simp [ho] at he
  | ok o =>
    simp only [ho] at he
    obtain ⟨h1, x, hr, rfl⟩ := declObserver_ok he
    obtain ⟨hx, hst⟩ := weak_copy_spec hr
    exact summary_observers w _ h1 _ hst (origin_append w x (Or.inl (hx ▸ observer_mem ho)))

theorem summary_wpOfShared (w w1 : World) (i : Nat) (he : step w (.wpOfShared i) = .ok w1) :
    StepSummary w w1 (.wpOfShared i) := by
  simp only [step] at he
  cases ho : w.owner i with
  | error e => simp [ho] at he
  | ok o =>
    simp only [ho] at he
    obtain ⟨h1, x, hr, rfl⟩ := declObserver_ok he
    obtain ⟨hx, hst⟩ := weak_ofShared_spec hr
    exact summary_observers w _ h1 _ hst
      (origin_append w x (Or.inr (Or.inr ⟨o, owner_mem ho, hx⟩)))

theorem summary_wpMove (w w1 : World) (i : Nat) (he : step w (.wpMove i) = .ok w1) :
    StepSummary w w1 (.wpMove i) := by
  simp only [step] at he
  cases ho : w.observer i with
  | error e => simp [ho] at he
  | ok o =>
    simp only [ho, Except.ok.injEq] at he
    subst he
    refine summary_observers w _ w.heap _ (Stable.refl _) ?_
    intro y hy
    simp only [World.setObserver, List.mem_append, List.mem_singleton, Option.some.injEq] at hy
    rcases hy with hy | hy
    · rcases mem_set_cases _ _ _ _ hy with h1 | h1
      · exact Or.inl h1
      · simp only [Option.some.injEq] at h1
        exact Or.inr (Or.inl h1)
    · exact Or.inl (hy ▸ observer_mem ho)

theorem summary_wpAssign (w w1 : World) (t s : Nat) (he : step w (.wpAssign t s) = .ok w1) :
    StepSummary w w1 (.wpAssign t s) := by
  simp only [step] at he
  cases hot : w.observer t with
  | error e => simp [hot] at he
  | ok this =>
    cases hos : w.observer s with
    | error e => simp [hot, hos] at he
    | ok other =>
      simp only [hot, hos] at he
      obtain ⟨h1, x, hr, rfl⟩ := updObserver_ok he
      obtain ⟨hx, hst⟩ := weak_assign_spec hr
      refine summary_observers w _ h1 _ hst (origin_set w t _ ?_)
      intro y hy
      simp only [Option.some.injEq] at hy
      subst hy
      rcases hx with hx | hx
      · exact Or.inl (hx ▸ observer_mem hot)
      · exact Or.inl (hx ▸ observer_mem hos)

theorem summary_wpMoveAssign (w w1 : World) (t s : Nat)
    (he : step w (.wpMoveAssign t s) = .ok w1) : StepSummary w w1 (.wpMoveAssign t s) := by
  simp only [step] at he
  cases hot : w.observer t with
  | error e => simp [hot] at he
  | ok this =>
    cases hos : w.observer s with
    | error e => simp [hot, hos] at he
    | ok other =>
      simp only [hot, hos] at he
      cases hr : WeakPtr.moveAssign w.heap this other (t == s) with
      | error e => simp [hr] at he
      | ok v =>
        obtain ⟨h1, x, y⟩ := v
        simp only [hr, Except.ok.injEq] at he
        subst he
        obtain ⟨hx, hy, hst⟩ := weak_moveAssign_spec hr
        refine summary_observers w _ h1 _ hst ?_
        intro z hz
        rcases mem_set_cases _ _ _ _ hz with h2 | h2
        · rcases mem_set_cases _ _ _ _ h2 with h3 | h3
          · exact Or.inl h3
          · simp only [Option.some.injEq] at h3
            rcases hx with hx | hx
            · exact Or.inl (h3 ▸ hx ▸ observer_mem hot)
            · exact Or.inl (h3 ▸ hx ▸ observer_mem hos)
        · simp only [Option.some.injEq] at h2
          exact Or.inr (Or.inl (h2.trans hy))

theorem summary_wpAssignShared (w w1 : World) (t s : Nat)
    (he : step w (.wpAssignShared t s) = .ok w1) : StepSummary w w1 (.wpAssignShared t s) := by
  simp only [step] at he
  cases hot : w.observer t with
  | error e => simp [hot] at he
  | ok this =>
    cases hos : w.owner s with
    | error e => simp [hot, hos] at he
    | ok other =>
      simp only [hot, hos] at he
      obtain ⟨h1, x, hr, rfl⟩ := updObserver_ok he
      obtain ⟨hx, hst⟩ := weak_assignShared_spec hr
      refine summary_observers w _ h1 _ hst (origin_set w t _ ?_)
      intro y hy
      simp only [Option.some.injEq] at hy
      subst hy
      exact Or.inr (Or.inr ⟨other, owner_mem hos, hx⟩)

theorem summary_wpReset (w w1 : World) (i : Nat) (he : step w (.wpReset i) = .ok w1) :
    StepSummary w w1 (.wpReset i) := by
  simp only [step] at he
  cases ho : w.observer i with
  | error e => simp [ho] at he
  | ok o =>
    simp only [ho] at he
    obtain ⟨h1, x, hr, rfl⟩ := updObserver_ok he
    obtain ⟨hx, hst, _⟩ := weak_reset_spec hr
    refine summary_observers w _ h1 _ hst (origin_set w i _ ?_)
    intro y hy
    simp only [Option.some.injEq] at hy
    subst hy
    exact Or.inl (hx ▸ observer_mem ho)

theorem summary_wpDestroy (w w1 : World) (i : Nat) (he : step w (.wpDestroy i) = .ok w1) :
    StepSummary w w1 (.wpDestroy i) := by
  simp only [step] at he
  cases ho : w.observer i with
  | error e => simp [ho] at he
  | ok o =>
    simp only [ho] at he
    cases hd : WeakPtr.destroy w.heap o with
    | error e => simp [hd] at he
    | ok h1 =>
      simp only [hd, Except.ok.injEq] at he
      subst he
      refine summary_observers w _ h1 _ (weak_destroy_stable hd) (origin_set w i _ ?_)
      intro y hy
      simp at hy

theorem step_summary (w w1 : World) (op : Op) (he : step w op = .ok w1) :
    StepSummary w w1 op := by
  cases op with
  | newPayload esft => exact summary_newPayload w w1 esft he
  | spDefault => exact summary_spDefault w w1 he
  | spRaw esft p => exact summary_spRaw w w1 esft p he
  | spDeleter esft p => exact summary_spDeleter w w1 esft p he
  | spDeleterAlloc esft p a => exact summary_spDeleterAlloc w w1 esft p a he
  | spMakeShared esft => exact summary_spMakeShared w w1 esft he
  | spAllocateShared esft a => exact summary_spAllocateShared w w1 esft a he
  | spCopy i => exact summary_spCopy w w1 i he
  | spMove i => exact summary_spMove w w1 i he
  | spAlias esft i p => exact summary_spAlias w w1 esft i p he
  | spAliasMove esft i p => exact summary_spAliasMove w w1 esft i p he
  | spAssign t s => exact summary_spAssign w w1 t s he
  | spMoveAssign t s => exact summary_spMoveAssign w w1 t s he
  | spSwap i j => exact summary_spSwap w w1 i j he
  | spReset i => exact summary_spReset w w1 i he
  | spResetTo i p => exact summary_spResetTo w w1 i p he
  | spDestroy i => exact summary_spDestroy w w1 i he
  | wpDefault => exact summary_wpDefault w w1 he
  | wpCopy i => exact summary_wpCopy w w1 i he
  | wpMove i => exact summary_wpMove w w1 i he
  | wpAssign t s => exact summary_wpAssign w w1 t s he
  | wpMoveAssign t s => exact summary_wpMoveAssign w w1 t s he
  | wpOfShared i => exact summary_wpOfShared w w1 i he
  | wpAssignShared t s => exact summary_wpAssignShared w w1 t s he
  | wpReset i => exact summary_wpReset w w1 i he
  | wpDestroy i => exact summary_wpDestroy w w1 i he
  | wpLock i => exact summary_wpLock w w1 i he

/-! ### Invariants of reachable states -/

theorem pairs_step (P : Ptr → Ptr → Prop) (hP0 : P none none) (w w1 : World) (op : Op)
    (hsum : StepSummary w w1 op) (hfresh : ∀ s, freshPair w op s → P s.ptr_ s.block_)
    (hO : ∀ s : SharedPtr, some s ∈ w.owners → P s.ptr_ s.block_)
    (hW : ∀ x : WeakPtr, some x ∈ w.observers → P x.ptr_ x.block_) :
    (∀ s : SharedPtr, some s ∈ w1.owners → P s.ptr_ s.block_) ∧
    (∀ x : WeakPtr, some x ∈ w1.observers → P x.ptr_ x.block_) := by
  refine ⟨?_, ?_⟩
  · intro s hs
    rcases hsum.1 s hs with h | h | ⟨x, hx, h⟩ | h
    · exact hO s h
    · rw [h]; exact hP0
    · rw [h]; exact hW x hx
    · exact hfresh s h
  · intro x hx
    rcases hsum.2.1 x hx with h | h | ⟨s, hs, h⟩
    · exact hW x h
    · rw [h]; exact hP0
    · rw [h]; exact hO s hs

theorem fresh_nonNull (w : World) (op : Op) (hadm : nonNullArgs op) (s : SharedPtr)
    (hf : freshPair w op s) : s.ptr_ = none → s.block_ = none := by
  intro hnone
  cases op <;> simp only [freshPair, nonNullArgs] at hf hadm
  case spRaw => exact absurd (hf.1 ▸ hnone) hadm
  case spDeleter => exact absurd (hf.1 ▸ hnone) hadm
  case spDeleterAlloc => exact absurd (hf.1 ▸ hnone) hadm
  case spResetTo => exact absurd (hf.1 ▸ hnone) hadm
  case spMakeShared =>
    obtain ⟨a, b, rfl⟩ := hf
    simp at hnone
  case spAllocateShared =>
    obtain ⟨a, b, rfl⟩ := hf
    simp at hnone
  case spAlias =>
    obtain ⟨o, _, rfl⟩ := hf
    exact absurd hnone hadm
  case spAliasMove =>
    obtain ⟨o, _, rfl⟩ := hf
    exact absurd hnone hadm

theorem fresh_paired (w : World) (op : Op) (hadm : keepsPairing w op) (s : SharedPtr)
    (hf : freshPair w op s) : s.ptr_ = none ↔ s.block_ = none := by
  cases op <;> simp only [freshPair, keepsPairing] at hf hadm
  case spRaw =>
    obtain ⟨hp, b, hb⟩ := hf
    simp [hp, hb, hadm]
  case spDeleter =>
    obtain ⟨hp, b, hb⟩ := hf
    simp [hp, hb, hadm]
  case spDeleterAlloc =>
    obtain ⟨hp, b, hb⟩ := hf
    simp [hp, hb, hadm]
  case spResetTo =>
    obtain ⟨hp, b, hb⟩ := hf
    simp [hp, hb, hadm]
  case spMakeShared =>
    obtain ⟨a, b, rfl⟩ := hf
    simp
  case spAllocateShared =>
    obtain ⟨a, b, rfl⟩ := hf
    simp
  case spAlias =>
    obtain ⟨o, ho, rfl⟩ := hf
    exact hadm o ho
  case spAliasMove =>
    obtain ⟨o, ho, rfl⟩ := hf
    exact hadm o ho

theorem reachable_counted (w : World) (hr : Reachable (fun _ op => nonNullArgs op) w) :
    Counted w.heap (ownerRefs w.owners) ∧
    (∀ s : SharedPtr, some s ∈ w.owners → s.ptr_ = none → s.block_ = none) ∧
    (∀ x : WeakPtr, some x ∈ w.observers → x.ptr_ = none → x.block_ = none) := by
  induction hr with
  | init =>
    refine ⟨⟨?_, ?_⟩, ?_, ?_⟩
    · intro c cb hb
      simp [World.empty, Heap.empty] at hb
    · intro c _
      simp [World.empty, ownerRefs]
    · intro s hs
      simp [World.empty] at hs
    · intro x hx
      simp [World.empty] at hx
  | next w w1 op _ hadm hstep ih =>
    have hsum := step_summary w w1 op hstep
    obtain ⟨hc, hO, hW⟩ := ih
    have hp := pairs_step (fun p b => p = none → b = none) (fun _ => rfl) w w1 op hsum
      (fresh_nonNull w op hadm) hO hW
    exact ⟨hsum.2.2 hc hO, hp.1, hp.2⟩

theorem reachable_run (adm : World → Op → Prop) (ops : List Op) :
    ∀ w w1 : World, Reachable adm w → admitted adm w ops → run w ops = .ok w1 →
      Reachable adm w1 := by
  induction ops with
  | nil =>
    intro w w1 hr _ hrun
    simp only [run, Except.ok.injEq] at hrun
    exact hrun ▸ hr
  | cons op ops ih =>
    intro w w1 hr hadm hrun
    simp only [run] at hrun
    simp only [admitted] at hadm
    cases hs : step w op with
    | error e => simp [hs] at hrun
    | ok w2 =>
      simp only [hs] at hrun hadm
      exact ih w2 w1 (Reachable.next w w2 op hr hadm.1 hs) hadm.2 hrun

/-- C7: in every state reachable from the empty program by the operations of the
two handle classes and the construction helpers, where every raw pointer and
alias pointer given to an operation is non-null, the `shared_count` of every
allocated control block equals the number of owning-handle variables whose
`block_` is that block (that number being representable in `size_t`). -/
theorem shared_count_counts_owners (w : World)
    (hr : Reachable (fun _ op => nonNullArgs op) w)
    (b : Nat) (cb : ControlBlock) (hb : w.heap.blocks[b]? = some cb)
    (hl : cb.freed = false) (hfit : ownerRefs w.owners b < SIZE_MOD) :
    cb.shared_count = ownerRefs w.owners b := by
  have hc := (reachable_counted w hr).1.1 b cb hb hl
  rw [hc]
  exact Nat.mod_eq_of_lt hfit

theorem reachable_paired (w : World) (hr : Reachable keepsPairing w) :
    (∀ s : SharedPtr, some s ∈ w.owners → (s.ptr_ = none ↔ s.block_ = none)) ∧
    (∀ x : WeakPtr, some x ∈ w.observers → (x.ptr_ = none ↔ x.block_ = none)) := by
  induction hr with
  | init =>
    refine ⟨?_, ?_⟩
    · intro s hs
      simp [World.empty] at hs
    · intro x hx
      simp [World.empty] at hx
  | next w w1 op _ hadm hstep ih =>
    exact pairs_step (fun p b => p = none ↔ b = none) Iff.rfl w w1 op
      (step_summary w w1 op hstep) (fresh_paired w op hadm) ih.1 ih.2

/-- C9 as stated fails: wrapping a null raw pointer gives a handle with a null
payload pointer and a block; `reset(nullptr)` does the same; aliasing an empty
handle with a non-null pointer gives a handle with a payload pointer and no block. -/
theorem pairing_broken_by_null_arguments :
    (∃ w s, run World.empty [.spRaw false none] = .ok w ∧ some s ∈ w.owners ∧
      ¬ (s.ptr_ = none ↔ s.block_ = none)) ∧
    (∃ w s, run World.empty [.spDefault, .spResetTo 0 none] = .ok w ∧ some s ∈ w.owners ∧
      ¬ (s.ptr_ = none ↔ s.block_ = none)) ∧
    (∃ w s, run World.empty [.spDefault, .spAlias false 0 (some 7)] = .ok w ∧
      some s ∈ w.owners ∧ ¬ (s.ptr_ = none ↔ s.block_ = none)) := by
  refine ⟨⟨_, ⟨none, some 0⟩, rfl, by decide, by decide⟩,
    ⟨_, ⟨none, some 0⟩, rfl, by decide, by decide⟩,
    ⟨_, ⟨some 7, none⟩, rfl, by decide, by decide⟩⟩

/-- C9 (amended): in every state reachable from the empty program by the
operations of the two handle classes and the construction helpers, where every raw
pointer wrapped or re-seated is non-null and every aliasing construction gets a
null alias pointer exactly when its source handle has no block, every owning
handle has a null payload pointer iff it has no control block. -/
theorem handle_pairing_kept (w : World) (hr : Reachable keepsPairing w) (s : SharedPtr)
    (hs : some s ∈ w.owners) : s.ptr_ = none ↔ s.block_ = none :=
  (reachable_paired w hr).1 s hs

/-- Witness for `shared_count_counts_owners`: the state after
`p = new T; SharedPtr s0(p); SharedPtr s1(s0); WeakPtr w(s0);`. -/
theorem shared_count_counts_owners_witness :
    (⟨2, 1, .base, none, .defaulted, false⟩ : ControlBlock).shared_count =
      ownerRefs [some ⟨some 0, some 0⟩, some ⟨some 0, some 0⟩] 0 :=
  shared_count_counts_owners
    ⟨⟨[⟨2, 1, .base, none, .defaulted, false⟩], [⟨true, none⟩], [.newBlock 0]⟩,
      [some ⟨some 0, some 0⟩, some ⟨some 0, some 0⟩], [some ⟨some 0, some 0⟩]⟩
    (reachable_run _ [.newPayload false, .spRaw false (some 0), .spCopy 0, .wpOfShared 0]
      World.empty _ Reachable.init
      ⟨trivial, Option.some_ne_none 0, trivial, trivial, trivial⟩ rfl)
    0 ⟨2, 1, .base, none, .defaulted, false⟩ rfl rfl (by decide)

/-- Witness for `handle_pairing_kept`: the aliasing handle of the state after
`p = new T; SharedPtr s0(p); SharedPtr s1(s0, p);`. -/
theorem handle_pairing_kept_witness :
    (⟨some 0, some 0⟩ : SharedPtr).ptr_ = none ↔ (⟨some 0, some 0⟩ : SharedPtr).block_ = none :=
  handle_pairing_kept
    ⟨⟨[⟨2, 0, .base, none, .defaulted, false⟩], [⟨true, none⟩], [.newBlock 0]⟩,
      [some ⟨some 0, some 0⟩, some ⟨some 0, some 0⟩], []⟩
    (reachable_run _ [.newPayload false, .spRaw false (some 0), .spAlias false 0 (some 0)]
      World.empty _ Reachable.init
      ⟨trivial, Option.some_ne_none 0, fun o ho => by cases ho; decide, trivial⟩ rfl)
    ⟨some 0, some 0⟩ (by decide)

/-! ### Aliasing, self-awareness and the construction helpers -/

/-- C13 (code defect): when the aliasing handle `s = SharedPtr(a, p1)` is released
last, the destruction path runs on the alias pointer `p1`, not on the managed
object `p0` of the block: with the default block `delete ptr_` destroys the object
at `p1` and the object at `p0` stays alive; with the regular block the stored
deleter is called on `p1`.  No destruction path ever runs on `p0`. -/
theorem alias_released_last_destroys_alias_target :
    (∃ w, run World.empty (aliasLastScenario false) = .ok w ∧
      w.heap.log = [.newBlock 0, .deletePayload 1, .deleteBlock 0] ∧
      w.heap.objects = [⟨true, none⟩, ⟨false, none⟩] ∧
      destroyCount w.heap.log 0 = 0 ∧ destroyCount w.heap.log 1 = 1) ∧
    (∃ w, run World.empty (aliasLastScenario true) = .ok w ∧
      w.heap.log = [.allocate .defaulted 0, .deleter 0 (some 1), .deallocate .defaulted 0] ∧
      destroyCount w.heap.log 0 = 0 ∧ destroyCount w.heap.log 1 = 1) := by
  refine ⟨⟨_, rfl, by decide, by decide, by decide, by decide⟩,
    ⟨_, rfl, by decide, by decide, by decide⟩⟩

/-- C20: the example trace, statement by statement: after `p2 = p1`,
`p1.use_count() == 2`; after `w = WeakPtr(p1)`, `w.expired() == false`; after
`p2.reset()`, `p1.use_count() == 1` and the Widget is alive and undestroyed; after
`p1.reset()`, the Widget has been destroyed exactly once, the block is still
allocated and was never given back, and `w.expired() == true`. -/
theorem widget_trace :
    (∃ w p1, run World.empty (widgetTrace 3) = .ok w ∧ w.owner 0 = .ok p1 ∧
      SharedPtr.use_count w.heap p1 = .ok 2) ∧
    (∃ w x, run World.empty (widgetTrace 4) = .ok w ∧ w.observer 0 = .ok x ∧
      WeakPtr.expired w.heap x = .ok false) ∧
    (∃ w p1, run World.empty (widgetTrace 5) = .ok w ∧ w.owner 0 = .ok p1 ∧
      SharedPtr.use_count w.heap p1 = .ok 1 ∧
      w.heap.objects[0]? = some ⟨true, none⟩ ∧ destroyCount w.heap.log 0 = 0) ∧
    (∃ w x, run World.empty (widgetTrace 6) = .ok w ∧ w.observer 0 = .ok x ∧
      w.heap.objects[0]? = some ⟨false, none⟩ ∧ destroyCount w.heap.log 0 = 1 ∧
      w.heap.load 0 = .ok ⟨0, 1, .base, none, .defaulted, false⟩ ∧
      freeCount w.heap.log 0 = 0 ∧
      WeakPtr.expired w.heap x = .ok true) := by
  refine ⟨⟨_, _, rfl, rfl, by decide⟩, ⟨_, _, rfl, rfl, by decide⟩,
    ⟨_, _, rfl, rfl, by decide, by decide, by decide⟩,
    ⟨_, _, rfl, rfl, by decide, by decide, by decide, by decide, by decide⟩⟩

theorem load_place_new (h : Heap) (cb : ControlBlock) (e : Event) (hl : cb.freed = false) :
    (h.place cb e).load h.blocks.length = .ok cb := by
  simp [Heap.load, Heap.place, hl]

/-- C19: for every non-null raw pointer `p` and a payload type without the
`EnableSharedFromThis` base, `SharedPtr<T>(p)` succeeds; it allocates one default
control block at an address not used before, with `shared_count == 1` and
`weak_count == 0`, and changes nothing else; the handle has `get() == p` and
`use_count() == 1`. -/
theorem wrap_raw_pointer (h : Heap) (p : Nat) :
    ∃ h1 s, SharedPtr.ofRaw false h (some p) = .ok (h1, s) ∧
      s.get = some p ∧ s.block_ = some h.blocks.length ∧
      h.blocks[h.blocks.length]? = none ∧
      h1.blocks = h.blocks ++ [⟨1, 0, .base, none, .defaulted, false⟩] ∧
      h1.objects = h.objects ∧ h1.log = h.log ++ [.newBlock h.blocks.length] ∧
      h1.load h.blocks.length = .ok ⟨1, 0, .base, none, .defaulted, false⟩ ∧
      SharedPtr.use_count h1 s = .ok 1 := by
  have hld := load_place_new h (BaseControlBlock .base none .defaulted)
    (.newBlock h.blocks.length) rfl
  refine ⟨h.place (BaseControlBlock .base none .defaulted) (.newBlock h.blocks.length),
    ⟨some p, some h.blocks.length⟩, rfl, rfl, rfl, by simp, rfl, rfl, rfl, hld, ?_⟩
  simp only [SharedPtr.use_count, Heap.loadPtr, hld]
  rfl

theorem incWeak_ok (h : Heap) (b : Nat) (cb : ControlBlock) (hb : h.blocks[b]? = some cb)
    (hl : cb.freed = false) :
    h.incWeak (some b) = .ok (h.store b { cb with weak_count := incr cb.weak_count }) := by
  simp only [Heap.incWeak, Heap.loadPtr, load_ok hb hl]

theorem incShared_ok (h : Heap) (b : Nat) (cb : ControlBlock) (hb : h.blocks[b]? = some cb)
    (hl : cb.freed = false) :
    h.incShared (some b) = .ok (h.store b { cb with shared_count := incr cb.shared_count }) := by
  simp only [Heap.incShared, Heap.loadPtr, load_ok hb hl]

theorem wire_fresh (h : Heap) (p b : Nat) (cb : ControlBlock)
    (hobj : h.objects[p]? = some ⟨true, some ⟨none, none⟩⟩)
    (hb : h.blocks[b]? = some cb) (hl : cb.freed = false) :
    h.wire true ⟨some p, some b⟩ =
      .ok { blocks := h.blocks.set b { cb with weak_count := incr cb.weak_count },
            objects := h.objects.set p ⟨true, some ⟨some p, some b⟩⟩,
            log := h.log } := by
  simp only [Heap.wire, if_true, Heap.setWeakThis, hobj, WeakPtr.assignShared, WeakPtr.reset,
    incWeak_ok h b cb hb hl]
  rfl

theorem allocCount_append (l : List Event) (e : Event) :
    allocCount (l ++ [e]) = allocCount l +
      (match e with
        | .newBlock _ => 1
        | .allocate _ _ => 1
        | _ => 0) := by
  cases e <;> simp [allocCount, List.countP_append, List.countP_cons]

theorem makeShared_eval (esft : Bool) (h : Heap) :
    makeShared esft h = .ok
      ({ blocks := h.blocks ++
           [⟨1, if esft then 1 else 0, .makeShared, some h.objects.length, .defaulted, false⟩],
         objects := h.objects ++
           [⟨true, if esft then some ⟨some h.objects.length, some h.blocks.length⟩ else none⟩],
         log := h.log ++ [.allocate .defaulted h.blocks.length] },
       ⟨some h.objects.length, some h.blocks.length⟩) := by
  cases esft with
  | false => rfl
  | true =>
    have hw := wire_fresh
      { blocks := h.blocks ++ [BaseControlBlock .makeShared (some h.objects.length) .defaulted],
        objects := h.objects ++ [⟨true, some ⟨none, none⟩⟩],
        log := h.log ++ [.allocate .defaulted h.blocks.length] }
      h.objects.length h.blocks.length
      (BaseControlBlock .makeShared (some h.objects.length) .defaulted)
      (by simp) (by simp) rfl
    simp only [makeShared, SharedPtr.ofMakeShared, Heap.place, if_true, WeakPtr.empty]
    rw [hw]
    simp [BaseControlBlock, incr, SIZE_MOD]

theorem makeShared_release (h : Heap) :
    ∃ h2, SharedPtr.destroy
        (Heap.mk (h.blocks ++ [⟨1, 0, .makeShared, some h.objects.length, .defaulted, false⟩])
          (h.objects ++ [⟨true, none⟩])
          (h.log ++ [.allocate .defaulted h.blocks.length]))
        ⟨some h.objects.length, some h.blocks.length⟩ = .ok h2 ∧
      h2.log = (h.log ++ [.allocate .defaulted h.blocks.length]) ++
        [.destroyValue h.blocks.length h.objects.length,
          .deallocate .defaulted h.blocks.length] ∧
      totalFrees h2.log = totalFrees h.log + 1 ∧
      freeCount h2.log h.blocks.length = freeCount h.log h.blocks.length + 1 ∧
      allocCount h2.log = allocCount h.log + 1 ∧
      h2.load h.blocks.length = .error .useAfterFree := by
  have hdec : decr 1 = 0 := by decide
  cases hres : SharedPtr.destroy
      (Heap.mk (h.blocks ++ [⟨1, 0, .makeShared, some h.objects.length, .defaulted, false⟩])
        (h.objects ++ [⟨true, none⟩])
        (h.log ++ [.allocate .defaulted h.blocks.length]))
      ⟨some h.objects.length, some h.blocks.length⟩ with
  | error e =>
    exfalso
    simp [SharedPtr.destroy, SharedPtr.reset, Heap.load, hdec, Heap.delete_object,
      Heap.destructor, Heap.emit, Heap.store, Heap.freeBlock, Heap.deallocate,
      WeakPtr.destroy] at hres
  | ok h2 =>
    simp [SharedPtr.destroy, SharedPtr.reset, Heap.load, hdec, Heap.delete_object,
      Heap.destructor, Heap.emit, Heap.store, Heap.freeBlock, Heap.deallocate,
      WeakPtr.destroy] at hres
    subst hres
    refine ⟨_, rfl, ?_, ?_, ?_, ?_, ?_⟩
    · simp
    · simp [totalFrees, List.countP_append, List.countP_cons]
    · simp [freeCount, List.countP_append, List.countP_cons]
    · simp [allocCount, List.countP_append, List.countP_cons]
    · simp [Heap.load]

/-- C17: every call of `makeShared<T>()` succeeds and performs exactly one memory
allocation, of a block that holds the counters and the value together; the handle
has `use_count() == 1` and its payload pointer is the address of the block's
embedded value.  When the handle has no observer (a `T` without the
`EnableSharedFromThis` base), releasing it destroys the embedded value in place
and performs exactly one deallocation, of that same block. -/
theorem makeShared_one_allocation (esft : Bool) (h : Heap) :
    ∃ h1 cb, makeShared esft h = .ok (h1, ⟨some h.objects.length, some h.blocks.length⟩) ∧
      h1.log = h.log ++ [.allocate .defaulted h.blocks.length] ∧
      allocCount h1.log = allocCount h.log + 1 ∧
      h.blocks[h.blocks.length]? = none ∧
      h1.load h.blocks.length = .ok cb ∧
      cb.strategy = .makeShared ∧ cb.value = some h.objects.length ∧
      cb.weak_count = (if esft then 1 else 0) ∧
      SharedPtr.use_count h1 ⟨some h.objects.length, some h.blocks.length⟩ = .ok 1 ∧
      (esft = false →
        ∃ h2, SharedPtr.destroy h1 ⟨some h.objects.length, some h.blocks.length⟩ = .ok h2 ∧
          h2.log = h1.log ++ [.destroyValue h.blocks.length h.objects.length,
            .deallocate .defaulted h.blocks.length] ∧
          totalFrees h2.log = totalFrees h.log + 1 ∧
          freeCount h2.log h.blocks.length = freeCount h.log h.blocks.length + 1 ∧
          allocCount h2.log = allocCount h.log + 1 ∧
          h2.load h.blocks.length = .error .useAfterFree) := by
  have hld : Heap.load (Heap.mk
      (h.blocks ++
        [⟨1, if esft then 1 else 0, .makeShared, some h.objects.length, .defaulted, false⟩])
      (h.objects ++
        [⟨true, if esft then some ⟨some h.objects.length, some h.blocks.length⟩ else none⟩])
      (h.log ++ [.allocate .defaulted h.blocks.length])) h.blocks.length =
      .ok ⟨1, if esft then 1 else 0, .makeShared, some h.objects.length, .defaulted, false⟩ := by
    simp [Heap.load]
  refine ⟨_, _, makeShared_eval esft h, rfl, ?_, by simp, hld, rfl, rfl, rfl, ?_, ?_⟩
  · simp [allocCount, List.countP_append, List.countP_cons]
  · simp only [SharedPtr.use_count, Heap.loadPtr, hld]
  · intro he
    subst he
    exact makeShared_release h

/-- C18 as stated fails: when the payload's constructor throws, the block that
`makeShared` (or `allocateShared`) allocated has not been given back when the
exception reaches the caller. -/
theorem throwing_constructor_leaks_block :
    allocCount (makeSharedThrows Heap.empty).log = 1 ∧
    totalFrees (makeSharedThrows Heap.empty).log = 0 ∧
    (makeSharedThrows Heap.empty).load 0 =
      .ok ⟨1, 0, .makeShared, none, .defaulted, false⟩ ∧
    allocCount (allocateSharedThrows Heap.empty 5).log = 1 ∧
    totalFrees (allocateSharedThrows Heap.empty 5).log = 0 := by
  decide

/-- C18 (amended): when the payload's constructor throws in `makeShared` or
`allocateShared`, the exception reaches the caller with exactly one allocation
made by the call, of a block at a fresh address, and no deallocation: the block is
still allocated and nothing else changed. -/
theorem throwing_constructor_keeps_allocation (h : Heap) (a : Nat) :
    (makeSharedThrows h).log = h.log ++ [.allocate .defaulted h.blocks.length] ∧
    allocCount (makeSharedThrows h).log = allocCount h.log + 1 ∧
    totalFrees (makeSharedThrows h).log = totalFrees h.log ∧
    (∃ cb, (makeSharedThrows h).load h.blocks.length = .ok cb) ∧
    (makeSharedThrows h).objects = h.objects ∧
    (allocateSharedThrows h a).log = h.log ++ [.allocate .defaulted h.blocks.length] ∧
    allocCount (allocateSharedThrows h a).log = allocCount h.log + 1 ∧
    totalFrees (allocateSharedThrows h a).log = totalFrees h.log ∧
    (∃ cb, (allocateSharedThrows h a).load h.blocks.length = .ok cb) ∧
    (allocateSharedThrows h a).objects = h.objects := by
  refine ⟨rfl, ?_, ?_, ⟨_, load_place_new h _ _ rfl⟩, rfl, rfl, ?_, ?_,
    ⟨_, load_place_new h _ _ rfl⟩, rfl⟩
  · simp [makeSharedThrows, Heap.place, allocCount, List.countP_append, List.countP_cons]
  · simp [makeSharedThrows, Heap.place, totalFrees, List.countP_append, List.countP_cons]
  · simp [allocateSharedThrows, Heap.place, allocCount, List.countP_append, List.countP_cons]
  · simp [allocateSharedThrows, Heap.place, totalFrees, List.countP_append, List.countP_cons]

theorem releaseEach_nonlast (p0 : Nat) (b : Nat) (hs : List SharedPtr) :
    ∀ (h : Heap) (cb : ControlBlock), h.blocks[b]? = some cb → cb.freed = false →
      cb.shared_count < SIZE_MOD → hs.length < cb.shared_count →
      (∀ s ∈ hs, s.block_ = some b ∧ s.ptr_ ≠ none) →
      ∃ h1, releaseEach h hs = .ok h1 ∧ h1.objects = h.objects ∧ h1.log = h.log ∧
        h1.blocks[b]? = some { cb with shared_count := cb.shared_count - hs.length } ∧
        (∀ c, c ≠ b → h1.blocks[c]? = h.blocks[c]?) ∧
        destroyCount h1.log p0 = destroyCount h.log p0 := by
  induction hs with
  | nil =>
    intro h cb hb _ _ _ _
    exact ⟨h, rfl, rfl, rfl, by simpa using hb, fun _ _ => rfl, rfl⟩
  | cons s hs ih =>
    intro h cb hb hl hM hlen hall
    obtain ⟨hsb, hsp⟩ := hall s (List.mem_cons_self s hs)
    obtain ⟨sp, sb⟩ := s
    simp only at hsb hsp
    subst hsb
    obtain ⟨p, rfl⟩ := Option.ne_none_iff_exists'.mp hsp
    simp only [List.length_cons] at hlen
    have hdec : decr cb.shared_count = cb.shared_count - 1 := decr_pos (by omega) hM
    have hne : cb.shared_count - 1 ≠ 0 := by omega
    have hd : SharedPtr.destroy h ⟨some p, some b⟩ =
        .ok (h.store b { cb with shared_count := cb.shared_count - 1 }) := by
      simp [SharedPtr.destroy, SharedPtr.reset, load_ok hb hl, hdec, hne]
    obtain ⟨h1, hr, hobj, hlog, hblk, hoth, hdc⟩ :=
      ih (h.store b { cb with shared_count := cb.shared_count - 1 })
        { cb with shared_count := cb.shared_count - 1 }
        (store_blocks_self _ hb) hl (by simp only; omega) (by simp only; omega)
        (fun t ht => hall t (List.mem_cons_of_mem _ ht))
    refine ⟨h1, ?_, hobj, hlog, ?_, ?_, hdc⟩
    · simp only [releaseEach, hd, hr]
    · rw [hblk]
      simp only [List.length_cons, Option.some.injEq, ControlBlock.mk.injEq, and_true, true_and]
      omega
    · intro c hc
      rw [hoth c hc]
      exact store_blocks_ne (fun h => hc h.symm)

theorem use_count_of_block (h : Heap) (q : Ptr) (b : Nat) (cb : ControlBlock)
    (hb : h.blocks[b]? = some cb) (hl : cb.freed = false) :
    SharedPtr.use_count h ⟨q, some b⟩ = .ok cb.shared_count := by
  simp only [SharedPtr.use_count, Heap.loadPtr, load_ok hb hl]

/-- C12: aliasing construction (handle type without the `EnableSharedFromThis`
base) from a handle `⟨p, b⟩` whose block is allocated with `shared_count = c`:
the copy form returns `⟨q, b⟩` and makes `shared_count` `c + 1`; the move form
returns `⟨q, b⟩`, empties the source and leaves `shared_count` at `c`.  Afterwards,
releasing handles of that block in any number and order that leaves at least one
of them destroys nothing: the objects and the log of effects are unchanged, and
only `shared_count` goes down by the number of releases. -/
theorem alias_shares_block (h : Heap) (p q b : Nat) (cb : ControlBlock)
    (hb : h.blocks[b]? = some cb) (hl : cb.freed = false)
    (hmax : cb.shared_count + 1 < SIZE_MOD) :
    SharedPtr.alias false h ⟨some p, some b⟩ (some q) =
      .ok (h.store b { cb with shared_count := cb.shared_count + 1 }, ⟨some q, some b⟩) ∧
    SharedPtr.use_count (h.store b { cb with shared_count := cb.shared_count + 1 })
      ⟨some q, some b⟩ = .ok (cb.shared_count + 1) ∧
    SharedPtr.aliasMove false h ⟨some p, some b⟩ (some q) =
      .ok (h, ⟨some q, some b⟩, ⟨none, none⟩) ∧
    SharedPtr.use_count h ⟨some q, some b⟩ = .ok cb.shared_count ∧
    (∀ hs : List SharedPtr, (∀ s ∈ hs, s.block_ = some b ∧ s.ptr_ ≠ none) →
      hs.length ≤ cb.shared_count →
      ∃ h1, releaseEach (h.store b { cb with shared_count := cb.shared_count + 1 }) hs = .ok h1 ∧
        h1.objects = h.objects ∧ h1.log = h.log ∧
        destroyCount h1.log p = destroyCount h.log p ∧
        SharedPtr.use_count h1 ⟨some q, some b⟩ = .ok (cb.shared_count + 1 - hs.length)) ∧
    (∀ hs : List SharedPtr, (∀ s ∈ hs, s.block_ = some b ∧ s.ptr_ ≠ none) →
      hs.length < cb.shared_count →
      ∃ h1, releaseEach h hs = .ok h1 ∧
        h1.objects = h.objects ∧ h1.log = h.log ∧
        destroyCount h1.log p = destroyCount h.log p ∧
        SharedPtr.use_count h1 ⟨some q, some b⟩ = .ok (cb.shared_count - hs.length)) := by
  have hb1 := store_blocks_self { cb with shared_count := cb.shared_count + 1 } hb
  refine ⟨?_, use_count_of_block _ _ b _ hb1 hl, ?_, use_count_of_block h _ b cb hb hl, ?_, ?_⟩
  · simp only [SharedPtr.alias, Heap.wire, Bool.false_eq_true, if_false,
      incShared_ok h b cb hb hl, incr_lt hmax]
  · simp only [SharedPtr.aliasMove, Heap.wire, Bool.false_eq_true, if_false]
  · intro hs hall hlen
    obtain ⟨h1, hr, hobj, hlog, hblk, _, hdc⟩ := releaseEach_nonlast p b hs
      (h.store b { cb with shared_count := cb.shared_count + 1 })
      { cb with shared_count := cb.shared_count + 1 } hb1 hl hmax
      (by simp only; omega) hall
    exact ⟨h1, hr, hobj, hlog, hdc, use_count_of_block h1 _ b _ hblk hl⟩
  · intro hs hall hlen
    obtain ⟨h1, hr, hobj, hlog, hblk, _, hdc⟩ := releaseEach_nonlast p b hs h cb hb hl
      (by omega) hlen hall
    exact ⟨h1, hr, hobj, hlog, hdc, use_count_of_block h1 _ b _ hblk hl⟩

/-- Witness for `alias_shares_block`: a block with one owner of the object at 0,
aliased to the object at 1. -/
theorem alias_shares_block_witness :
    SharedPtr.alias false
        ⟨[⟨1, 0, .base, none, .defaulted, false⟩], [⟨true, none⟩, ⟨true, none⟩], [.newBlock 0]⟩
        ⟨some 0, some 0⟩ (some 1) =
      .ok (Heap.store
        ⟨[⟨1, 0, .base, none, .defaulted, false⟩], [⟨true, none⟩, ⟨true, none⟩], [.newBlock 0]⟩
        0 { (⟨1, 0, .base, none, .defaulted, false⟩ : ControlBlock) with shared_count := 1 + 1 },
        ⟨some 1, some 0⟩) :=
  (alias_shares_block
    ⟨[⟨1, 0, .base, none, .defaulted, false⟩], [⟨true, none⟩, ⟨true, none⟩], [.newBlock 0]⟩
    0 1 0 ⟨1, 0, .base, none, .defaulted, false⟩ rfl rfl (by decide)).1

theorem last_release_embedded (h : Heap) (p b : Nat) (cb : ControlBlock) (x : Ptr)
    (hb : h.blocks[b]? = some cb) (hl : cb.freed = false) (hs : cb.shared_count = 1)
    (hobj : h.objects[p]? = some ⟨true, some ⟨x, some b⟩⟩)
    (hval : cb.strategy = .makeShared → cb.value = some p)
    (hk : 2 ≤ cb.weak_count) (hK : cb.weak_count < SIZE_MOD) :
    ∃ h1 cb1, SharedPtr.destroy h ⟨some p, some b⟩ = .ok h1 ∧ h1.blocks[b]? = some cb1 ∧
      cb1.freed = false ∧ cb1.shared_count = 0 ∧ 1 ≤ cb1.weak_count ∧
      destroyCount h1.log p = destroyCount h.log p + 1 ∧
      freeCount h1.log b = freeCount h.log b := by
  have hlt : b < h.blocks.length := (List.getElem?_eq_some.mp hb).1
  have hset : ∀ X : ControlBlock, (h.blocks.set b X)[b]? = some X := by
    intro X
    simp [List.getElem?_set, hlt]
  have hset2 : ∀ X Y : ControlBlock, ((h.blocks.set b X).set b Y)[b]? = some Y := by
    intro X Y
    simp [List.getElem?_set, hlt]
  have hdec0 : decr cb.shared_count = 0 := by rw [hs]; decide
  have hdecw : decr cb.weak_count = cb.weak_count - 1 := decr_pos (by omega) hK
  have hnw : cb.weak_count - 1 ≠ 0 := by omega
  have hnw0 : cb.weak_count ≠ 0 := by omega
  cases hres : SharedPtr.destroy h ⟨some p, some b⟩ with
  | error e =>
    exfalso
    cases hst : cb.strategy <;>
      simp [SharedPtr.destroy, SharedPtr.reset, Heap.load, hb, hl, hdec0, Heap.delete_object,
        hst, Heap.deletePayload, Heap.destructor, Heap.emit, Heap.store, hobj, hset, hset2,
        hval, WeakPtr.destroy, WeakPtr.reset, hdecw, hnw, hnw0] at hres
  | ok h1 =>
    cases hst : cb.strategy <;>
      simp [SharedPtr.destroy, SharedPtr.reset, Heap.load, hb, hl, hdec0, Heap.delete_object,
        hst, Heap.deletePayload, Heap.destructor, Heap.emit, Heap.store, hobj, hset, hset2,
        hval, WeakPtr.destroy, WeakPtr.reset, hdecw, hnw, hnw0] at hres
    all_goals subst hres
    all_goals
      refine ⟨_, _, rfl, hset _, rfl, rfl, ?_, ?_, ?_⟩
      · simp only; omega
      · simp [destroyCount, List.countP_append, List.countP_cons]
      · simp [freeCount, List.countP_append, List.countP_cons]

theorem releaseEach_append (a c : List SharedPtr) :
    ∀ h : Heap, releaseEach h (a ++ c) =
      match releaseEach h a with
      | .error e => .error e
      | .ok h1 => releaseEach h1 c := by
  induction a with
  | nil => intro h; rfl
  | cons s a ih =>
    intro h
    simp only [List.cons_append, releaseEach]
    cases SharedPtr.destroy h s with
    | error e => rfl
    | ok h1 => exact ih h1

theorem last_release_plain (h : Heap) (p b : Nat) (cb : ControlBlock)
    (hb : h.blocks[b]? = some cb) (hl : cb.freed = false) (hs : cb.shared_count = 1)
    (hp : PayloadReady h cb p) (hk : 1 ≤ cb.weak_count) :
    ∃ h1 cb1, SharedPtr.destroy h ⟨some p, some b⟩ = .ok h1 ∧ h1.blocks[b]? = some cb1 ∧
      cb1.freed = false ∧ cb1.shared_count = 0 ∧ 1 ≤ cb1.weak_count ∧
      destroyCount h1.log p = destroyCount h.log p + 1 ∧
      freeCount h1.log b = freeCount h.log b := by
  have ht := tracks_start h b p cb hb hl (by omega) hp
  rw [hs] at ht
  obtain ⟨h1, hd, cb1, hb1, hs1, hw1, _, hfr, hfc, hdc, _, _⟩ :=
    owner_destroy_tracks h b p _ 1 _ _ _ _ ht (by decide) (by decide)
  have hnot : ¬ (1 - 1 = 0 ∧ cb.weak_count = 0) := by omega
  refine ⟨h1, cb1, hd, hb1, ?_, hs1, by omega, ?_, ?_⟩
  · cases hf : cb1.freed with
    | false => rfl
    | true => exact absurd (hfr.mp hf) hnot
  · simpa using hdc
  · have hw0 : cb.weak_count ≠ 0 := by omega
    simpa [hw0] using hfc

/-- C11: a block with `m ≥ 1` owning handles of the payload `p` and at least one
observing handle besides the payload's own internal one (if the payload has the
`EnableSharedFromThis` base, its internal handle observes this block): once all
`m` owning handles have been released, a destruction path has run on the payload
exactly once, the block is still allocated and was not given back, and
`expired()` is true on every observing handle of the block. -/
theorem expired_after_owners_released (h : Heap) (p b : Nat) (cb : ControlBlock)
    (emb : Option WeakPtr)
    (hb : h.blocks[b]? = some cb) (hl : cb.freed = false)
    (hm : 1 ≤ cb.shared_count) (hM : cb.shared_count < SIZE_MOD)
    (hK : cb.weak_count < SIZE_MOD)
    (hobj : h.objects[p]? = some ⟨true, emb⟩)
    (hval : cb.strategy = .makeShared → cb.value = some p)
    (hemb : emb = none ∨ ∃ x, emb = some ⟨x, some b⟩)
    (hk : (if emb = none then 1 else 2) ≤ cb.weak_count) :
    ∃ h1 cb1,
      releaseEach h (List.replicate cb.shared_count ⟨some p, some b⟩) = .ok h1 ∧
      h1.blocks[b]? = some cb1 ∧ cb1.freed = false ∧ cb1.shared_count = 0 ∧
      1 ≤ cb1.weak_count ∧
      destroyCount h1.log p = destroyCount h.log p + 1 ∧
      freeCount h1.log b = freeCount h.log b ∧
      ∀ q : Ptr, WeakPtr.expired h1 ⟨q, some b⟩ = .ok true := by
  obtain ⟨n, hn⟩ : ∃ n, cb.shared_count = n + 1 := ⟨cb.shared_count - 1, by omega⟩
  obtain ⟨h0, hr0, hobj0, hlog0, hblk0, _, _⟩ := releaseEach_nonlast p b
    (List.replicate n ⟨some p, some b⟩) h cb hb hl hM (by simp; omega)
    (by
      intro s hs
      rw [List.eq_of_mem_replicate hs]
      exact ⟨rfl, by simp⟩)
  have hone : cb.shared_count - (List.replicate n (⟨some p, some b⟩ : SharedPtr)).length = 1 := by
    simp; omega
  rw [hone] at hblk0
  have hlast : ∃ h1 cb1, SharedPtr.destroy h0 ⟨some p, some b⟩ = .ok h1 ∧
      h1.blocks[b]? = some cb1 ∧ cb1.freed = false ∧ cb1.shared_count = 0 ∧
      1 ≤ cb1.weak_count ∧ destroyCount h1.log p = destroyCount h0.log p + 1 ∧
      freeCount h1.log b = freeCount h0.log b := by
    rcases hemb with he | ⟨x, he⟩
    · subst he
      exact last_release_plain h0 p b _ hblk0 hl rfl ⟨by rw [hobj0]; exact hobj, hval⟩
        (by simpa using hk)
    · subst he
      exact last_release_embedded h0 p b _ x hblk0 hl rfl (by rw [hobj0]; exact hobj) hval
        (by simpa using hk) hK
  obtain ⟨h1, cb1, hd, hb1, hf1, hs1, hw1, hdc, hfc⟩ := hlast
  refine ⟨h1, cb1, ?_, hb1, hf1, hs1, hw1, by rw [hdc, hlog0], by rw [hfc, hlog0], ?_⟩
  · rw [hn, List.replicate_succ', releaseEach_append, hr0]
    simp only [releaseEach, hd]
  · intro q
    simp only [WeakPtr.expired, Heap.loadPtr, load_ok hb1 hf1, hs1]
    rfl

/-- Witness for `expired_after_owners_released`: two owners and one observer of a
default block. -/
theorem expired_after_owners_released_witness :
    ∃ h1 cb1,
      releaseEach
        ⟨[⟨2, 1, .base, none, .defaulted, false⟩], [⟨true, none⟩], [.newBlock 0]⟩
        (List.replicate (⟨2, 1, .base, none, .defaulted, false⟩ : ControlBlock).shared_count
          ⟨some 0, some 0⟩) = .ok h1 ∧
      h1.blocks[0]? = some cb1 ∧ cb1.freed = false ∧ cb1.shared_count = 0 ∧
      1 ≤ cb1.weak_count ∧
      destroyCount h1.log 0 = destroyCount [Event.newBlock 0] 0 + 1 ∧
      freeCount h1.log 0 = freeCount [Event.newBlock 0] 0 ∧
      ∀ q : Ptr, WeakPtr.expired h1 ⟨q, some 0⟩ = .ok true :=
  expired_after_owners_released
    ⟨[⟨2, 1, .base, none, .defaulted, false⟩], [⟨true, none⟩], [.newBlock 0]⟩
    0 0 ⟨2, 1, .base, none, .defaulted, false⟩ none rfl rfl (by decide) (by decide) (by decide)
    rfl (by decide) (Or.inl rfl) (by decide)

theorem ofMakeShared_wired (h : Heap) (al : Alloc) :
    ∃ h1, SharedPtr.ofMakeShared true h al =
        .ok (h1, ⟨some h.objects.length, some h.blocks.length⟩) ∧
      h1.objects = h.objects ++
        [⟨true, some ⟨some h.objects.length, some h.blocks.length⟩⟩] := by
  have hw := wire_fresh
    { blocks := h.blocks ++ [BaseControlBlock .makeShared (some h.objects.length) al],
      objects := h.objects ++ [⟨true, some ⟨none, none⟩⟩],
      log := h.log ++ [.allocate .defaulted h.blocks.length] }
    h.objects.length h.blocks.length
    (BaseControlBlock .makeShared (some h.objects.length) al)
    (by simp) (by simp) rfl
  simp only [SharedPtr.ofMakeShared, Heap.place, if_true, WeakPtr.empty]
  rw [hw]
  exact ⟨_, rfl, by simp⟩

theorem wrap_wired (h : Heap) (p : Nat) (cb0 : ControlBlock) (e : Event)
    (h0 : cb0.freed = false)
    (hobj : h.objects[p]? = some ⟨true, some ⟨none, none⟩⟩) :
    ∃ h1, (h.place cb0 e).wire true ⟨some p, some h.blocks.length⟩ = .ok h1 ∧
      h1.objects = h.objects.set p ⟨true, some ⟨some p, some h.blocks.length⟩⟩ :=
  ⟨_, wire_fresh (h.place cb0 e) p h.blocks.length cb0 hobj (by simp [Heap.place]) h0, rfl⟩

/-- The constructors assign the member `weakPtr` of the object at the new handle's
payload pointer: for a live object `p` whose member `weakPtr` is still
default-constructed, every construction path of an owning handle with payload
pointer `p` succeeds and leaves that member referring to the new handle's control
block and to `p`, with every other object unchanged (for the aliasing constructors
`p` is the alias pointer).  The construction helpers do the same for the value
they embed. -/
theorem weakPtr_member_assigned (h : Heap) (p a b : Nat) (o : SharedPtr) (cb : ControlBlock)
    (hobj : h.objects[p]? = some ⟨true, some ⟨none, none⟩⟩)
    (hob : o.block_ = some b) (hb : h.blocks[b]? = some cb) (hl : cb.freed = false) :
    (∃ h1, SharedPtr.ofRaw true h (some p) = .ok (h1, ⟨some p, some h.blocks.length⟩) ∧
      h1.objects = h.objects.set p ⟨true, some ⟨some p, some h.blocks.length⟩⟩) ∧
    (∃ h1, SharedPtr.ofDeleter true h (some p) = .ok (h1, ⟨some p, some h.blocks.length⟩) ∧
      h1.objects = h.objects.set p ⟨true, some ⟨some p, some h.blocks.length⟩⟩) ∧
    (∃ h1, SharedPtr.ofDeleterAlloc true h (some p) a =
        .ok (h1, ⟨some p, some h.blocks.length⟩) ∧
      h1.objects = h.objects.set p ⟨true, some ⟨some p, some h.blocks.length⟩⟩) ∧
    (∃ h1, makeShared true h = .ok (h1, ⟨some h.objects.length, some h.blocks.length⟩) ∧
      h1.objects = h.objects ++
        [⟨true, some ⟨some h.objects.length, some h.blocks.length⟩⟩]) ∧
    (∃ h1, allocateShared true h a =
        .ok (h1, ⟨some h.objects.length, some h.blocks.length⟩) ∧
      h1.objects = h.objects ++
        [⟨true, some ⟨some h.objects.length, some h.blocks.length⟩⟩]) ∧
    (∃ h1, SharedPtr.alias true h o (some p) = .ok (h1, ⟨some p, some b⟩) ∧
      h1.objects = h.objects.set p ⟨true, some ⟨some p, some b⟩⟩) ∧
    (∃ h1, SharedPtr.aliasMove true h o (some p) = .ok (h1, ⟨some p, some b⟩, ⟨none, none⟩) ∧
      h1.objects = h.objects.set p ⟨true, some ⟨some p, some b⟩⟩) := by
  have hwire := wire_fresh h p b cb hobj hb hl
  have hlt : b < h.blocks.length := (List.getElem?_eq_some.mp hb).1
  refine ⟨?_, ?_, ?_, ofMakeShared_wired h .defaulted, ofMakeShared_wired h (.given a), ?_, ?_⟩
  · obtain ⟨h1, hw, ho⟩ := wrap_wired h p (BaseControlBlock .base none .defaulted)
      (.newBlock h.blocks.length) rfl hobj
    simp only [SharedPtr.ofRaw, hw]
    exact ⟨h1, rfl, ho⟩
  · obtain ⟨h1, hw, ho⟩ := wrap_wired h p (BaseControlBlock .regular none .defaulted)
      (.allocate .defaulted h.blocks.length) rfl hobj
    simp only [SharedPtr.ofDeleter, hw]
    exact ⟨h1, rfl, ho⟩
  · obtain ⟨h1, hw, ho⟩ := wrap_wired h p (BaseControlBlock .regular none (.given a))
      (.allocate .defaulted h.blocks.length) rfl hobj
    simp only [SharedPtr.ofDeleterAlloc, hw]
    exact ⟨h1, rfl, ho⟩
  · obtain ⟨op, ob⟩ := o
    simp only at hob
    subst hob
    cases op with
    | none =>
      simp only [SharedPtr.alias, hwire]
      exact ⟨_, rfl, rfl⟩
    | some q =>
      have hinc := incShared_ok
        { blocks := h.blocks.set b { cb with weak_count := incr cb.weak_count },
          objects := h.objects.set p ⟨true, some ⟨some p, some b⟩⟩, log := h.log }
        b { cb with weak_count := incr cb.weak_count }
        (by simp [List.getElem?_set, hlt]) hl
      simp only [SharedPtr.alias, hwire, hinc]
      exact ⟨_, rfl, rfl⟩
  · simp only [SharedPtr.aliasMove, hob, hwire]
    exact ⟨_, rfl, rfl⟩

/-- C16 (code defect): the handle of the self-awareness capability is the member
`weakPtr_` of `EnableSharedFromThis<T>`, and no construction path assigns it: every
constructor assigns `ptr_->weakPtr`, a member of another name that the payload
type has to declare.  After each construction path (raw pointer, deleter,
deleter and allocator, both construction helpers, aliasing in copy and move form)
the member `weakPtr` holds the new handle's pointer and block and `weakPtr_` is
still default-constructed, as it is in every heap.  The aliasing constructors
assign the member of the object at the alias pointer (object 1) and store the
alias pointer; they do not touch the original owner object (object 0), whose
member `weakPtr` stays as the wrapping constructor left it. -/
theorem capability_handle_left_unset :
    (∃ w, run World.empty [.newPayload true, .spRaw true (some 0)] = .ok w ∧
      w.owners = [some ⟨some 0, some 0⟩] ∧
      w.heap.objects = [⟨true, some ⟨some 0, some 0⟩⟩] ∧
      w.heap.weakPtr_ 0 = some ⟨none, none⟩) ∧
    (∃ w, run World.empty [.newPayload true, .spDeleter true (some 0)] = .ok w ∧
      w.owners = [some ⟨some 0, some 0⟩] ∧
      w.heap.objects = [⟨true, some ⟨some 0, some 0⟩⟩] ∧
      w.heap.weakPtr_ 0 = some ⟨none, none⟩) ∧
    (∃ w, run World.empty [.newPayload true, .spDeleterAlloc true (some 0) 7] = .ok w ∧
      w.owners = [some ⟨some 0, some 0⟩] ∧
      w.heap.objects = [⟨true, some ⟨some 0, some 0⟩⟩] ∧
      w.heap.weakPtr_ 0 = some ⟨none, none⟩) ∧
    (∃ w, run World.empty [.spMakeShared true] = .ok w ∧
      w.owners = [some ⟨some 0, some 0⟩] ∧
      w.heap.objects = [⟨true, some ⟨some 0, some 0⟩⟩] ∧
      w.heap.weakPtr_ 0 = some ⟨none, none⟩) ∧
    (∃ w, run World.empty [.spAllocateShared true 7] = .ok w ∧
      w.owners = [some ⟨some 0, some 0⟩] ∧
      w.heap.objects = [⟨true, some ⟨some 0, some 0⟩⟩] ∧
      w.heap.weakPtr_ 0 = some ⟨none, none⟩) ∧
    (∃ w, run World.empty [.newPayload true, .newPayload true, .spRaw true (some 0),
        .spAlias true 0 (some 1)] = .ok w ∧
      w.owners = [some ⟨some 0, some 0⟩, some ⟨some 1, some 0⟩] ∧
      w.heap.objects = [⟨true, some ⟨some 0, some 0⟩⟩, ⟨true, some ⟨some 1, some 0⟩⟩] ∧
      w.heap.weakPtr_ 0 = some ⟨none, none⟩ ∧ w.heap.weakPtr_ 1 = some ⟨none, none⟩) ∧
    (∃ w, run World.empty [.newPayload true, .newPayload true, .spRaw false (some 0),
        .spAlias true 0 (some 1)] = .ok w ∧
      w.owners = [some ⟨some 0, some 0⟩, some ⟨some 1, some 0⟩] ∧
      w.heap.objects = [⟨true, some ⟨none, none⟩⟩, ⟨true, some ⟨some 1, some 0⟩⟩] ∧
      w.heap.weakPtr_ 0 = some ⟨none, none⟩ ∧ w.heap.weakPtr_ 1 = some ⟨none, none⟩) ∧
    (∃ w, run World.empty [.newPayload true, .newPayload true, .spRaw true (some 0),
        .spAliasMove true 0 (some 1)] = .ok w ∧
      w.owners = [some ⟨none, none⟩, some ⟨some 1, some 0⟩] ∧
      w.heap.objects = [⟨true, some ⟨some 0, some 0⟩⟩, ⟨true, some ⟨some 1, some 0⟩⟩] ∧
      w.heap.weakPtr_ 0 = some ⟨none, none⟩ ∧ w.heap.weakPtr_ 1 = some ⟨none, none⟩) ∧
    ∀ (h : Heap) (p : Nat), h.weakPtr_ p = none ∨ h.weakPtr_ p = some ⟨none, none⟩ := by
  refine ⟨⟨_, rfl, by decide, by decide, by decide⟩, ⟨_, rfl, by decide, by decide, by decide⟩,
    ⟨_, rfl, by decide, by decide, by decide⟩, ⟨_, rfl, by decide, by decide, by decide⟩,
    ⟨_, rfl, by decide, by decide, by decide⟩,
    ⟨_, rfl, by decide, by decide, by decide, by decide⟩,
    ⟨_, rfl, by decide, by decide, by decide, by decide⟩,
    ⟨_, rfl, by decide, by decide, by decide, by decide⟩, ?_⟩
  intro h p
  cases ho : h.objects[p]? with
  | none => exact Or.inl (by simp [Heap.weakPtr_, ho])
  | some o =>
    cases hw : o.weakPtr with
    | none => exact Or.inl (by simp [Heap.weakPtr_, ho, hw])
    | some w => exact Or.inr (by simp [Heap.weakPtr_, ho, hw, WeakPtr.empty])

/-! ### Release, move, swap and re-seating of owning handles -/

theorem reset_nonlast (h : Heap) (p b : Nat) (cb : ControlBlock)
    (hb : h.blocks[b]? = some cb) (hl : cb.freed = false)
    (hc : 2 ≤ cb.shared_count) (hM : cb.shared_count < SIZE_MOD) :
    SharedPtr.reset h ⟨some p, some b⟩ =
      .ok (h.store b { cb with shared_count := cb.shared_count - 1 }, ⟨none, none⟩) := by
  have hdec : decr cb.shared_count = cb.shared_count - 1 := decr_pos (by omega) hM
  have hne : cb.shared_count - 1 ≠ 0 := by omega
  simp [SharedPtr.reset, load_ok hb hl, hdec, hne]

theorem reset_last (h : Heap) (p b : Nat) (cb : ControlBlock) (emb : Option WeakPtr)
    (hb : h.blocks[b]? = some cb) (hl : cb.freed = false) (hs : cb.shared_count = 1)
    (hK : cb.weak_count < SIZE_MOD)
    (hobj : h.objects[p]? = some ⟨true, emb⟩)
    (hval : cb.strategy = .makeShared → cb.value = some p)
    (hemb : emb = none ∨ ∃ x, emb = some ⟨x, some b⟩)
    (hk : emb ≠ none → 2 ≤ cb.weak_count) :
    SharedPtr.reset h ⟨some p, some b⟩ = .ok
      ({ blocks := h.blocks.set b
           { cb with
             shared_count := 0,
             weak_count := if emb = none ∨ cb.strategy = .regular then cb.weak_count
                           else cb.weak_count - 1,
             freed := decide (cb.weak_count = 0) },
         objects := if cb.strategy = .regular then h.objects else h.objects.set p ⟨false, emb⟩,
         log := h.log ++ destructionPath cb.strategy b p ::
                  (if cb.weak_count = 0 then [deallocationPath cb.strategy b] else []) },
       ⟨none, none⟩) := by
  have hlt : b < h.blocks.length := (List.getElem?_eq_some.mp hb).1
  have hset : ∀ X : ControlBlock, (h.blocks.set b X)[b]? = some X := by
    intro X
    simp [List.getElem?_set, hlt]
  have hdec0 : decr cb.shared_count = 0 := by rw [hs]; decide
  obtain ⟨s, k, st, v, al, fr⟩ := cb
  simp only at hl hs hK hval hk hdec0
  subst hl hs
  rcases hemb with rfl | ⟨x, rfl⟩
  · by_cases hk0 : k = 0
    · subst hk0
      cases st
      all_goals simp [SharedPtr.reset, Heap.load, hb, hdec0, Heap.delete_object,
          Heap.deletePayload, Heap.destructor, Heap.emit, Heap.store, hobj, hset,
          Heap.freeBlock, Heap.deallocate, destructionPath, deallocationPath]
      all_goals simp_all
    · cases st
      all_goals simp [SharedPtr.reset, Heap.load, hb, hdec0, Heap.delete_object,
          Heap.deletePayload, Heap.destructor, Heap.emit, Heap.store, hobj, hset,
          Heap.freeBlock, Heap.deallocate, destructionPath, deallocationPath, hk0]
      all_goals simp_all
  · have hk2 : 2 ≤ k := hk (by simp)
    have hdecw : decr k = k - 1 := decr_pos (by omega) hK
    have hnw : k - 1 ≠ 0 := by omega
    have hnw0 : k ≠ 0 := by omega
    cases st
    all_goals simp [SharedPtr.reset, Heap.load, hb, hdec0, Heap.delete_object,
        Heap.deletePayload, Heap.destructor, Heap.emit, Heap.store, hobj, hset,
        Heap.freeBlock, Heap.deallocate, destructionPath, deallocationPath,
        WeakPtr.destroy, WeakPtr.reset, hdecw, hnw, hnw0]
    all_goals simp_all

/-- C21 as stated fails for a payload that carries the member `weakPtr` the
constructors assign: in `SharedPtr<T> a(new T); WeakPtr<T> w(a); a.reset();` the
block has `shared_count == 1`, `weak_count == 2` (the payload's member handle and
`w`) before the reset, and `shared_count == 0`, `weak_count == 1` after it:
destroying the payload destroys its member handle. -/
theorem reset_last_self_aware_drops_weak_count :
    ∃ w0 w1, run World.empty [.newPayload true, .spRaw true (some 0), .wpOfShared 0] = .ok w0 ∧
      w0.heap.blocks = [⟨1, 2, .base, none, .defaulted, false⟩] ∧
      w0.owners = [some ⟨some 0, some 0⟩] ∧
      step w0 (.spReset 0) = .ok w1 ∧
      w1.heap.blocks = [⟨0, 1, .base, none, .defaulted, false⟩] ∧
      w1.owners = [some ⟨none, none⟩] ∧
      w1.observers = w0.observers := by
  refine ⟨_, _, rfl, by decide, by decide, rfl, by decide, by decide, by decide⟩

/-- C21 (amended): for an owning handle `{p, b}` on an allocated block with
`shared_count = c ≥ 1` (when `c = 1`: `p` is a live object, the block's own value
for an embedded block, and a member handle `weakPtr` of `p`, if any, observes this
same block `b` next to at least one other observer), `reset()` and the destructor
succeed with the same heap; the block's `shared_count` is `c - 1`; in a program
only the variable of the handle changes, to the empty handle.  Unless the release
is the last one of a block with a stored deleter: `weak_count` is unchanged, except
that it is one less when the release is the last one and destroys a payload
carrying a member handle; no other block changes and no payload's member handle
changes.  In the last release of a block with a stored deleter the deleter is
called on `p`, and nothing is stated about `weak_count`, the payload or other
blocks afterwards: that is the deleter's doing. -/
theorem reset_releases_one_share (h : Heap) (p b : Nat) (cb : ControlBlock)
    (emb : Option WeakPtr)
    (hb : h.blocks[b]? = some cb) (hl : cb.freed = false)
    (hc : 1 ≤ cb.shared_count) (hM : cb.shared_count < SIZE_MOD)
    (hK : cb.weak_count < SIZE_MOD)
    (hlast : cb.shared_count = 1 →
      h.objects[p]? = some ⟨true, emb⟩ ∧ (cb.strategy = .makeShared → cb.value = some p) ∧
      (emb = none ∨ ∃ x, emb = some ⟨x, some b⟩) ∧ (emb ≠ none → 2 ≤ cb.weak_count)) :
    ∃ h1 cb1,
      SharedPtr.reset h ⟨some p, some b⟩ = .ok (h1, ⟨none, none⟩) ∧
      SharedPtr.destroy h ⟨some p, some b⟩ = .ok h1 ∧
      h1.blocks[b]? = some cb1 ∧
      cb1.shared_count = cb.shared_count - 1 ∧
      (∀ (owners : List (Option SharedPtr)) (observers : List (Option WeakPtr)) (i : Nat),
        owners[i]? = some (some ⟨some p, some b⟩) →
        step ⟨h, owners, observers⟩ (.spReset i) =
          .ok ⟨h1, owners.set i (some ⟨none, none⟩), observers⟩ ∧
        step ⟨h, owners, observers⟩ (.spDestroy i) =
          .ok ⟨h1, owners.set i none, observers⟩) ∧
      (¬ (cb.shared_count = 1 ∧ cb.strategy = .regular) →
        cb1.weak_count =
          (if cb.shared_count = 1 ∧ emb ≠ none then cb.weak_count - 1 else cb.weak_count) ∧
        (∀ c, c ≠ b → h1.blocks[c]? = h.blocks[c]?) ∧
        (∀ (q : Nat) (o : Object), h.objects[q]? = some o →
          ∃ o1, h1.objects[q]? = some o1 ∧ o1.weakPtr = o.weakPtr)) ∧
      (cb.shared_count = 1 → cb.strategy = .regular →
        ∃ evs, h1.log = h.log ++ .deleter b (some p) :: evs) := by
  have hlt : b < h.blocks.length := (List.getElem?_eq_some.mp hb).1
  have hset : ∀ X : ControlBlock, (h.blocks.set b X)[b]? = some X := by
    intro X
    simp [List.getElem?_set, hlt]
  have hother : ∀ (X : ControlBlock) (c : Nat), c ≠ b → (h.blocks.set b X)[c]? = h.blocks[c]? := by
    intro X c hcb
    simp [List.getElem?_set, Ne.symm hcb]
  have hprog : ∀ h1 : Heap, SharedPtr.reset h ⟨some p, some b⟩ = .ok (h1, ⟨none, none⟩) →
      SharedPtr.destroy h ⟨some p, some b⟩ = .ok h1 ∧
      ∀ (owners : List (Option SharedPtr)) (observers : List (Option WeakPtr)) (i : Nat),
        owners[i]? = some (some ⟨some p, some b⟩) →
        step ⟨h, owners, observers⟩ (.spReset i) =
          .ok ⟨h1, owners.set i (some ⟨none, none⟩), observers⟩ ∧
        step ⟨h, owners, observers⟩ (.spDestroy i) =
          .ok ⟨h1, owners.set i none, observers⟩ := by
    intro h1 hr
    refine ⟨by simp [SharedPtr.destroy, hr], ?_⟩
    intro owners observers i hi
    simp [step, World.owner, hi, hr, SharedPtr.destroy, World.updOwner, World.withHeap,
      World.setOwner]
  by_cases h1c : cb.shared_count = 1
  · obtain ⟨hobj, hval, hemb, hk⟩ := hlast h1c
    have hr := reset_last h p b cb emb hb hl h1c hK hobj hval hemb hk
    refine ⟨_, _, hr, (hprog _ hr).1, hset _, ?_, (hprog _ hr).2, ?_, ?_⟩
    · simp [h1c]
    · intro hnr
      have hst : cb.strategy ≠ .regular := fun e => hnr ⟨h1c, e⟩
      refine ⟨?_, hother _, ?_⟩
      · simp only [h1c, true_and]
        by_cases he : emb = none
        · simp [he]
        · simp [he, hst]
      · intro q o hq
        by_cases hqp : q = p
        · subst hqp
          have ho : o = ⟨true, emb⟩ := by
            rw [hobj] at hq
            exact (Option.some.inj hq).symm
          subst ho
          have hlp : q < h.objects.length := (List.getElem?_eq_some.mp hobj).1
          exact ⟨⟨false, emb⟩, by simp [hst, List.getElem?_set, hlp], rfl⟩
        · exact ⟨o, by simp [hst, List.getElem?_set, Ne.symm hqp, hq], rfl⟩
    · intro _ hst
      exact ⟨if cb.weak_count = 0 then [deallocationPath cb.strategy b] else [],
        by simp [hst, destructionPath]⟩
  · have hr := reset_nonlast h p b cb hb hl (by omega) hM
    refine ⟨_, _, hr, (hprog _ hr).1, hset _, rfl, (hprog _ hr).2, ?_, ?_⟩
    · intro _
      refine ⟨by simp [h1c], hother _, ?_⟩
      intro q o hq
      exact ⟨o, hq, rfl⟩
    · intro hone
      exact absurd hone h1c

theorem reset_releases_one_share_witness :
    ∃ h1 cb1,
      SharedPtr.reset
        ⟨[⟨1, 2, .base, none, .defaulted, false⟩], [⟨true, some ⟨some 0, some 0⟩⟩], [.newBlock 0]⟩
        ⟨some 0, some 0⟩ = .ok (h1, ⟨none, none⟩) ∧
      h1.blocks[0]? = some cb1 ∧ cb1.shared_count = 1 - 1 ∧ cb1.weak_count = 2 - 1 := by
  obtain ⟨h1, cb1, hr, _, hb1, hs1, _, hfr, _⟩ :=
    reset_releases_one_share
      ⟨[⟨1, 2, .base, none, .defaulted, false⟩], [⟨true, some ⟨some 0, some 0⟩⟩], [.newBlock 0]⟩
      0 0 ⟨1, 2, .base, none, .defaulted, false⟩ (some ⟨some 0, some 0⟩) rfl rfl (by decide)
      (by decide) (by decide)
      (fun _ => ⟨rfl, by decide, Or.inr ⟨some 0, rfl⟩, fun _ => by decide⟩)
  exact ⟨h1, cb1, hr, hb1, hs1, by simpa using (hfr (by decide)).1⟩

/-- C22: in the release that brings `shared_count` from 1 to 0 (payload `p` a live
object, the block's own value for an embedded block; an embedded observing handle
of `p`, if any, observes this block next to at least one other observer) the
release succeeds and appends to the log exactly one destruction event, followed
by exactly one deallocation event when `weak_count` is 0 and by nothing when it is
positive.  The destruction event is ordinary destruction (`delete ptr_`) exactly
when the block is a `BaseControlBlock`, the class whose `delete_object` returns
false; otherwise it is the in-place destructor or the stored deleter.  The
deallocation event is ordinary deallocation (`delete block_`) exactly when the
block is a `BaseControlBlock`, the class whose `deallocate` returns false;
otherwise it is the hook's own deallocation. -/
theorem last_release_runs_one_path (h : Heap) (p b : Nat) (cb : ControlBlock)
    (emb : Option WeakPtr)
    (hb : h.blocks[b]? = some cb) (hl : cb.freed = false) (hs : cb.shared_count = 1)
    (hK : cb.weak_count < SIZE_MOD)
    (hobj : h.objects[p]? = some ⟨true, emb⟩)
    (hval : cb.strategy = .makeShared → cb.value = some p)
    (hemb : emb = none ∨ ∃ x, emb = some ⟨x, some b⟩)
    (hk : emb ≠ none → 2 ≤ cb.weak_count) :
    ∃ h1, SharedPtr.reset h ⟨some p, some b⟩ = .ok (h1, ⟨none, none⟩) ∧
      SharedPtr.destroy h ⟨some p, some b⟩ = .ok h1 ∧
      h1.log = h.log ++ destructionPath cb.strategy b p ::
        (if cb.weak_count = 0 then [deallocationPath cb.strategy b] else []) ∧
      (destructionPath cb.strategy b p = .deletePayload p ↔ cb.strategy = .base) ∧
      (deallocationPath cb.strategy b = .deleteBlock b ↔ cb.strategy = .base) ∧
      (∀ (hx h2 : Heap) (ptr : Ptr) (handled : Bool),
        hx.delete_object b cb ptr = .ok (h2, handled) →
          (handled = false ↔ cb.strategy = .base)) ∧
      (∀ hx : Heap, (hx.deallocate b cb).2 = false ↔ cb.strategy = .base) ∧
      destroyCount h1.log p = destroyCount h.log p + 1 ∧
      totalFrees h1.log = totalFrees h.log + (if cb.weak_count = 0 then 1 else 0) ∧
      freeCount h1.log b = freeCount h.log b + (if cb.weak_count = 0 then 1 else 0) := by
  have hr := reset_last h p b cb emb hb hl hs hK hobj hval hemb hk
  refine ⟨_, hr, by simp [SharedPtr.destroy, hr], rfl, ?_, ?_, ?_, ?_, ?_, ?_, ?_⟩
  · cases hst : cb.strategy <;> simp [destructionPath]
  · cases hst : cb.strategy <;> simp [deallocationPath]
  · intro hx h2 ptr handled hd
    cases hst : cb.strategy
    · simp [Heap.delete_object, hst] at hd
      simp [hd.2]
    · simp only [Heap.delete_object, hst] at hd
      cases hv : cb.value with
      | none => simp [hv] at hd
      | some v =>
        simp only [hv] at hd
        cases hde : (hx.emit (.destroyValue b v)).destructor v with
        | error e => simp [hde] at hd
        | ok h3 =>
          simp [hde] at hd
          simp [hd.2]
    · simp [Heap.delete_object, hst] at hd
      simp [hd.2]
  · intro hx
    cases hst : cb.strategy <;> simp [Heap.deallocate, hst]
  · cases hst : cb.strategy <;> by_cases hk0 : cb.weak_count = 0 <;>
      simp [destroyCount, destructionPath, deallocationPath, hk0, List.countP_append,
        List.countP_cons]
  · cases hst : cb.strategy <;> by_cases hk0 : cb.weak_count = 0 <;>
      simp [totalFrees, destructionPath, deallocationPath, hk0, List.countP_append,
        List.countP_cons]
  · cases hst : cb.strategy <;> by_cases hk0 : cb.weak_count = 0 <;>
      simp [freeCount, destructionPath, deallocationPath, hk0, List.countP_append,
        List.countP_cons]

theorem last_release_runs_one_path_witness :
    ∃ h1, SharedPtr.reset
        ⟨[⟨1, 0, .regular, none, .defaulted, false⟩], [⟨true, none⟩], [.allocate .defaulted 0]⟩
        ⟨some 0, some 0⟩ = .ok (h1, ⟨none, none⟩) ∧
      h1.log = [.allocate .defaulted 0, .deleter 0 (some 0), .deallocate .defaulted 0] := by
  obtain ⟨h1, hr, _, hlog, _⟩ :=
    last_release_runs_one_path
      ⟨[⟨1, 0, .regular, none, .defaulted, false⟩], [⟨true, none⟩], [.allocate .defaulted 0]⟩
      0 0 ⟨1, 0, .regular, none, .defaulted, false⟩ none rfl rfl rfl (by decide) rfl
      (by decide) (Or.inl rfl) (fun hne => absurd rfl hne)
  exact ⟨h1, hr, by simpa [destructionPath, deallocationPath] using hlog⟩

/-- C23: the two hooks of each control-block class.  `BaseControlBlock`:
`delete_object` and `deallocate` return false and leave the heap as it is.
`ControlBlockRegular`: `delete_object(ptr)` calls the stored deleter once, on
`ptr`, and returns true.  `ControlBlockMakeShared` (its value `v` a live object):
`delete_object(ptr)` destroys `v` in place, whatever `ptr` is, and returns true.
For the two derived classes `deallocate` gives back the block itself and returns
true. -/
theorem hooks_behave (h : Heap) (b v : Nat) (cb : ControlBlock) (ptr : Ptr)
    (hv : cb.strategy = .makeShared → cb.value = some v ∧ h.objects[v]? = some ⟨true, none⟩) :
    (cb.strategy = .base →
      h.delete_object b cb ptr = .ok (h, false) ∧ h.deallocate b cb = (h, false)) ∧
    (cb.strategy = .regular →
      h.delete_object b cb ptr = .ok (⟨h.blocks, h.objects, h.log ++ [.deleter b ptr]⟩, true)) ∧
    (cb.strategy = .makeShared →
      h.delete_object b cb ptr =
        .ok (⟨h.blocks, h.objects.set v ⟨false, none⟩, h.log ++ [.destroyValue b v]⟩, true)) ∧
    (cb.strategy ≠ .base →
      h.deallocate b cb =
        (⟨h.blocks.set b { cb with freed := true }, h.objects,
          h.log ++ [.deallocate .defaulted b]⟩, true)) := by
  refine ⟨?_, ?_, ?_, ?_⟩
  · intro hst
    simp [Heap.delete_object, Heap.deallocate, hst]
  · intro hst
    simp [Heap.delete_object, hst, Heap.emit]
  · intro hst
    obtain ⟨hval, hobj⟩ := hv hst
    simp [Heap.delete_object, hst, hval, Heap.emit, Heap.destructor, hobj]
  · intro hst
    cases hs : cb.strategy
    · exact absurd hs hst
    · simp [Heap.deallocate, hs, Heap.store, Heap.emit]
    · simp [Heap.deallocate, hs, Heap.store, Heap.emit]

theorem hooks_behave_witness :
    Heap.delete_object ⟨[⟨1, 0, .makeShared, some 0, .defaulted, false⟩], [⟨true, none⟩], []⟩ 0
        ⟨1, 0, .makeShared, some 0, .defaulted, false⟩ (some 7) =
      .ok (⟨[⟨1, 0, .makeShared, some 0, .defaulted, false⟩],
            ([⟨true, none⟩] : List Object).set 0 ⟨false, none⟩,
            [] ++ [.destroyValue 0 0]⟩, true) :=
  (hooks_behave ⟨[⟨1, 0, .makeShared, some 0, .defaulted, false⟩], [⟨true, none⟩], []⟩ 0 0
    ⟨1, 0, .makeShared, some 0, .defaulted, false⟩ (some 7) (fun _ => ⟨rfl, rfl⟩)).2.2.1 rfl

/-- C24: move construction gives the new handle the source's `ptr_` and `block_`
and empties the source without touching the heap.  Move assignment from another
handle `src` to an empty target does the same; to a target `{p, b}` holding a
share of an allocated block (conditions of `reset()`), it first releases that one
share exactly as `reset()` does, changing no other block, and then transfers
`src`, so that the counters of the block `src` brings are as that release left
them.  Destroying the moved-from source changes nothing. -/
theorem move_transfers (h : Heap) (p b : Nat) (cb : ControlBlock) (emb : Option WeakPtr)
    (src : SharedPtr)
    (hb : h.blocks[b]? = some cb) (hl : cb.freed = false)
    (hc : 1 ≤ cb.shared_count) (hM : cb.shared_count < SIZE_MOD)
    (hK : cb.weak_count < SIZE_MOD)
    (hlast : cb.shared_count = 1 →
      h.objects[p]? = some ⟨true, emb⟩ ∧ (cb.strategy = .makeShared → cb.value = some p) ∧
      (emb = none ∨ ∃ x, emb = some ⟨x, some b⟩) ∧ (emb ≠ none → 2 ≤ cb.weak_count)) :
    SharedPtr.move src = (src, ⟨none, none⟩) ∧
    (∀ (owners : List (Option SharedPtr)) (observers : List (Option WeakPtr)) (i : Nat),
      owners[i]? = some (some src) →
      step ⟨h, owners, observers⟩ (.spMove i) =
        .ok ⟨h, owners.set i (some ⟨none, none⟩) ++ [some src], observers⟩) ∧
    SharedPtr.moveAssign h ⟨none, none⟩ src false = .ok (h, src, ⟨none, none⟩) ∧
    (∃ h1 cb1,
      SharedPtr.moveAssign h ⟨some p, some b⟩ src false = .ok (h1, src, ⟨none, none⟩) ∧
      SharedPtr.reset h ⟨some p, some b⟩ = .ok (h1, ⟨none, none⟩) ∧
      h1.blocks[b]? = some cb1 ∧ cb1.shared_count = cb.shared_count - 1 ∧
      (∀ c, c ≠ b → h1.blocks[c]? = h.blocks[c]?) ∧
      SharedPtr.destroy h1 ⟨none, none⟩ = .ok h1) ∧
    SharedPtr.destroy h ⟨none, none⟩ = .ok h := by
  have hlt : b < h.blocks.length := (List.getElem?_eq_some.mp hb).1
  have hset : ∀ X : ControlBlock, (h.blocks.set b X)[b]? = some X := by
    intro X
    simp [List.getElem?_set, hlt]
  have hother : ∀ (X : ControlBlock) (c : Nat), c ≠ b → (h.blocks.set b X)[c]? = h.blocks[c]? := by
    intro X c hcb
    simp [List.getElem?_set, Ne.symm hcb]
  refine ⟨rfl, ?_, ?_, ?_, ?_⟩
  · intro owners observers i hi
    simp [step, World.owner, hi, SharedPtr.move, World.setOwner, World.newOwner]
  · simp [SharedPtr.moveAssign, SharedPtr.reset]
  · by_cases h1c : cb.shared_count = 1
    · obtain ⟨hobj, hval, hemb, hk⟩ := hlast h1c
      have hr := reset_last h p b cb emb hb hl h1c hK hobj hval hemb hk
      refine ⟨_, _, by simp [SharedPtr.moveAssign, hr], hr, hset _, by simp [h1c], hother _, ?_⟩
      simp [SharedPtr.destroy, SharedPtr.reset]
    · have hr := reset_nonlast h p b cb hb hl (by omega) hM
      refine ⟨_, _, by simp [SharedPtr.moveAssign, hr], hr, hset _, rfl, hother _, ?_⟩
      simp [SharedPtr.destroy, SharedPtr.reset]
  · simp [SharedPtr.destroy, SharedPtr.reset]

theorem move_transfers_witness :
    SharedPtr.moveAssign
        ⟨[⟨2, 0, .base, none, .defaulted, false⟩], [⟨true, none⟩], [.newBlock 0]⟩
        ⟨none, none⟩ ⟨some 0, some 0⟩ false =
      .ok (⟨[⟨2, 0, .base, none, .defaulted, false⟩], [⟨true, none⟩], [.newBlock 0]⟩,
        ⟨some 0, some 0⟩, ⟨none, none⟩) :=
  (move_transfers ⟨[⟨2, 0, .base, none, .defaulted, false⟩], [⟨true, none⟩], [.newBlock 0]⟩
    0 0 ⟨2, 0, .base, none, .defaulted, false⟩ none ⟨some 0, some 0⟩ rfl rfl (by decide)
    (by decide) (by decide) (fun hne => absurd hne (by decide))).2.2.1

theorem swap_step (h : Heap) (owners : List (Option SharedPtr))
    (observers : List (Option WeakPtr)) (i j : Nat) (a b : SharedPtr)
    (hi : owners[i]? = some (some a)) (hj : owners[j]? = some (some b)) :
    step ⟨h, owners, observers⟩ (.spSwap i j) =
      .ok ⟨h, (owners.set i (some b)).set j (some a), observers⟩ := by
  by_cases hij : i = j
  · subst hij
    have hab : a = b := by
      rw [hi] at hj
      exact Option.some.inj (Option.some.inj hj)
    subst hab
    simp [step, World.owner, hi, SharedPtr.swap, World.setOwner]
  · simp [step, World.owner, hi, hj, SharedPtr.swap, World.setOwner, hij]

/-- C25: `a.swap(b)` exchanges the two handles' `ptr_` and `block_` and touches
neither a control block nor a payload nor the log; swapping twice gives back the
original handles, and `a.swap(b)` leaves the pair as `b.swap(a)` does.  In a
program, `swap` of the variables `i` and `j` changes only these two variables. -/
theorem swap_exchanges (a b : SharedPtr) (h : Heap) (owners : List (Option SharedPtr))
    (observers : List (Option WeakPtr)) (i j : Nat)
    (hi : owners[i]? = some (some a)) (hj : owners[j]? = some (some b)) :
    SharedPtr.swap a b = (b, a) ∧
    SharedPtr.swap (SharedPtr.swap a b).1 (SharedPtr.swap a b).2 = (a, b) ∧
    SharedPtr.swap b a = ((SharedPtr.swap a b).2, (SharedPtr.swap a b).1) ∧
    step ⟨h, owners, observers⟩ (.spSwap i j) =
      .ok ⟨h, (owners.set i (some b)).set j (some a), observers⟩ ∧
    step ⟨h, owners, observers⟩ (.spSwap j i) = step ⟨h, owners, observers⟩ (.spSwap i j) ∧
    run ⟨h, owners, observers⟩ [.spSwap i j, .spSwap i j] = .ok ⟨h, owners, observers⟩ := by
  have hil : i < owners.length := (List.getElem?_eq_some.mp hi).1
  have hjl : j < owners.length := (List.getElem?_eq_some.mp hj).1
  have hs1 := swap_step h owners observers i j a b hi hj
  have hs2 : step ⟨h, owners, observers⟩ (.spSwap j i) =
      .ok ⟨h, (owners.set i (some b)).set j (some a), observers⟩ := by
    rw [swap_step h owners observers j i b a hj hi]
    by_cases hij : i = j
    · subst hij
      have hab : a = b := by
        rw [hi] at hj
        exact Option.some.inj (Option.some.inj hj)
      subst hab
      rfl
    · rw [List.set_comm _ _ _ hij]
  refine ⟨rfl, rfl, rfl, hs1, by rw [hs1, hs2], ?_⟩
  have hi2 : ((owners.set i (some b)).set j (some a))[i]? =
      some (some (if i = j then a else b)) := by
    by_cases hij : i = j
    · subst hij
      simp [List.getElem?_set, hil]
    · have hji : j ≠ i := fun e => hij e.symm
      simp [List.getElem?_set, hil, hij, hji]
  have hj2 : ((owners.set i (some b)).set j (some a))[j]? = some (some a) := by
    simp [List.getElem?_set, hjl]
  have hs3 := swap_step h ((owners.set i (some b)).set j (some a)) observers i j _ _ hi2 hj2
  have hback : ((((owners.set i (some b)).set j (some a)).set i (some a)).set j
      (some (if i = j then a else b))) = owners := by
    apply List.ext_getElem?
    intro n
    by_cases hnj : j = n
    · subst hnj
      by_cases hij : i = j
      · subst hij
        simp [List.getElem?_set, hil, hi]
      · simp [List.getElem?_set, hjl, hj, hij]
    · by_cases hni : i = n
      · subst hni
        simp [List.getElem?_set, hil, hi, hnj]
      · simp [List.getElem?_set, hni, hnj]
  simp only [run, hs1, hs3, hback]

theorem swap_exchanges_witness :
    step ⟨⟨[⟨1, 0, .base, none, .defaulted, false⟩], [⟨true, none⟩], [.newBlock 0]⟩,
          [some ⟨some 0, some 0⟩, some ⟨none, none⟩], []⟩ (.spSwap 0 1) =
      .ok ⟨⟨[⟨1, 0, .base, none, .defaulted, false⟩], [⟨true, none⟩], [.newBlock 0]⟩,
        (([some ⟨some 0, some 0⟩, some ⟨none, none⟩] : List (Option SharedPtr)).set 0
          (some ⟨none, none⟩)).set 1 (some ⟨some 0, some 0⟩), []⟩ :=
  (swap_exchanges ⟨some 0, some 0⟩ ⟨none, none⟩
    ⟨[⟨1, 0, .base, none, .defaulted, false⟩], [⟨true, none⟩], [.newBlock 0]⟩
    [some ⟨some 0, some 0⟩, some ⟨none, none⟩] [] 0 1 rfl rfl).2.2.2.1

theorem resetTo_of_reset (h h1 : Heap) (s s1 : SharedPtr) (q : Ptr)
    (hr : SharedPtr.reset h s = .ok (h1, s1)) :
    SharedPtr.resetTo h s q =
      .ok (⟨h1.blocks ++ [⟨1, 0, .base, none, .defaulted, false⟩], h1.objects,
            h1.log ++ [.newBlock h1.blocks.length]⟩, ⟨q, some h1.blocks.length⟩) ∧
    SharedPtr.use_count
      ⟨h1.blocks ++ [⟨1, 0, .base, none, .defaulted, false⟩], h1.objects,
        h1.log ++ [.newBlock h1.blocks.length]⟩ ⟨q, some h1.blocks.length⟩ = .ok 1 := by
  constructor
  · simp [SharedPtr.resetTo, hr, Heap.place, BaseControlBlock]
  · simp [SharedPtr.use_count, Heap.loadPtr, Heap.load]

/-- C26: `h.reset(q)`, for every raw pointer `q` (null included).  On a handle
with a null `ptr_` or `block_`, for which `reset()` does nothing, it allocates a
new `BaseControlBlock` at an unused address and leaves the handle `{q, new block}`.
On a handle `{p, b}` holding a share of an allocated block (conditions of
`reset()`), it succeeds, the heap is the one `reset()` leaves (one share of `b`
released, the old payload destroyed exactly when that share was the last) with a
new `BaseControlBlock` added at an unused address, hence a block other than `b`;
afterwards `get() == q` and `use_count() == 1`. -/
theorem resetTo_reseats (h : Heap) (p b : Nat) (cb : ControlBlock) (emb : Option WeakPtr)
    (q : Ptr)
    (hb : h.blocks[b]? = some cb) (hl : cb.freed = false)
    (hc : 1 ≤ cb.shared_count) (hM : cb.shared_count < SIZE_MOD)
    (hK : cb.weak_count < SIZE_MOD)
    (hlast : cb.shared_count = 1 →
      h.objects[p]? = some ⟨true, emb⟩ ∧ (cb.strategy = .makeShared → cb.value = some p) ∧
      (emb = none ∨ ∃ x, emb = some ⟨x, some b⟩) ∧ (emb ≠ none → 2 ≤ cb.weak_count)) :
    (∀ s : SharedPtr, (s.ptr_ = none ∨ s.block_ = none) →
      SharedPtr.resetTo h s q =
        .ok (⟨h.blocks ++ [⟨1, 0, .base, none, .defaulted, false⟩], h.objects,
              h.log ++ [.newBlock h.blocks.length]⟩, ⟨q, some h.blocks.length⟩) ∧
      SharedPtr.use_count
        ⟨h.blocks ++ [⟨1, 0, .base, none, .defaulted, false⟩], h.objects,
          h.log ++ [.newBlock h.blocks.length]⟩ ⟨q, some h.blocks.length⟩ = .ok 1) ∧
    ∃ h1 h2 cb1 t,
      SharedPtr.reset h ⟨some p, some b⟩ = .ok (h1, ⟨none, none⟩) ∧
      h1.blocks[b]? = some cb1 ∧ cb1.shared_count = cb.shared_count - 1 ∧
      (destroyCount h1.log p = destroyCount h.log p + (if cb.shared_count = 1 then 1 else 0)) ∧
      SharedPtr.resetTo h ⟨some p, some b⟩ q = .ok (h2, t) ∧
      h2 = ⟨h1.blocks ++ [⟨1, 0, .base, none, .defaulted, false⟩], h1.objects,
            h1.log ++ [.newBlock h.blocks.length]⟩ ∧
      t = ⟨q, some h.blocks.length⟩ ∧ t.block_ ≠ some b ∧ h.blocks[h.blocks.length]? = none ∧
      h2.blocks[b]? = some cb1 ∧
      t.get = q ∧ SharedPtr.use_count h2 t = .ok 1 := by
  have hlt : b < h.blocks.length := (List.getElem?_eq_some.mp hb).1
  have hset : ∀ X : ControlBlock, (h.blocks.set b X)[b]? = some X := by
    intro X
    simp [List.getElem?_set, hlt]
  constructor
  · intro s hs
    have hr : SharedPtr.reset h s = .ok (h, s) := by
      obtain ⟨sp, sb⟩ := s
      rcases hs with hs | hs
      · simp only at hs
        subst hs
        simp [SharedPtr.reset]
      · simp only at hs
        subst hs
        cases sp <;> simp [SharedPtr.reset]
    exact resetTo_of_reset h h s s q hr
  · by_cases h1c : cb.shared_count = 1
    · obtain ⟨hobj, hval, hemb, hk⟩ := hlast h1c
      have hr := reset_last h p b cb emb hb hl h1c hK hobj hval hemb hk
      have hto := resetTo_of_reset h _ _ _ q hr
      simp only [List.length_set] at hto
      refine ⟨_, _, _, _, hr, hset _, by simp [h1c], ?_, hto.1, rfl, rfl, ?_, by simp, ?_, rfl,
        hto.2⟩
      · cases hst : cb.strategy <;> by_cases hk0 : cb.weak_count = 0 <;>
          simp [destroyCount, destructionPath, deallocationPath, hk0, List.countP_append,
            List.countP_cons, h1c]
      · simp only [ne_eq, Option.some.injEq]
        omega
      · simp only
        rw [List.getElem?_append_left (by simpa using hlt)]
        exact hset _
    · have hr := reset_nonlast h p b cb hb hl (by omega) hM
      have hto := resetTo_of_reset h _ _ _ q hr
      simp only [Heap.store, List.length_set] at hto
      refine ⟨_, _, _, _, hr, hset _, rfl, by simp [h1c, Heap.store], hto.1, rfl, rfl, ?_,
        by simp, ?_, rfl, hto.2⟩
      · simp only [ne_eq, Option.some.injEq]
        omega
      · simp only [Heap.store]
        rw [List.getElem?_append_left (by simpa using hlt)]
        exact hset _

theorem resetTo_reseats_witness :
    ∃ h1 h2 cb1 t,
      SharedPtr.reset
        ⟨[⟨2, 0, .base, none, .defaulted, false⟩], [⟨true, none⟩, ⟨true, none⟩], [.newBlock 0]⟩
        ⟨some 0, some 0⟩ = .ok (h1, ⟨none, none⟩) ∧
      h1.blocks[0]? = some cb1 ∧ cb1.shared_count = 2 - 1 ∧
      SharedPtr.resetTo
        ⟨[⟨2, 0, .base, none, .defaulted, false⟩], [⟨true, none⟩, ⟨true, none⟩], [.newBlock 0]⟩
        ⟨some 0, some 0⟩ (some 1) = .ok (h2, t) ∧
      t = ⟨some 1, some 1⟩ ∧ SharedPtr.use_count h2 t = .ok 1 := by
  obtain ⟨h1, h2, cb1, t, hr, hb1, hs1, _, hto, _, ht, _, _, _, _, hu⟩ :=
    (resetTo_reseats
      ⟨[⟨2, 0, .base, none, .defaulted, false⟩], [⟨true, none⟩, ⟨true, none⟩], [.newBlock 0]⟩
      0 0 ⟨2, 0, .base, none, .defaulted, false⟩ none (some 1) rfl rfl (by decide)
      (by decide) (by decide) (fun hne => absurd hne (by decide))).2
  exact ⟨h1, h2, cb1, t, hr, hb1, hs1, hto, ht, hu⟩

/-! ### Observing handles -/

/-- C27: for an observing handle whose `block_` is an allocated block,
`expired()` returns whether that block's `shared_count` is 0 and `use_count()`
returns that block's `shared_count`.  Both only read the block: they yield a
value and no new heap. -/
theorem observer_queries (h : Heap) (w : WeakPtr) (b : Nat) (cb : ControlBlock)
    (hw : w.block_ = some b) (hb : h.blocks[b]? = some cb) (hl : cb.freed = false) :
    WeakPtr.expired h w = .ok (cb.shared_count == 0) ∧
    (WeakPtr.expired h w = .ok true ↔ cb.shared_count = 0) ∧
    WeakPtr.use_count h w = .ok cb.shared_count := by
  simp [WeakPtr.expired, WeakPtr.use_count, Heap.loadPtr, hw, load_ok hb hl]

theorem observer_queries_witness :
    WeakPtr.expired ⟨[⟨0, 1, .base, none, .defaulted, false⟩], [⟨false, none⟩], []⟩
        ⟨some 0, some 0⟩ = .ok ((0 : Nat) == 0) ∧
      WeakPtr.use_count ⟨[⟨0, 1, .base, none, .defaulted, false⟩], [⟨false, none⟩], []⟩
        ⟨some 0, some 0⟩ = .ok 0 :=
  ⟨(observer_queries ⟨[⟨0, 1, .base, none, .defaulted, false⟩], [⟨false, none⟩], []⟩
      ⟨some 0, some 0⟩ 0 ⟨0, 1, .base, none, .defaulted, false⟩ rfl rfl rfl).1,
   (observer_queries ⟨[⟨0, 1, .base, none, .defaulted, false⟩], [⟨false, none⟩], []⟩
      ⟨some 0, some 0⟩ 0 ⟨0, 1, .base, none, .defaulted, false⟩ rfl rfl rfl).2.2⟩

theorem weak_reset_eval (h : Heap) (b : Nat) (cb : ControlBlock) (q : Ptr)
    (hb : h.blocks[b]? = some cb) (hl : cb.freed = false)
    (hk : 1 ≤ cb.weak_count) (hK : cb.weak_count < SIZE_MOD) :
    WeakPtr.reset h ⟨q, some b⟩ = .ok
      (⟨h.blocks.set b
          { cb with
            weak_count := cb.weak_count - 1,
            freed := decide (cb.shared_count = 0 ∧ cb.weak_count = 1) },
        h.objects,
        h.log ++ (if cb.shared_count = 0 ∧ cb.weak_count = 1
                  then [deallocationPath cb.strategy b] else [])⟩, ⟨q, some b⟩) := by
  have hlt : b < h.blocks.length := (List.getElem?_eq_some.mp hb).1
  have hdec : decr cb.weak_count = cb.weak_count - 1 := decr_pos (by omega) hK
  obtain ⟨s, k, st, v, al, fr⟩ := cb
  simp only at hl hk hK hdec
  subst hl
  by_cases hz : s = 0 ∧ k = 1
  · obtain ⟨hs, hk1⟩ := hz
    subst hs hk1
    cases st
    all_goals simp [WeakPtr.reset, load_ok hb, hdec, Heap.store, Heap.freeBlock,
      Heap.deallocate, Heap.emit, deallocationPath]
  · have hz2 : ¬ (s = 0 ∧ k - 1 = 0) := by omega
    simp [WeakPtr.reset, load_ok hb, hdec, Heap.store, hz, hz2]

/-- C28: the operations of an observing handle on an allocated block `b` with
`weak_count = k`.  Construction from an owning handle and from an observing handle
of `b` store `k + 1` and nothing else.  Copy assignment (from an observing or an
owning handle of `b`) first releases the target as `reset()` does and then stores
the `weak_count` of `b` increased by 1.  Move construction gives the source's
fields to the new handle and empties the source without touching the heap; move
assignment releases the target as `reset()` does and does the same.  `reset()` and
the destructor of a handle of `b` store `k - 1` and, when that is 0 and
`shared_count` is 0, give the block back; on the default-constructed handle they do
nothing.  Every result keeps `shared_count`, the payload objects and the
destruction events as they were. -/
theorem observer_ops_frame (h : Heap) (b : Nat) (cb : ControlBlock) (q : Ptr)
    (hb : h.blocks[b]? = some cb) (hl : cb.freed = false)
    (hK : cb.weak_count + 1 < SIZE_MOD) :
    WeakPtr.ofShared h ⟨q, some b⟩ =
      .ok (⟨h.blocks.set b { cb with weak_count := cb.weak_count + 1 }, h.objects, h.log⟩,
        ⟨q, some b⟩) ∧
    WeakPtr.copy h ⟨q, some b⟩ =
      .ok (⟨h.blocks.set b { cb with weak_count := cb.weak_count + 1 }, h.objects, h.log⟩,
        ⟨q, some b⟩) ∧
    (∀ (this this1 : WeakPtr) (hr : Heap) (cbr : ControlBlock),
      WeakPtr.reset h this = .ok (hr, this1) → hr.blocks[b]? = some cbr → cbr.freed = false →
      cbr.weak_count + 1 < SIZE_MOD →
      WeakPtr.assign h this ⟨q, some b⟩ false =
        .ok (⟨hr.blocks.set b { cbr with weak_count := cbr.weak_count + 1 }, hr.objects, hr.log⟩,
          ⟨q, some b⟩) ∧
      WeakPtr.assignShared h this ⟨q, some b⟩ =
        .ok (⟨hr.blocks.set b { cbr with weak_count := cbr.weak_count + 1 }, hr.objects, hr.log⟩,
          ⟨q, some b⟩)) ∧
    WeakPtr.move ⟨q, some b⟩ = (⟨q, some b⟩, ⟨none, none⟩) ∧
    (∀ (this this1 src : WeakPtr) (hr : Heap), WeakPtr.reset h this = .ok (hr, this1) →
      WeakPtr.moveAssign h this src false = .ok (hr, src, ⟨none, none⟩)) ∧
    WeakPtr.reset h ⟨none, none⟩ = .ok (h, ⟨none, none⟩) ∧
    WeakPtr.destroy h ⟨none, none⟩ = .ok h ∧
    (1 ≤ cb.weak_count →
      WeakPtr.reset h ⟨q, some b⟩ = .ok
        (⟨h.blocks.set b
            { cb with
              weak_count := cb.weak_count - 1,
              freed := decide (cb.shared_count = 0 ∧ cb.weak_count = 1) },
          h.objects,
          h.log ++ (if cb.shared_count = 0 ∧ cb.weak_count = 1
                    then [deallocationPath cb.strategy b] else [])⟩, ⟨q, some b⟩) ∧
      WeakPtr.destroy h ⟨q, some b⟩ = .ok
        ⟨h.blocks.set b
            { cb with
              weak_count := cb.weak_count - 1,
              freed := decide (cb.shared_count = 0 ∧ cb.weak_count = 1) },
          h.objects,
          h.log ++ (if cb.shared_count = 0 ∧ cb.weak_count = 1
                    then [deallocationPath cb.strategy b] else [])⟩) := by
  refine ⟨?_, ?_, ?_, rfl, ?_, ?_, ?_, ?_⟩
  · simp [WeakPtr.ofShared, incWeak_ok h b cb hb hl, incr_lt hK, Heap.store]
  · simp [WeakPtr.copy, incWeak_ok h b cb hb hl, incr_lt hK, Heap.store]
  · intro this this1 hr cbr hres hbr hlr hKr
    simp [WeakPtr.assign, WeakPtr.assignShared, hres, incWeak_ok hr b cbr hbr hlr,
      incr_lt hKr, Heap.store]
  · intro this this1 src hr hres
    simp [WeakPtr.moveAssign, hres]
  · simp [WeakPtr.reset]
  · simp [WeakPtr.destroy, WeakPtr.reset]
  · intro hk
    have hr := weak_reset_eval h b cb q hb hl hk (by omega)
    exact ⟨hr, by simp [WeakPtr.destroy, hr]⟩

theorem observer_ops_frame_witness :
    WeakPtr.ofShared ⟨[⟨1, 0, .base, none, .defaulted, false⟩], [⟨true, none⟩], [.newBlock 0]⟩
        ⟨some 0, some 0⟩ =
      .ok (⟨([⟨1, 0, .base, none, .defaulted, false⟩] : List ControlBlock).set 0
              { (⟨1, 0, .base, none, .defaulted, false⟩ : ControlBlock) with weak_count := 0 + 1 },
            [⟨true, none⟩], [.newBlock 0]⟩, ⟨some 0, some 0⟩) :=
  (observer_ops_frame ⟨[⟨1, 0, .base, none, .defaulted, false⟩], [⟨true, none⟩], [.newBlock 0]⟩
    0 ⟨1, 0, .base, none, .defaulted, false⟩ (some 0) rfl rfl (by decide)).1

/-! ### Allocators and re-seating of self-aware payloads -/

theorem destroy_of_reset {h h1 : Heap} {s s1 : SharedPtr}
    (hr : SharedPtr.reset h s = .ok (h1, s1)) : SharedPtr.destroy h s = .ok h1 := by
  simp only [SharedPtr.destroy, hr]

theorem last_release_fresh (h : Heap) (st : Strategy) (v : Ptr) (al : Alloc)
    (hv : st = .makeShared → v = some h.objects.length) :
    ∃ h2, SharedPtr.destroy
        ⟨h.blocks ++ [⟨1, 0, st, v, al, false⟩], h.objects ++ [⟨true, none⟩],
          h.log ++ [.allocate .defaulted h.blocks.length]⟩
        ⟨some h.objects.length, some h.blocks.length⟩ = .ok h2 ∧
      h2.log = h.log ++ [.allocate .defaulted h.blocks.length,
        destructionPath st h.blocks.length h.objects.length,
        deallocationPath st h.blocks.length] := by
  have hr := reset_last
    ⟨h.blocks ++ [⟨1, 0, st, v, al, false⟩], h.objects ++ [⟨true, none⟩],
      h.log ++ [.allocate .defaulted h.blocks.length]⟩
    h.objects.length h.blocks.length ⟨1, 0, st, v, al, false⟩ none
    (by simp) rfl rfl (by simp [SIZE_MOD]) (by simp) hv (Or.inl rfl)
    (fun hne => absurd rfl hne)
  exact ⟨_, destroy_of_reset hr, by simp⟩

/-- C29 (code defect): `allocateShared<T>(a)` and `SharedPtr(p, del, a)` store the
caller's allocator `a` in the block, but the block's memory is obtained from a
default-constructed rebound allocator and, at the last release, given back through
another default-constructed one: no allocation or deallocation event goes through
`a`. -/
theorem block_memory_ignores_given_allocator (h : Heap) (a : Nat) :
    (∃ h1 h2 cb,
      allocateShared false h a = .ok (h1, ⟨some h.objects.length, some h.blocks.length⟩) ∧
      h1.blocks[h.blocks.length]? = some cb ∧ cb.alloc = .given a ∧
      cb.strategy = .makeShared ∧
      h1.log = h.log ++ [.allocate .defaulted h.blocks.length] ∧
      SharedPtr.destroy h1 ⟨some h.objects.length, some h.blocks.length⟩ = .ok h2 ∧
      h2.log = h.log ++ [.allocate .defaulted h.blocks.length,
        .destroyValue h.blocks.length h.objects.length,
        .deallocate .defaulted h.blocks.length]) ∧
    (∃ h1 h2 cb,
      SharedPtr.ofDeleterAlloc false (h.newObject false) (some h.objects.length) a =
        .ok (h1, ⟨some h.objects.length, some h.blocks.length⟩) ∧
      h1.blocks[h.blocks.length]? = some cb ∧ cb.alloc = .given a ∧
      cb.strategy = .regular ∧
      h1.log = h.log ++ [.allocate .defaulted h.blocks.length] ∧
      SharedPtr.destroy h1 ⟨some h.objects.length, some h.blocks.length⟩ = .ok h2 ∧
      h2.log = h.log ++ [.allocate .defaulted h.blocks.length,
        .deleter h.blocks.length (some h.objects.length),
        .deallocate .defaulted h.blocks.length]) := by
  constructor
  · obtain ⟨h2, hd, hlog⟩ := last_release_fresh h .makeShared (some h.objects.length)
      (.given a) (fun _ => rfl)
    exact ⟨Heap.mk
        (h.blocks ++ [(⟨1, 0, .makeShared, some h.objects.length, .given a, false⟩ : ControlBlock)])
        (h.objects ++ [(⟨true, none⟩ : Object)])
        (h.log ++ [Event.allocate .defaulted h.blocks.length]), h2,
      (⟨1, 0, .makeShared, some h.objects.length, .given a, false⟩ : ControlBlock),
      rfl, by simp, rfl, rfl, rfl, hd, hlog⟩
  · obtain ⟨h2, hd, hlog⟩ := last_release_fresh h .regular none (.given a)
      (fun hne => absurd hne (by simp))
    exact ⟨Heap.mk
        (h.blocks ++ [(⟨1, 0, .regular, none, .given a, false⟩ : ControlBlock)])
        (h.objects ++ [(⟨true, none⟩ : Object)])
        (h.log ++ [Event.allocate .defaulted h.blocks.length]), h2,
      (⟨1, 0, .regular, none, .given a, false⟩ : ControlBlock),
      rfl, by simp, rfl, rfl, rfl, hd, hlog⟩

/-- C30 (code defect): `reset(T*)` has no statement `ptr_->weakPtr = *this`.  After
`T* q = new T; SharedPtr<T> h; h.reset(q);` for a payload type with the
`EnableSharedFromThis` base, `h` is `{q, new block}` with `use_count() == 1`, the
new block has `weak_count == 0`, and the member handle `weakPtr` of `*q` is still
default-constructed, as is `weakPtr_`.  The same holds when `h` owned another
payload before, and for every heap `reset(q)` on an empty handle leaves all payload
objects as they were.  The constructor `SharedPtr<T>(q)` does assign the member:
after it `weakPtr` is `{q, block}` and the block has `weak_count == 1`. -/
theorem resetTo_leaves_internal_handle_unset :
    (∃ w, run World.empty [.newPayload true, .spDefault, .spResetTo 0 (some 0)] = .ok w ∧
      w.owners = [some ⟨some 0, some 0⟩] ∧
      SharedPtr.use_count w.heap ⟨some 0, some 0⟩ = .ok 1 ∧
      w.heap.blocks = [⟨1, 0, .base, none, .defaulted, false⟩] ∧
      w.heap.objects = [⟨true, some ⟨none, none⟩⟩] ∧
      w.heap.weakPtr_ 0 = some ⟨none, none⟩) ∧
    (∃ w, run World.empty [.newPayload false, .newPayload true, .spRaw false (some 0),
        .spCopy 0, .spResetTo 0 (some 1)] = .ok w ∧
      w.owners = [some ⟨some 1, some 1⟩, some ⟨some 0, some 0⟩] ∧
      SharedPtr.use_count w.heap ⟨some 1, some 1⟩ = .ok 1 ∧
      w.heap.blocks = [⟨1, 0, .base, none, .defaulted, false⟩,
        ⟨1, 0, .base, none, .defaulted, false⟩] ∧
      w.heap.objects = [⟨true, none⟩, ⟨true, some ⟨none, none⟩⟩] ∧
      w.heap.weakPtr_ 1 = some ⟨none, none⟩) ∧
    (∃ w, run World.empty [.newPayload true, .spRaw true (some 0)] = .ok w ∧
      w.owners = [some ⟨some 0, some 0⟩] ∧
      SharedPtr.use_count w.heap ⟨some 0, some 0⟩ = .ok 1 ∧
      w.heap.blocks = [⟨1, 1, .base, none, .defaulted, false⟩] ∧
      w.heap.objects = [⟨true, some ⟨some 0, some 0⟩⟩]) ∧
    ∀ (h : Heap) (q : Ptr), ∃ h1,
      SharedPtr.resetTo h ⟨none, none⟩ q = .ok (h1, ⟨q, some h.blocks.length⟩) ∧
      h1.objects = h.objects := by
  refine ⟨⟨_, rfl, by decide, by decide, by decide, by decide, by decide⟩,
    ⟨_, rfl, by decide, by decide, by decide, by decide, by decide⟩,
    ⟨_, rfl, by decide, by decide, by decide, by decide⟩, ?_⟩
  intro h q
  exact ⟨_, rfl, rfl⟩

/-! ### Assignment from empty sources and repeated release -/

/-- C31 (code defect): `operator=(const SharedPtr&)` executes
`++block_->shared_count` without testing the source.  With an empty source `s`,
`t = s` dereferences the null `block_`, for an empty target and for a target that
owns a payload alike, whereas `t.reset()` followed by copy construction from `s`
succeeds and gives the empty handle.  With a source `SharedPtr<T> s(nullptr)`
(null `ptr_`, a block), `t = s` raises the block's `shared_count` to 2, whereas
copy construction from `s` leaves it at 1.  For a source with a non-null `ptr_` the
two agree. -/
theorem assign_from_empty_source_faults (h : Heap) :
    SharedPtr.assign h ⟨none, none⟩ ⟨none, none⟩ false = .error .nullDeref ∧
    SharedPtr.reset h ⟨none, none⟩ = .ok (h, ⟨none, none⟩) ∧
    SharedPtr.copy h ⟨none, none⟩ = .ok (h, ⟨none, none⟩) ∧
    (∃ w h1, run World.empty [.newPayload false, .spRaw false (some 0), .spDefault] = .ok w ∧
      w.owners = [some ⟨some 0, some 0⟩, some ⟨none, none⟩] ∧
      step w (.spAssign 0 1) = .error .nullDeref ∧
      SharedPtr.reset w.heap ⟨some 0, some 0⟩ = .ok (h1, ⟨none, none⟩) ∧
      SharedPtr.copy h1 ⟨none, none⟩ = .ok (h1, ⟨none, none⟩)) ∧
    (∃ w w1 w2, run World.empty [.spRaw false none, .spDefault] = .ok w ∧
      w.owners = [some ⟨none, some 0⟩, some ⟨none, none⟩] ∧
      step w (.spAssign 1 0) = .ok w1 ∧
      w1.owners = [some ⟨none, some 0⟩, some ⟨none, some 0⟩] ∧
      w1.heap.blocks = [⟨2, 0, .base, none, .defaulted, false⟩] ∧
      run w [.spReset 1, .spCopy 0] = .ok w2 ∧
      w2.owners = [some ⟨none, some 0⟩, some ⟨none, none⟩, some ⟨none, some 0⟩] ∧
      w2.heap.blocks = [⟨1, 0, .base, none, .defaulted, false⟩]) ∧
    (∀ (t : SharedPtr) (p : Nat) (sb : Ptr),
      SharedPtr.assign h t ⟨some p, sb⟩ false =
        match SharedPtr.reset h t with
        | .error e => .error e
        | .ok (h1, _) => SharedPtr.copy h1 ⟨some p, sb⟩) := by
  refine ⟨rfl, rfl, rfl, ⟨_, _, rfl, by decide, by decide, rfl, rfl⟩,
    ⟨_, _, _, rfl, by decide, rfl, by decide, by decide, rfl, by decide, by decide⟩, ?_⟩
  intro t p sb
  simp only [SharedPtr.assign, SharedPtr.copy, Bool.false_eq_true, if_false]

/-- C32: `reset()` on the empty handle changes nothing.  Whenever `h.reset()`
returns, a second `h.reset()` and the destruction of `h` return and leave the heap
and the handle as the first call left them.  For a handle `{p, b}` holding a share
of an allocated block (conditions of `reset()`), the first call does return, and in
a program `h.reset(); h.reset();` ends in the state of `h.reset();`, while
`h.reset();` followed by the destruction of `h` ends with the same heap. -/
theorem reset_idempotent (h : Heap) (p b : Nat) (cb : ControlBlock) (emb : Option WeakPtr)
    (hb : h.blocks[b]? = some cb) (hl : cb.freed = false)
    (hc : 1 ≤ cb.shared_count) (hM : cb.shared_count < SIZE_MOD)
    (hK : cb.weak_count < SIZE_MOD)
    (hlast : cb.shared_count = 1 →
      h.objects[p]? = some ⟨true, emb⟩ ∧ (cb.strategy = .makeShared → cb.value = some p) ∧
      (emb = none ∨ ∃ x, emb = some ⟨x, some b⟩) ∧ (emb ≠ none → 2 ≤ cb.weak_count)) :
    (∀ hx : Heap, SharedPtr.reset hx ⟨none, none⟩ = .ok (hx, ⟨none, none⟩)) ∧
    (∀ (hx hx1 : Heap) (s s1 : SharedPtr), SharedPtr.reset hx s = .ok (hx1, s1) →
      SharedPtr.reset hx1 s1 = .ok (hx1, s1) ∧ SharedPtr.destroy hx1 s1 = .ok hx1) ∧
    ∃ h1, SharedPtr.reset h ⟨some p, some b⟩ = .ok (h1, ⟨none, none⟩) ∧
      SharedPtr.reset h1 ⟨none, none⟩ = .ok (h1, ⟨none, none⟩) ∧
      SharedPtr.destroy h1 ⟨none, none⟩ = .ok h1 ∧
      ∀ (owners : List (Option SharedPtr)) (observers : List (Option WeakPtr)) (i : Nat),
        owners[i]? = some (some ⟨some p, some b⟩) →
        run ⟨h, owners, observers⟩ [.spReset i] =
          .ok ⟨h1, owners.set i (some ⟨none, none⟩), observers⟩ ∧
        run ⟨h, owners, observers⟩ [.spReset i, .spReset i] =
          .ok ⟨h1, owners.set i (some ⟨none, none⟩), observers⟩ ∧
        run ⟨h, owners, observers⟩ [.spReset i, .spDestroy i] =
          .ok ⟨h1, owners.set i none, observers⟩ := by
  have hgen : ∀ (hx hx1 : Heap) (s s1 : SharedPtr), SharedPtr.reset hx s = .ok (hx1, s1) →
      SharedPtr.reset hx1 s1 = .ok (hx1, s1) := by
    intro hx hx1 s s1 hr
    obtain ⟨sp, sb⟩ := s
    cases sp with
    | none =>
      simp [SharedPtr.reset] at hr
      obtain ⟨rfl, rfl⟩ := hr
      simp [SharedPtr.reset]
    | some p0 =>
      cases sb with
      | none =>
        simp [SharedPtr.reset] at hr
        obtain ⟨rfl, rfl⟩ := hr
        simp [SharedPtr.reset]
      | some b0 =>
        have hs1 : s1 = ⟨none, none⟩ := by
          simp only [SharedPtr.reset] at hr
          cases hld : hx.load b0 with
          | error e => simp [hld] at hr
          | ok cb0 =>
            simp only [hld] at hr
            split at hr
            · cases hdo : (hx.store b0 { cb0 with shared_count := decr cb0.shared_count }).delete_object
                b0 { cb0 with shared_count := decr cb0.shared_count } (some p0) with
              | error e => simp [hdo] at hr
              | ok r =>
                obtain ⟨h2, handled⟩ := r
                simp only [hdo] at hr
                cases hdp : (if handled = true then Except.ok h2 else h2.deletePayload p0) with
                | error e => simp [hdp] at hr
                | ok h3 =>
                  simp only [hdp] at hr
                  cases hl3 : h3.load b0 with
                  | error e => simp [hl3] at hr
                  | ok cb3 =>
                    simp only [hl3] at hr
                    split at hr
                    · simp at hr
                      exact hr.2.symm
                    · simp at hr
                      exact hr.2.symm
            · simp at hr
              exact hr.2.symm
        subst hs1
        simp [SharedPtr.reset]
  have hi : ∀ (h1 : Heap), SharedPtr.reset h ⟨some p, some b⟩ = .ok (h1, ⟨none, none⟩) →
      ∀ (owners : List (Option SharedPtr)) (observers : List (Option WeakPtr)) (i : Nat),
        owners[i]? = some (some ⟨some p, some b⟩) →
        run ⟨h, owners, observers⟩ [.spReset i] =
          .ok ⟨h1, owners.set i (some ⟨none, none⟩), observers⟩ ∧
        run ⟨h, owners, observers⟩ [.spReset i, .spReset i] =
          .ok ⟨h1, owners.set i (some ⟨none, none⟩), observers⟩ ∧
        run ⟨h, owners, observers⟩ [.spReset i, .spDestroy i] =
          .ok ⟨h1, owners.set i none, observers⟩ := by
    intro h1 hr owners observers i hio
    have hil : i < owners.length := (List.getElem?_eq_some.mp hio).1
    have hst : step ⟨h, owners, observers⟩ (.spReset i) =
        .ok ⟨h1, owners.set i (some ⟨none, none⟩), observers⟩ := by
      simp [step, World.owner, hio, hr, World.updOwner, World.withHeap, World.setOwner]
    have hi2 : (owners.set i (some (⟨none, none⟩ : SharedPtr)))[i]? = some (some ⟨none, none⟩) := by
      simp [List.getElem?_set, hil]
    refine ⟨by simp only [run, hst], ?_, ?_⟩
    · simp only [run, hst]
      simp [step, World.owner, hi2, SharedPtr.reset, World.updOwner, World.withHeap,
        World.setOwner]
    · simp only [run, hst]
      simp [step, World.owner, hi2, SharedPtr.destroy, SharedPtr.reset, World.withHeap,
        World.setOwner]
  refine ⟨fun hx => rfl, fun hx hx1 s s1 hr =>
    ⟨hgen hx hx1 s s1 hr, destroy_of_reset (hgen hx hx1 s s1 hr)⟩, ?_⟩
  by_cases h1c : cb.shared_count = 1
  · obtain ⟨hobj, hval, hemb, hk⟩ := hlast h1c
    have hr := reset_last h p b cb emb hb hl h1c hK hobj hval hemb hk
    exact ⟨_, hr, rfl, rfl, hi _ hr⟩
  · have hr := reset_nonlast h p b cb hb hl (by omega) hM
    exact ⟨_, hr, rfl, rfl, hi _ hr⟩

theorem reset_idempotent_witness :
    ∃ h1, SharedPtr.reset
        ⟨[⟨1, 0, .base, none, .defaulted, false⟩], [⟨true, none⟩], [.newBlock 0]⟩
        ⟨some 0, some 0⟩ = .ok (h1, ⟨none, none⟩) ∧
      SharedPtr.reset h1 ⟨none, none⟩ = .ok (h1, ⟨none, none⟩) ∧
      SharedPtr.destroy h1 ⟨none, none⟩ = .ok h1 := by
  obtain ⟨h1, hr, hr2, hd, _⟩ :=
    (reset_idempotent
      ⟨[⟨1, 0, .base, none, .defaulted, false⟩], [⟨true, none⟩], [.newBlock 0]⟩
      0 0 ⟨1, 0, .base, none, .defaulted, false⟩ none rfl rfl (by decide) (by decide)
      (by decide) (fun _ => ⟨rfl, by decide, Or.inl rfl, fun hne => absurd rfl hne⟩)).2.2
  exact ⟨h1, hr, hr2, hd⟩

/-- C33 (code defect): the copy constructors and copy assignment operators of
`WeakPtr` execute `++other.block_->weak_count` without testing the source.  From a
default-constructed owning handle, a moved-from owning handle or a
default-constructed observing handle they dereference the null `block_`; the copy
constructor of `SharedPtr` tests `other.ptr_ != nullptr` and returns the empty
handle.  Move construction from an empty observing handle does give the empty
handle. -/
theorem observer_from_empty_source_faults (h : Heap) :
    WeakPtr.ofShared h ⟨none, none⟩ = .error .nullDeref ∧
    WeakPtr.copy h ⟨none, none⟩ = .error .nullDeref ∧
    WeakPtr.assign h ⟨none, none⟩ ⟨none, none⟩ false = .error .nullDeref ∧
    WeakPtr.assignShared h ⟨none, none⟩ ⟨none, none⟩ = .error .nullDeref ∧
    SharedPtr.copy h ⟨none, none⟩ = .ok (h, ⟨none, none⟩) ∧
    WeakPtr.move ⟨none, none⟩ = (⟨none, none⟩, ⟨none, none⟩) ∧
    run World.empty [.spDefault, .wpOfShared 0] = .error .nullDeref ∧
    run World.empty [.wpDefault, .wpCopy 0] = .error .nullDeref ∧
    run World.empty [.newPayload false, .spRaw false (some 0), .spMove 0, .wpOfShared 0] =
      .error .nullDeref ∧
    run World.empty [.wpDefault, .spDefault, .wpAssignShared 0 0] = .error .nullDeref ∧
    run World.empty [.wpDefault, .wpDefault, .wpAssign 0 1] = .error .nullDeref ∧
    (∃ w, run World.empty [.spDefault, .spCopy 0] = .ok w ∧
      w.owners = [some ⟨none, none⟩, some ⟨none, none⟩] ∧ w.heap = Heap.empty) := by
  refine ⟨rfl, rfl, rfl, rfl, rfl, rfl, rfl, rfl, rfl, rfl, rfl, ⟨_, rfl, by decide, by decide⟩⟩

end SmartPointers
